import Mathlib

/-!
# NachOS MP4 file system: indexed file headers and directories

A shallow embedding of `code/filesys/filehdr.cc` and `code/filesys/directory.cc`
(NachOS-4.0_MP4) together with the properties stated for them, followed by the
periodic check of `consumer_controller.hpp` (NTHU-OS-Pthreads) and by
`Scheduler::FindNextToRun` of `code/threads/scheduler.cc` (NachOS-4.0_MP3).

* C++ `int` values are `Int`; no computation below leaves the 32-bit range for
  the constants NachOS uses (`SectorSize = 128`), so no wrap-around is modelled.
* A call that does not return normally (a failed `ASSERT`, an array index outside
  the array) is `none`.
* The recursive member functions follow on-disk data, so they carry a recursion
  budget; the functions without the `Fuel` suffix use a budget of four frames,
  which is the deepest nesting a triple-indirect header can reach.
-/

namespace NachOS

/-! ## Constants of `disk.h`, `filehdr.h` and `utility.h` -/

/-- Modelled from the spec: `disk.h` and `filehdr.h` are not among the sources, so the
sector size and the capacity of `dataSectors` (chosen so that one header fills one
sector) are parameters of the development. -/
structure Geometry where
  SectorSize : Nat
  NumDirect : Nat
deriving DecidableEq, Repr

/-- Modelled from the spec: `MaxDirectSize` = capacity × sector size. -/
def Geometry.MaxDirectSize (g : Geometry) : Int := (g.NumDirect : Int) * (g.SectorSize : Int)

/-- Modelled from the spec: `MaxSingleIndirectSize` = capacity × `MaxDirectSize`. -/
def Geometry.MaxSingleIndirectSize (g : Geometry) : Int := (g.NumDirect : Int) * g.MaxDirectSize

/-- Modelled from the spec: `MaxDoubleIndirectSize` = capacity × `MaxSingleIndirectSize`. -/
def Geometry.MaxDoubleIndirectSize (g : Geometry) : Int :=
  (g.NumDirect : Int) * g.MaxSingleIndirectSize

/-- Modelled from the spec: `MaxTripleIndirectSize` = capacity × `MaxDoubleIndirectSize`. -/
def Geometry.MaxTripleIndirectSize (g : Geometry) : Int :=
  (g.NumDirect : Int) * g.MaxDoubleIndirectSize

/-- Modelled from the spec: the `divRoundUp(n, s)` macro of `utility.h`, the quotient
`n / s` rounded up, written with C's truncating `/` and `%`. -/
def divRoundUp (n s : Int) : Int :=
  Int.tdiv n s + (if Int.tmod n s > 0 then 1 else 0)

/-! ## The free-sector bitmap -/

/-- Modelled from the spec: the free-sector bitmap (`bitmap.cc`, `pbitmap.cc` are not
among the sources). One bit per sector, `true` = in use. -/
abbrev Bitmap := List Bool

/-- Modelled from the spec: `Test(sector)`, whether the sector is marked used.
A sector number outside the map is reported as not marked. -/
def Bitmap.Test (b : Bitmap) (which : Int) : Bool :=
  decide (0 ≤ which) && b.getD which.toNat false

/-- Modelled from the spec: `Clear(sector)`, mark a sector free. -/
def Bitmap.Clear (b : Bitmap) (which : Int) : Bitmap :=
  if 0 ≤ which then b.set which.toNat false else b

/-- Modelled from the spec: `NumClear()`, how many sectors are free. -/
def Bitmap.NumClear (b : Bitmap) : Int := (b.count false : Nat)

/-- Modelled from the spec: `FindAndSet()`, find a clear bit, set it and return its
index (the lowest one, as in NachOS); `-1` and no change when no bit is clear. -/
def Bitmap.FindAndSet (b : Bitmap) : Int × Bitmap :=
  let i := b.findIdx (fun x => !x)
  if i < b.length then ((i : Int), b.set i true) else (-1, b)

/-! ## File headers -/

/-- The in-memory and on-disk file header: `numBytes`, `numSectors`, `level` and the
table `dataSectors[NumDirect]`. -/
structure FileHeader where
  numBytes : Int
  numSectors : Int
  level : Int
  dataSectors : List Int
deriving DecidableEq, Repr

/-- The constructor `FileHeader::FileHeader`: `numBytes` and `numSectors` are `-1`, every
entry of `dataSectors` is `-1`; `level` is not initialised, its value is `junk`. -/
def FileHeader.fresh (g : Geometry) (junk : Int) : FileHeader :=
  { numBytes := -1, numSectors := -1, level := junk,
    dataSectors := List.replicate g.NumDirect (-1) }

/-- The disk, seen through `FetchFrom`/`WriteBack`: the header image held by each sector. -/
abbrev Disk := Int → FileHeader

/-- The method `FileHeader::FetchFrom`: read the header stored in `sector`. -/
def FetchFrom (disk : Disk) (sector : Int) : FileHeader := disk sector

/-- The method `FileHeader::WriteBack`: store the header in `sector`. -/
def WriteBack (disk : Disk) (sector : Int) (hdr : FileHeader) : Disk :=
  fun k => if k = sector then hdr else disk k

/-- The read `dataSectors[idx]`; `none` when `idx` is outside the array. -/
def FileHeader.sectorAt (h : FileHeader) (idx : Int) : Option Int :=
  if 0 ≤ idx then h.dataSectors[idx.toNat]? else none

/-- What a call of `FileHeader::Allocate` leaves behind: the value returned (`none` when
an `ASSERT` stopped the call), the bitmap, the disk and the header itself. -/
structure AllocResult where
  ret : Option Bool
  freeMap : Bitmap
  disk : Disk
  hdr : FileHeader

/-- The loop of the direct branch of `Allocate`:
`for (i ...; i < numSectors; i++) { dataSectors[i] = FindAndSet(); ASSERT(dataSectors[i] >= 0); }`
with `n` iterations left. -/
def allocDirect : Nat → Nat → Bitmap → FileHeader → Option Bool × Bitmap × FileHeader
  | 0, _, fm, h => (some true, fm, h)
  | n + 1, i, fm, h =>
    if i < h.dataSectors.length then
      let r := Bitmap.FindAndSet fm
      let h1 := { h with dataSectors := h.dataSectors.set i r.1 }
      if 0 ≤ r.1 then allocDirect n (i + 1) r.2 h1 else (none, r.2, h1)
    else (none, fm, h)

/-- The loop shared by the three indirect branches of `Allocate`, with `n` iterations
left; `cap` is the maximum size of the next level down and `child` the recursive call. -/
def allocIndirect (g : Geometry) (junk : Int)
    (child : Bitmap → Disk → FileHeader → Int → AllocResult) (cap : Int) :
    Nat → Nat → Int → Bitmap → Disk → FileHeader → AllocResult
  | 0, _, _, fm, d, h => ⟨some true, fm, d, h⟩
  | n + 1, i, remainSize, fm, d, h =>
    if i < h.dataSectors.length then
      let r := Bitmap.FindAndSet fm
      let h1 := { h with dataSectors := h.dataSectors.set i r.1 }
      if 0 ≤ r.1 then
        let nextLevelSize := if remainSize > cap then cap else remainSize
        let remainSize1 := remainSize - nextLevelSize
        let c := child r.2 d (FileHeader.fresh g junk) nextLevelSize
        match c.ret with
        | none => ⟨none, c.freeMap, c.disk, h1⟩
        | some false => ⟨some false, c.freeMap, c.disk, h1⟩
        | some true =>
          let d1 := WriteBack c.disk r.1 c.hdr
          if remainSize1 ≤ 0 then ⟨some true, c.freeMap, d1, h1⟩
          else allocIndirect g junk child cap n (i + 1) remainSize1 c.freeMap d1 h1
      else ⟨none, r.2, d, h1⟩
    else ⟨none, fm, d, h⟩

/-- The method `FileHeader::Allocate` with a recursion budget. `junk` is the value the
uninitialised `level` field of a `new FileHeader` happens to hold. -/
def AllocateFuel (g : Geometry) (junk : Int) :
    Nat → Bitmap → Disk → FileHeader → Int → AllocResult
  | 0, fm, d, this, _ => ⟨none, fm, d, this⟩
  | fuel + 1, fm, d, this, fileSize =>
    let this0 := { this with numBytes := fileSize }
    if fileSize ≤ g.MaxDirectSize then
      let this1 := { this0 with level := 0, numSectors := divRoundUp fileSize g.SectorSize }
      if Bitmap.NumClear fm < this1.numSectors then ⟨some false, fm, d, this1⟩
      else
        let r := allocDirect this1.numSectors.toNat 0 fm this1
        ⟨r.1, r.2.1, d, r.2.2⟩
    else if fileSize ≤ g.MaxSingleIndirectSize then
      let this1 := { this0 with level := 1, numSectors := divRoundUp fileSize g.MaxDirectSize }
      if Bitmap.NumClear fm < this1.numSectors then ⟨some false, fm, d, this1⟩
      else allocIndirect g junk (AllocateFuel g junk fuel) g.MaxDirectSize
        this1.numSectors.toNat 0 fileSize fm d this1
    else if fileSize ≤ g.MaxDoubleIndirectSize then
      let this1 :=
        { this0 with level := 2, numSectors := divRoundUp fileSize g.MaxSingleIndirectSize }
      if Bitmap.NumClear fm < this1.numSectors then ⟨some false, fm, d, this1⟩
      else allocIndirect g junk (AllocateFuel g junk fuel) g.MaxSingleIndirectSize
        this1.numSectors.toNat 0 fileSize fm d this1
    else if fileSize ≤ g.MaxTripleIndirectSize then
      let this1 :=
        { this0 with level := 3, numSectors := divRoundUp fileSize g.MaxDoubleIndirectSize }
      if Bitmap.NumClear fm < this1.numSectors then ⟨some false, fm, d, this1⟩
      else allocIndirect g junk (AllocateFuel g junk fuel) g.MaxDoubleIndirectSize
        this1.numSectors.toNat 0 fileSize fm d this1
    else ⟨some false, fm, d, this0⟩

/-- The method `FileHeader::Allocate`. -/
def Allocate (g : Geometry) (junk : Int) (freeMap : Bitmap) (disk : Disk)
    (this : FileHeader) (fileSize : Int) : AllocResult :=
  AllocateFuel g junk 4 freeMap disk this fileSize

/-- The loop of the direct branch of `Deallocate`, with `n` iterations left. -/
def deallocDirect (h : FileHeader) : Nat → Nat → Bitmap → Option Bitmap
  | 0, _, fm => some fm
  | n + 1, i, fm =>
    match h.dataSectors[i]? with
    | none => none
    | some s =>
      if Bitmap.Test fm s then deallocDirect h n (i + 1) (Bitmap.Clear fm s) else none

/-- The loop of the indirect branch of `Deallocate`, with `n` iterations left; `child`
is the recursive call on the header fetched from `dataSectors[i]`. -/
def deallocIndirect (child : Bitmap → FileHeader → Option Bitmap) (d : Disk)
    (h : FileHeader) : Nat → Nat → Bitmap → Option Bitmap
  | 0, _, fm => some fm
  | n + 1, i, fm =>
    match h.dataSectors[i]? with
    | none => none
    | some s =>
      match child fm (FetchFrom d s) with
      | none => none
      | some fm1 =>
        if Bitmap.Test fm1 s then deallocIndirect child d h n (i + 1) (Bitmap.Clear fm1 s)
        else none

/-- The method `FileHeader::Deallocate` with a recursion budget; the result is the bitmap
afterwards. -/
def DeallocateFuel : Nat → Bitmap → Disk → FileHeader → Option Bitmap
  | 0, _, _, _ => none
  | fuel + 1, fm, d, this =>
    if this.level = 0 then deallocDirect this this.numSectors.toNat 0 fm
    else deallocIndirect (fun fm1 h1 => DeallocateFuel fuel fm1 d h1) d this
      this.numSectors.toNat 0 fm

/-- The method `FileHeader::Deallocate`. -/
def Deallocate (freeMap : Bitmap) (disk : Disk) (this : FileHeader) : Option Bitmap :=
  DeallocateFuel 4 freeMap disk this

/-- The indirect branches of `ByteToSector`: fetch the header at `dataSectors[offset / cap]`
and continue there with `offset % cap`. -/
def byteToSectorVia (child : FileHeader → Int → Option Int) (d : Disk) (this : FileHeader)
    (cap offset : Int) : Option Int :=
  match this.sectorAt (Int.tdiv offset cap) with
  | none => none
  | some s => child (FetchFrom d s) (Int.tmod offset cap)

/-- The method `FileHeader::ByteToSector` with a recursion budget. -/
def ByteToSectorFuel (g : Geometry) : Nat → Disk → FileHeader → Int → Option Int
  | 0, _, _, _ => none
  | fuel + 1, d, this, offset =>
    if this.level = 0 then this.sectorAt (Int.tdiv offset g.SectorSize)
    else if this.level = 1 then
      byteToSectorVia (ByteToSectorFuel g fuel d) d this g.MaxDirectSize offset
    else if this.level = 2 then
      byteToSectorVia (ByteToSectorFuel g fuel d) d this g.MaxSingleIndirectSize offset
    else if this.level = 3 then
      byteToSectorVia (ByteToSectorFuel g fuel d) d this g.MaxDoubleIndirectSize offset
    else none

/-- The method `FileHeader::ByteToSector`. -/
def ByteToSector (g : Geometry) (disk : Disk) (this : FileHeader) (offset : Int) : Option Int :=
  ByteToSectorFuel g 4 disk this offset

/-- The method `FileHeader::FileLength`. -/
def FileLength (this : FileHeader) : Int := this.numBytes

/-! ## Directories -/

/-- The C library `strncmp` on strings given by their characters before the
terminating NUL; only the sign of the result is kept. -/
def strncmp : List Char → List Char → Nat → Int
  | _, _, 0 => 0
  | [], [], _ + 1 => 0
  | [], _ :: _, _ + 1 => -1
  | _ :: _, [], _ + 1 => 1
  | a :: s, b :: t, n + 1 =>
    if a = b then strncmp s t n else if a.toNat < b.toNat then -1 else 1

/-- The C library `strncpy(dst, src, n)` into a zero-filled field of `n + 1` bytes: the
string then held by the field. -/
def strncpy (src : List Char) (n : Nat) : List Char := src.take n

/-- One slot of the directory table (`DirectoryEntry`). -/
structure DirectoryEntry where
  inUse : Bool
  sector : Int
  name : List Char
  isDir : Bool
deriving DecidableEq, Repr

/-- The class `Directory`: the table; `tableSize` is its length. -/
structure Directory where
  table : List DirectoryEntry
deriving DecidableEq, Repr

/-- The field `tableSize`. -/
def Directory.tableSize (d : Directory) : Int := (d.table.length : Int)

/-- The constructor `Directory::Directory(size)`: `size` zero-filled slots, none in use. -/
def Directory.empty (size : Nat) : Directory :=
  ⟨List.replicate size { inUse := false, sector := 0, name := [], isDir := false }⟩

/-- The scan of `FindIndex` from slot `i` on. -/
def findIndexFrom (maxLen : Nat) (name : List Char) : List DirectoryEntry → Nat → Int
  | [], _ => -1
  | e :: rest, i =>
    if e.inUse && strncmp e.name name maxLen == 0 then (i : Int)
    else findIndexFrom maxLen name rest (i + 1)

/-- The method `Directory::FindIndex`; `maxLen` is `FileNameMaxLen`. -/
def Directory.FindIndex (maxLen : Nat) (d : Directory) (name : List Char) : Int :=
  findIndexFrom maxLen name d.table 0

/-- The read `table[i]`. -/
def Directory.slot (d : Directory) (i : Int) : DirectoryEntry :=
  d.table.getD i.toNat { inUse := false, sector := 0, name := [], isDir := false }

/-- The method `Directory::Find`. -/
def Directory.Find (maxLen : Nat) (d : Directory) (name : List Char) : Int :=
  let i := d.FindIndex maxLen name
  if i ≠ -1 then (d.slot i).sector else -1

/-- The loop of `Add`: fill the first slot that is not in use; `none` when every slot is
in use. -/
def addFirstFree (maxLen : Nat) (name : List Char) (newSector : Int) (isDir : Bool) :
    List DirectoryEntry → Option (List DirectoryEntry)
  | [] => none
  | e :: rest =>
    if !e.inUse then
      some ({ e with inUse := true, name := strncpy name maxLen, sector := newSector,
                     isDir := isDir } :: rest)
    else (addFirstFree maxLen name newSector isDir rest).map (fun t => e :: t)

/-- The method `Directory::Add`: the value returned and the directory afterwards. -/
def Directory.Add (maxLen : Nat) (d : Directory) (name : List Char) (newSector : Int)
    (isDir : Bool) : Bool × Directory :=
  if d.FindIndex maxLen name ≠ -1 then (false, d)
  else
    match addFirstFree maxLen name newSector isDir d.table with
    | some t => (true, ⟨t⟩)
    | none => (false, d)

/-- The assignment `table[i].inUse = FALSE`. -/
def markUnused : List DirectoryEntry → Nat → List DirectoryEntry
  | [], _ => []
  | e :: rest, 0 => { e with inUse := false } :: rest
  | e :: rest, i + 1 => e :: markUnused rest i

/-- The method `Directory::Remove`: the value returned and the directory afterwards. -/
def Directory.Remove (maxLen : Nat) (d : Directory) (name : List Char) : Bool × Directory :=
  let i := d.FindIndex maxLen name
  if i = -1 then (false, d)
  else (true, ⟨markUnused d.table i.toNat⟩)

/-- A run of `Add` calls, one per item `(name, sector, isDir)`, in order: the values
returned and the directory after the last call. -/
def addMany (maxLen : Nat) : Directory → List (List Char × Int × Bool) → List Bool × Directory
  | d, [] => ([], d)
  | d, it :: rest =>
    let r := d.Add maxLen it.1 it.2.1 it.2.2
    let q := addMany maxLen r.2 rest
    (r.1 :: q.1, q.2)

/-- The directories that can be built from an empty one by `Add` and `Remove` calls. -/
inductive Directory.Reachable (maxLen : Nat) : Directory → Prop
  | empty (size : Nat) : Directory.Reachable maxLen (Directory.empty size)
  | add (d : Directory) (name : List Char) (sector : Int) (isDir : Bool) :
      Directory.Reachable maxLen d →
      Directory.Reachable maxLen (d.Add maxLen name sector isDir).2
  | remove (d : Directory) (name : List Char) :
      Directory.Reachable maxLen d → Directory.Reachable maxLen (d.Remove maxLen name).2

/-- An entry is a hit of the scan of `FindIndex`. -/
def DirectoryEntry.matches (maxLen : Nat) (name : List Char) (e : DirectoryEntry) : Bool :=
  e.inUse && strncmp e.name name maxLen == 0

/-- No two in-use entries carry names that `strncmp` cannot tell apart. -/
def UniqueNames (maxLen : Nat) (l : List DirectoryEntry) : Prop :=
  l.Pairwise (fun a b => a.inUse = true → b.inUse = true → strncmp a.name b.name maxLen ≠ 0)

/-- The slot `Add` writes for an item. -/
def entryOf (maxLen : Nat) (it : List Char × Int × Bool) : DirectoryEntry :=
  { inUse := true, sector := it.2.1, name := strncpy it.1 maxLen, isDir := it.2.2 }

/-- The zero-filled slot of a new directory. -/
def emptyEntry : DirectoryEntry := { inUse := false, sector := 0, name := [], isDir := false }

/-- The bitmap after `Clear` has been called on each sector of the list in turn. -/
def Bitmap.clearList (fm : Bitmap) (l : List Int) : Bitmap := l.foldl Bitmap.Clear fm

/-! ## Definitions used to state the properties of file headers -/

/-- Successive `FindAndSet` calls: the sectors returned, in call order, and the bitmap
after the last call. -/
def findAndSetN : Nat → Bitmap → List Int × Bitmap
  | 0, fm => ([], fm)
  | n + 1, fm =>
    let r := Bitmap.FindAndSet fm
    let q := findAndSetN n r.2
    (r.1 :: q.1, q.2)

/-- What a successful `Allocate` of `size` bytes leaves behind, for the list `l` of the
sectors it claimed (in the order `Deallocate` releases them): they were clear and are now
set, nothing else changed in the bitmap, the disk changed only there, `Deallocate`
releases exactly them and `ByteToSector` maps every offset of the file to one of them.
The last two hold on every disk that still holds the sectors of `l` unchanged. -/
structure AllocPost (g : Geometry) (fD fB : Nat) (fm : Bitmap) (d : Disk) (size : Int)
    (fm1 : Bitmap) (d1 : Disk) (h : FileHeader) (l : List Int) : Prop where
  nodup : l.Nodup
  wasClear : ∀ k ∈ l, Bitmap.Test fm k = false
  nowSet : ∀ k, Bitmap.Test fm1 k = (Bitmap.Test fm k || decide (k ∈ l))
  len : fm1.length = fm.length
  frame : ∀ k, k ∉ l → d1 k = d k
  dealloc : ∀ fm2 d2, (∀ k ∈ l, d2 k = d1 k) → (∀ k ∈ l, Bitmap.Test fm2 k = true) →
    DeallocateFuel fD fm2 d2 h = some (Bitmap.clearList fm2 l)
  lookup : ∀ o, 0 ≤ o → o < size → ∀ d2, (∀ k ∈ l, d2 k = d1 k) →
    ∃ k ∈ l, ByteToSectorFuel g fB d2 h o = some k

/-- What the indirect loop of `Allocate` guarantees for the entries `i .. i+n` it fills,
when `rem` bytes were left to place on entry: the counterpart of `AllocPost` for a
partly filled header. -/
structure LoopPost (g : Geometry) (fD fB : Nat) (cap : Int) (n i : Nat) (rem : Int)
    (fm : Bitmap) (d : Disk) (h : FileHeader) (fm1 : Bitmap) (d1 : Disk) (h1 : FileHeader)
    (l : List Int) : Prop where
  nodup : l.Nodup
  wasClear : ∀ k ∈ l, Bitmap.Test fm k = false
  nowSet : ∀ k, Bitmap.Test fm1 k = (Bitmap.Test fm k || decide (k ∈ l))
  len : fm1.length = fm.length
  frame : ∀ k, k ∉ l → d1 k = d k
  hdrLevel : h1.level = h.level
  hdrNumSectors : h1.numSectors = h.numSectors
  hdrNumBytes : h1.numBytes = h.numBytes
  hdrLen : h1.dataSectors.length = h.dataSectors.length
  hdrKeep : ∀ j, j < i → h1.dataSectors[j]? = h.dataSectors[j]?
  dealloc : ∀ fm2 d2, (∀ k ∈ l, d2 k = d1 k) → (∀ k ∈ l, Bitmap.Test fm2 k = true) →
    deallocIndirect (fun fm3 h3 => DeallocateFuel fD fm3 d2 h3) d2 h1 n i fm2
      = some (Bitmap.clearList fm2 l)
  lookup : ∀ o, 0 ≤ o → o < rem → ∀ d2, (∀ k ∈ l, d2 k = d1 k) →
    ∃ s k, h1.dataSectors[i + (o / cap).toNat]? = some s ∧ k ∈ l ∧
      ByteToSectorFuel g fB d2 (d2 s) (o % cap) = some k

/-- The maximum size of a file whose header has level `lvl`: `MaxDirectSize`,
`MaxSingleIndirectSize`, `MaxDoubleIndirectSize`, `MaxTripleIndirectSize`. -/
def Geometry.maxSizeAt (g : Geometry) : Nat → Int
  | 0 => g.MaxDirectSize
  | 1 => g.MaxSingleIndirectSize
  | 2 => g.MaxDoubleIndirectSize
  | _ => g.MaxTripleIndirectSize

/-- The size one entry of `dataSectors` covers in a header of level `lvl`: a sector at
level 0, the maximum size of the next level down above it. -/
def Geometry.childCapacity (g : Geometry) : Nat → Int
  | 0 => (g.SectorSize : Int)
  | 1 => g.MaxDirectSize
  | 2 => g.MaxSingleIndirectSize
  | _ => g.MaxDoubleIndirectSize

/-- The level the spec asks for: the first of 0, 1, 2, 3 whose maximum size covers `s`. -/
def requiredLevel (g : Geometry) (s : Int) : Nat :=
  if s ≤ g.maxSizeAt 0 then 0 else if s ≤ g.maxSizeAt 1 then 1
  else if s ≤ g.maxSizeAt 2 then 2 else 3

/-- A small geometry on which the definitions can be run: sectors of 2 bytes, headers with
2 entries, so that the four maximum sizes are 4, 8, 16 and 32 bytes. -/
def tinyGeometry : Geometry := ⟨2, 2⟩

/-- The geometry of the NachOS machine: sectors of 128 bytes, and 29 entries left in a
sector after the three `int` fields of the header. -/
def nachosGeometry : Geometry := ⟨128, 29⟩

/-- A disk on which every sector holds the image of a fresh header. -/
def blankDisk (g : Geometry) : Disk := fun _ => FileHeader.fresh g 0

/-- A bitmap of `n` sectors, all clear. -/
def clearMap (n : Nat) : Bitmap := List.replicate n false

/-! ## Path resolution -/

/-- Modelled from the spec: `new OpenFile(sector)` followed by `Directory::FetchFrom(file)`
(`openfile.cc` and the disk are not among the sources): the entry table stored in the file
whose header is in `sector`; `none` when `sector` is not a sector of the disk, so that the
read does not return. -/
abbrev DirDisk := Int → Option Directory

/-- The method `Directory::GetDirSector` with a recursion budget. `dirMaxLen` is
`DirectoryNameMaxLen`, `maxLen` is `FileNameMaxLen`. The string `dirPath` is the list of
its characters before the terminating NUL. Reading `dirPath[1]` of an empty string, or
writing a component longer than the buffer `dir[DirectoryNameMaxLen + 1]`, is `none`. -/
def GetDirSectorFuel (dirMaxLen maxLen : Nat) (load : DirDisk) :
    Nat → Directory → List Char → Option Int
  | 0, _, _ => none
  | fuel + 1, this, dirPath =>
    if dirPath = ['/'] then some 1
    else
      match dirPath with
      | [] => none
      | _ :: tail =>
        let dir := tail.takeWhile (fun c => c != '/')
        let rest := tail.dropWhile (fun c => c != '/')
        if dirMaxLen < dir.length then none
        else
          let dir_sector := this.Find maxLen dir
          if rest ≠ [] then
            match load dir_sector with
            | none => none
            | some directory => GetDirSectorFuel dirMaxLen maxLen load fuel directory rest
          else some dir_sector

/-- The method `Directory::GetDirSector`: each recursive call works on a shorter string,
so a budget of the length of `dirPath` is never used up. -/
def GetDirSector (dirMaxLen maxLen : Nat) (load : DirDisk) (this : Directory)
    (dirPath : List Char) : Option Int :=
  GetDirSectorFuel dirMaxLen maxLen load dirPath.length this dirPath

/-- The path `/c1/c2/.../cn` of the components `c1, ..., cn`. -/
def pathOf : List (List Char) → List Char
  | [] => []
  | c :: cs => '/' :: (c ++ pathOf cs)

/-- A chain of directories along the components of a path: the receiver holds an in-use
entry matching the first component; when further components follow, the sector of that
entry stores the entry table of the next directory, in which the chain continues; the
sector recorded for the last component is `s`. -/
inductive ResolvesTo (maxLen : Nat) (load : DirDisk) : Directory → List (List Char) → Int → Prop
  | last (dir : Directory) (c : List Char) (s : Int) :
      dir.FindIndex maxLen c ≠ -1 → dir.Find maxLen c = s → ResolvesTo maxLen load dir [c] s
  | step (dir : Directory) (c : List Char) (s1 : Int) (sub : Directory)
      (cs : List (List Char)) (s : Int) :
      dir.FindIndex maxLen c ≠ -1 → dir.Find maxLen c = s1 → load s1 = some sub → cs ≠ [] →
      ResolvesTo maxLen load sub cs s → ResolvesTo maxLen load dir (c :: cs) s

/-- A component of a path: not empty, without `/`, and short enough for the buffer `dir`. -/
def IsComponent (dirMaxLen : Nat) (c : List Char) : Prop :=
  c ≠ [] ∧ '/' ∉ c ∧ c.length ≤ dirMaxLen

/-- A disk of 1024 sectors on which every sector read through `OpenFile` holds an empty
table of 64 entries; sector numbers outside `[0, 1024)` cannot be read. -/
def emptyDirDisk : DirDisk :=
  fun s => if 0 ≤ s ∧ s < 1024 then some (Directory.empty 64) else none

/-- A three-level hierarchy for the path `/a/b/c`: the root table holds `a` at sector 5,
the table at sector 5 holds `b` at sector 6, the table at sector 6 holds `c` at sector 7. -/
def abcDisk : DirDisk :=
  fun s =>
    if s = 5 then some ((Directory.empty 4).Add 9 ['b'] 6 true).2
    else if s = 6 then some ((Directory.empty 4).Add 9 ['c'] 7 false).2
    else none

/-- The root table of `abcDisk`. -/
def abcRoot : Directory := ((Directory.empty 4).Add 9 ['a'] 5 true).2

/-! ## The consumer controller of NTHU-OS-Pthreads -/

/-- One periodic check of `ConsumerController::process`: from the size of the worker queue
and the number of consumers to the number of consumers afterwards. -/
def ConsumerController.check (low_threshold high_threshold : Int) (size : Int)
    (consumers : Nat) : Nat :=
  if size < low_threshold then consumers + 1
  else if size > high_threshold then (if consumers > 0 then consumers - 1 else consumers)
  else consumers

/-! ## Sector images of file headers -/

/-- Modelled from the spec: the memory image of a header object that `(char *)this` points
to, in `int` units (`filehdr.h` is not among the sources): the three `int` fields followed
by the table `dataSectors`. -/
def FileHeader.image (h : FileHeader) : List Int :=
  h.numBytes :: h.numSectors :: h.level :: h.dataSectors

/-- The header object whose memory image is `w`. -/
def FileHeader.ofImage (w : List Int) : FileHeader :=
  { numBytes := w.getD 0 0, numSectors := w.getD 1 0, level := w.getD 2 0,
    dataSectors := w.drop 3 }

/-- The number of `int` values one sector holds (`sizeof(int)` is 4). -/
def Geometry.intsPerSector (g : Geometry) : Nat := g.SectorSize / 4

/-- The disk as `ReadSector`/`WriteSector` see it: the `int` values held by each sector. -/
abbrev RawDisk := Int → List Int

/-- Modelled from the spec: `SynchDisk::WriteSector(sector, data)`, which copies one
sector's worth of `data` to the disk. -/
def WriteSector (g : Geometry) (raw : RawDisk) (sector : Int) (data : List Int) : RawDisk :=
  fun k => if k = sector then data.take g.intsPerSector else raw k

/-- Modelled from the spec: `SynchDisk::ReadSector(sector, data)`, which copies the sector
over the start of the object `data`; the result is the object afterwards. -/
def ReadSector (raw : RawDisk) (sector : Int) (data : List Int) : List Int :=
  (raw sector).take data.length ++ data.drop (raw sector).length

/-- The method `FileHeader::WriteBack` on the raw disk: `WriteSector(sector, (char *)this)`. -/
def FileHeader.WriteBackRaw (g : Geometry) (raw : RawDisk) (sector : Int) (this : FileHeader) :
    RawDisk :=
  WriteSector g raw sector this.image

/-- The method `FileHeader::FetchFrom` on the raw disk: `ReadSector(sector, (char *)this)`;
the result is the receiver afterwards. -/
def FileHeader.FetchFromRaw (raw : RawDisk) (sector : Int) (this : FileHeader) : FileHeader :=
  FileHeader.ofImage (ReadSector raw sector this.image)

/-! ## The tree of records below a file header -/

/-- The disk `d2` holds what `d1` holds in every sector that is clear in `fm` and set in
`fm1`, that is in every sector claimed between the two bitmaps. -/
def AgreeOnClaimed (fm fm1 : Bitmap) (d1 d2 : Disk) : Prop :=
  ∀ k, Bitmap.Test fm k = false → Bitmap.Test fm1 k = true → d2 k = d1 k

/-- What the indirect loop of `Allocate` guarantees for each entry `i + j`, `j < n`, it
fills: the entry holds a sector claimed by the loop, and the record stored there satisfies
`Q` for the size `min(rem - j * cap, cap)` it was allocated with, on every disk that still
holds the claimed sectors unchanged. -/
def KidsPost (Q : Int → Disk → FileHeader → Prop) (cap : Int) (n i : Nat) (rem : Int)
    (fm fm1 : Bitmap) (d1 : Disk) (h1 : FileHeader) : Prop :=
  ∀ j : Nat, j < n → ∃ sec, h1.dataSectors[i + j]? = some sec ∧
    Bitmap.Test fm sec = false ∧ Bitmap.Test fm1 sec = true ∧
    ∀ d2, AgreeOnClaimed fm fm1 d1 d2 → Q (min (rem - (j : Int) * cap) cap) d2 (d2 sec)

/-- The shape of the tree of records below a header `h` on the disk `d`, down to a depth
of `f` records: `numBytes` is a size `Allocate` accepts, `level` is the level that size
requires, `numSectors` is the size divided by what one entry covers, rounded up, every
entry below `numSectors` holds a sector number and, above level 0, the record stored in
entry `i` was allocated for `min(numBytes - i * childCapacity, childCapacity)` bytes and has this
shape too. -/
def TreeOk (g : Geometry) : Nat → Disk → FileHeader → Prop
  | 0, _, _ => False
  | f + 1, d, h =>
    0 ≤ h.numBytes ∧ h.numBytes ≤ g.MaxTripleIndirectSize ∧
    h.level = (requiredLevel g h.numBytes : Int) ∧
    h.numSectors = divRoundUp h.numBytes (g.childCapacity (requiredLevel g h.numBytes)) ∧
    ∀ i : Nat, (i : Int) < h.numSectors →
      ∃ sec, h.dataSectors[i]? = some sec ∧ 0 ≤ sec ∧
        (h.level ≠ 0 →
          (d sec).numBytes
            = min (h.numBytes - (i : Int) * g.childCapacity (requiredLevel g h.numBytes))
                (g.childCapacity (requiredLevel g h.numBytes)) ∧
          TreeOk g f d (d sec))

/-- The records of the tree below the header `root` on the disk `d`: the root, and the
record stored in any entry below `numSectors` of a record of the tree above level 0. -/
inductive InTree (d : Disk) (root : FileHeader) : FileHeader → Prop
  | root : InTree d root root
  | nested (p : FileHeader) (i : Nat) (sec : Int) :
      InTree d root p → p.level ≠ 0 → (i : Int) < p.numSectors →
      p.dataSectors[i]? = some sec → InTree d root (FetchFrom d sec)

/-- The indirect branches of `ByteToSector`, recording ahead of what the nested call
records the index computed here and the `numSectors` of the record indexed. -/
def byteToSectorTraceVia (child : FileHeader → Int → Option (Int × List (Int × Int)))
    (d : Disk) (this : FileHeader) (cap offset : Int) : Option (Int × List (Int × Int)) :=
  match this.sectorAt (Int.tdiv offset cap) with
  | none => none
  | some s =>
    match child (FetchFrom d s) (Int.tmod offset cap) with
    | none => none
    | some r => some (r.1, (Int.tdiv offset cap, this.numSectors) :: r.2)

/-- The method `FileHeader::ByteToSector` with a recursion budget, returning next to the
sector the list of the indices into `dataSectors` it computed, one per call, outermost
first, each with the `numSectors` of the record it indexed. The number of nested calls is
the length of the list minus one. -/
def ByteToSectorTraceFuel (g : Geometry) :
    Nat → Disk → FileHeader → Int → Option (Int × List (Int × Int))
  | 0, _, _, _ => none
  | fuel + 1, d, this, offset =>
    if this.level = 0 then
      match this.sectorAt (Int.tdiv offset g.SectorSize) with
      | none => none
      | some s => some (s, [(Int.tdiv offset g.SectorSize, this.numSectors)])
    else if this.level = 1 then
      byteToSectorTraceVia (ByteToSectorTraceFuel g fuel d) d this g.MaxDirectSize offset
    else if this.level = 2 then
      byteToSectorTraceVia (ByteToSectorTraceFuel g fuel d) d this g.MaxSingleIndirectSize offset
    else if this.level = 3 then
      byteToSectorTraceVia (ByteToSectorTraceFuel g fuel d) d this g.MaxDoubleIndirectSize offset
    else none

/-! ## Listing a directory hierarchy -/

/-- The indentation loop of `RecursiveList`, `for (j = 0; j < level; j++) printf("    ")`,
with `n` iterations left: the characters printed. -/
def indentLoop : Nat → List Char
  | 0 => []
  | n + 1 => ' ' :: ' ' :: ' ' :: ' ' :: indentLoop n

/-- The loop of `RecursiveList` over the slots of the table, from the one at the head of
the list on: the characters printed, or `none` when a read or a nested call does not
return. `child` is the nested call `subDirectory->RecursiveList(level + 1)` on the table
that `new OpenFile(table[i].sector)` and `FetchFrom` load. -/
def recursiveListLoop (load : DirDisk) (child : Directory → Option (List Char))
    (level : Int) : List DirectoryEntry → Option (List Char)
  | [] => some []
  | e :: rest =>
    if e.inUse then
      let line := indentLoop level.toNat
        ++ ['[', (if e.isDir == true then 'D' else 'F'), ']', ' '] ++ e.name ++ ['\n']
      if e.isDir then
        match load e.sector with
        | none => none
        | some subDirectory =>
          match child subDirectory with
          | none => none
          | some out =>
            (recursiveListLoop load child level rest).map (fun r => line ++ out ++ r)
      else (recursiveListLoop load child level rest).map (fun r => line ++ r)
    else recursiveListLoop load child level rest

/-- The method `Directory::RecursiveList` with a recursion budget: the characters it
prints. -/
def RecursiveListFuel (load : DirDisk) : Nat → Directory → Int → Option (List Char)
  | 0, _, _ => none
  | fuel + 1, this, level =>
    recursiveListLoop load (fun sub => RecursiveListFuel load fuel sub (level + 1)) level
      this.table

/-- The listing as the specification words it, line by line and down to `depth` nested
directories: for each in-use entry in table order one line of `4 * level` spaces, `[D] ` or
`[F] ` and the name, followed for a directory entry by the listing at `level + 1` of the
table loaded from its sector; nothing for an unused entry. -/
def listingLines (load : DirDisk) : Nat → Directory → Int → List (List Char)
  | 0, _, _ => []
  | depth + 1, dir, level =>
    dir.table.flatMap (fun e =>
      if e.inUse then
        (List.replicate (4 * level).toNat ' '
            ++ (if e.isDir then ['[', 'D', ']', ' '] else ['[', 'F', ']', ' ']) ++ e.name)
          :: (if e.isDir then
                match load e.sector with
                | some sub => listingLines load depth sub (level + 1)
                | none => []
              else [])
      else [])

/-- The characters of a list of lines, each ended by a newline. -/
def unlines (ls : List (List Char)) : List Char := ls.flatMap (fun l => l ++ ['\n'])

/-- A directory hierarchy without cycles, at most `n` directories deep below `dir`: the
sector of every in-use directory entry loads to a table, which again is such a hierarchy
one level less deep; at depth 0 no in-use entry is a directory. -/
def Hierarchy (load : DirDisk) : Nat → Directory → Bool
  | 0, dir => dir.table.all (fun e => !(e.inUse && e.isDir))
  | n + 1, dir =>
    dir.table.all (fun e =>
      !(e.inUse && e.isDir) ||
        match load e.sector with
        | some sub => Hierarchy load n sub
        | none => false)

/-! ## Deallocate with the list of its Clear calls -/

/-- The loop of the direct branch of `Deallocate`, with `n` iterations left, returning
next to the bitmap the sectors on which `Clear` was called, in call order. -/
def deallocDirectTrace (h : FileHeader) : Nat → Nat → Bitmap → Option (Bitmap × List Int)
  | 0, _, fm => some (fm, [])
  | n + 1, i, fm =>
    match h.dataSectors[i]? with
    | none => none
    | some s =>
      if Bitmap.Test fm s then
        match deallocDirectTrace h n (i + 1) (Bitmap.Clear fm s) with
        | none => none
        | some r => some (r.1, s :: r.2)
      else none

/-- The loop of the indirect branch of `Deallocate`, with `n` iterations left, returning
next to the bitmap the sectors on which `Clear` was called, in call order: those of the
nested call on `dataSectors[i]`, then `dataSectors[i]` itself, then those of the later
iterations. -/
def deallocIndirectTrace (child : Bitmap → FileHeader → Option (Bitmap × List Int))
    (d : Disk) (h : FileHeader) : Nat → Nat → Bitmap → Option (Bitmap × List Int)
  | 0, _, fm => some (fm, [])
  | n + 1, i, fm =>
    match h.dataSectors[i]? with
    | none => none
    | some s =>
      match child fm (FetchFrom d s) with
      | none => none
      | some c =>
        if Bitmap.Test c.1 s then
          match deallocIndirectTrace child d h n (i + 1) (Bitmap.Clear c.1 s) with
          | none => none
          | some r => some (r.1, c.2 ++ s :: r.2)
        else none

/-- The method `FileHeader::Deallocate` with a recursion budget, returning next to the
bitmap afterwards the list of the sectors on which `Clear` was called, one entry per call,
in call order. The result is `none` when an `ASSERT` fails. -/
def DeallocateTraceFuel : Nat → Bitmap → Disk → FileHeader → Option (Bitmap × List Int)
  | 0, _, _, _ => none
  | fuel + 1, fm, d, this =>
    if this.level = 0 then deallocDirectTrace this this.numSectors.toNat 0 fm
    else deallocIndirectTrace (fun fm1 h1 => DeallocateTraceFuel fuel fm1 d h1) d this
      this.numSectors.toNat 0 fm

/-! ## The sectors of the tree below a file header -/

/-- The sector `k` is stored in one of the entries below `numSectors` of a record of the
tree below `root`: the sectors reachable from `root`. -/
def Refs (d : Disk) (root : FileHeader) (k : Int) : Prop :=
  ∃ p, InTree d root p ∧ ∃ i : Nat, (i : Int) < p.numSectors ∧ p.dataSectors[i]? = some k

/-- The data sectors of the file below the header `h`, in the order of the blocks of the
file, following the tree down to a depth of `f` records: the entries of a record of level
0, and the data sectors below each entry in turn of a record above level 0. -/
def dataBlocks : Nat → Disk → FileHeader → List Int
  | 0, _, _ => []
  | f + 1, d, h =>
    if h.level = 0 then
      (List.range h.numSectors.toNat).map (fun i => h.dataSectors.getD i (-1))
    else
      (List.range h.numSectors.toNat).flatMap
        (fun i => dataBlocks f d (d (h.dataSectors.getD i (-1))))

/-- The sectors that hold the nested records of the tree below the header `h`, down to a
depth of `f` records: none for a record of level 0; above level 0 each entry, followed by
the sectors of the nested records below it. -/
def nestedSectors : Nat → Disk → FileHeader → List Int
  | 0, _, _ => []
  | f + 1, d, h =>
    if h.level = 0 then []
    else
      (List.range h.numSectors.toNat).flatMap
        (fun i => h.dataSectors.getD i (-1)
          :: nestedSectors f d (d (h.dataSectors.getD i (-1))))

/-! ## Counting headers -/

/-- The loop shared by the three branches of `CountHeaders`, with `n` iterations left:
`nextHdr.FetchFrom(dataSectors[i]); count += nextHdr.CountHeaders();`. -/
def countHeadersLoop (child : FileHeader → Option Int) (d : Disk) (h : FileHeader) :
    Nat → Nat → Int → Option Int
  | 0, _, count => some count
  | n + 1, i, count =>
    match h.dataSectors[i]? with
    | none => none
    | some s =>
      match child (FetchFrom d s) with
      | none => none
      | some c => countHeadersLoop child d h n (i + 1) (count + c)

/-- The method `FileHeader::CountHeaders` with a recursion budget. -/
def CountHeadersFuel (g : Geometry) : Nat → Disk → FileHeader → Option Int
  | 0, _, _ => none
  | fuel + 1, d, this =>
    if this.numBytes > g.MaxDirectSize ∧ this.numBytes ≤ g.MaxSingleIndirectSize then
      countHeadersLoop (CountHeadersFuel g fuel d) d this this.numSectors.toNat 0 1
    else if this.numBytes > g.MaxSingleIndirectSize
        ∧ this.numBytes ≤ g.MaxDoubleIndirectSize then
      countHeadersLoop (CountHeadersFuel g fuel d) d this this.numSectors.toNat 0 1
    else if this.numBytes > g.MaxDoubleIndirectSize
        ∧ this.numBytes ≤ g.MaxTripleIndirectSize then
      countHeadersLoop (CountHeadersFuel g fuel d) d this this.numSectors.toNat 0 1
    else some 1

/-- The method `FileHeader::CountHeaders`. -/
def CountHeaders (g : Geometry) (disk : Disk) (this : FileHeader) : Option Int :=
  CountHeadersFuel g 4 disk this

/-! ## Runs of Clear calls -/

/-- A run of `Clear` calls on the sectors of `tr`, each on a sector that is marked at the
time of its call, takes the bitmap `fm` to `fm1`: no sector occurs twice. -/
def ClearRun (fm fm1 : Bitmap) (tr : List Int) : Prop :=
  fm1 = Bitmap.clearList fm tr ∧ tr.Nodup ∧ ∀ k ∈ tr, Bitmap.Test fm k = true

/-! ## The scheduler of NachOS MP3 -/

/-- Modelled from the spec: a `Thread *` (`thread.h` is not among the sources); two
pointers are the same thread exactly when they are equal. -/
abbrev ThreadPtr := Nat

/-- Modelled from the spec: what the accessors `getID`, `getRemainBurstTime` and
`getPriority` of a thread return; the remaining burst time is taken as a number on which
`==` and `<` are the usual comparisons. -/
structure ThreadInfo where
  ID : Int
  remainBurstTime : Int
  priority : Int
deriving DecidableEq, Repr

/-- The three ready queues `L1`, `L2`, `L3` of the class `Scheduler`, each from front to
back. -/
structure Scheduler where
  L1 : List ThreadPtr
  L2 : List ThreadPtr
  L3 : List ThreadPtr
deriving DecidableEq, Repr

/-- Modelled from the spec: `List<T>::Remove(item)` of `lib/list.cc`, which takes out the
first element equal to `item`, under `ASSERT(IsInList(item))` before and
`ASSERT(!IsInList(item))` after; `none` when one of them fails. -/
def listRemove (item : ThreadPtr) (l : List ThreadPtr) : Option (List ThreadPtr) :=
  if item ∈ l then
    if item ∈ l.erase item then none else some (l.erase item)
  else none

/-- The method `Scheduler::removeFromQueue`: `queue->Remove(thread); return thread;`, with
the queue afterwards. The argument `queueLevel` only feeds the debug message. -/
def removeFromQueue (thread : ThreadPtr) (queue : List ThreadPtr) :
    Option (ThreadPtr × List ThreadPtr) :=
  (listRemove thread queue).map (fun q => (thread, q))

/-- The loop of `FindNextToRun` over `L1`, on the items still to visit: `pickedThread`
when the iterator is done. -/
def pickL1 (info : ThreadPtr → ThreadInfo) : ThreadPtr → List ThreadPtr → ThreadPtr
  | pickedThread, [] => pickedThread
  | pickedThread, t :: rest =>
    if (info t).remainBurstTime = (info pickedThread).remainBurstTime then
      if (info t).ID < (info pickedThread).ID then pickL1 info t rest
      else pickL1 info pickedThread rest
    else if (info t).remainBurstTime < (info pickedThread).remainBurstTime then
      pickL1 info t rest
    else pickL1 info pickedThread rest

/-- The loop of `FindNextToRun` over `L2`, on the items still to visit: `pickedThread`
when the iterator is done. -/
def pickL2 (info : ThreadPtr → ThreadInfo) : ThreadPtr → List ThreadPtr → ThreadPtr
  | pickedThread, [] => pickedThread
  | pickedThread, t :: rest =>
    if (info t).priority = (info pickedThread).priority then
      if (info t).ID < (info pickedThread).ID then pickL2 info t rest
      else pickL2 info pickedThread rest
    else if (info t).priority > (info pickedThread).priority then pickL2 info t rest
    else pickL2 info pickedThread rest

/-- The method `Scheduler::FindNextToRun`: the thread returned (`none` for `NULL`) and the
queues afterwards; the whole result is `none` when an `ASSERT` fails. `intOff` says whether
interrupts are disabled at the call, which the first `ASSERT` tests. -/
def Scheduler.FindNextToRun (info : ThreadPtr → ThreadInfo) (intOff : Bool) (s : Scheduler) :
    Option (Option ThreadPtr × Scheduler) :=
  if intOff then
    match s.L1 with
    | front :: _ =>
      (removeFromQueue (pickL1 info front s.L1) s.L1).map
        (fun r => (some r.1, { s with L1 := r.2 }))
    | [] =>
      match s.L2 with
      | front :: _ =>
        (removeFromQueue (pickL2 info front s.L2) s.L2).map
          (fun r => (some r.1, { s with L2 := r.2 }))
      | [] =>
        match s.L3 with
        | front :: _ =>
          (removeFromQueue front s.L3).map (fun r => (some r.1, { s with L3 := r.2 }))
        | [] => some (none, s)
  else none

/-- The thread `p` comes no later than `t` in the order of `L1`: a smaller remaining burst
time, or the same one and an ID that is not larger. -/
def BeforeL1 (info : ThreadPtr → ThreadInfo) (p t : ThreadPtr) : Prop :=
  (info p).remainBurstTime < (info t).remainBurstTime ∨
    ((info p).remainBurstTime = (info t).remainBurstTime ∧ (info p).ID ≤ (info t).ID)

/-- The thread `p` comes no later than `t` in the order of `L2`: a higher priority, or the
same one and an ID that is not larger. -/
def BeforeL2 (info : ThreadPtr → ThreadInfo) (p t : ThreadPtr) : Prop :=
  (info p).priority > (info t).priority ∨
    ((info p).priority = (info t).priority ∧ (info p).ID ≤ (info t).ID)

/-- A small scheduler state: threads 1, 2, 3 in `L1`, 4 in `L2`, 5 and 6 in `L3`. -/
def demoScheduler : Scheduler := ⟨[1, 2, 3], [4], [5, 6]⟩

/-- The threads of `demoScheduler`: thread `n` has ID `n`; threads 2 and 3 share the
smallest remaining burst time. -/
def demoInfo : ThreadPtr → ThreadInfo :=
  fun p => if p = 1 then ⟨1, 9, 120⟩ else if p = 2 then ⟨2, 4, 110⟩
    else if p = 3 then ⟨3, 4, 130⟩ else ⟨p, 0, 60⟩

/-! ## Deallocate with the place where it stops -/

theorem strncmp_eq_zero_iff (a b : List Char) (n : Nat) :
    strncmp a b n = 0 ↔ a.take n = b.take n := by
  induction n generalizing a b with
  | zero => simp [strncmp]
  | succ n ih =>
    cases a with
    | nil => cases b <;> simp [strncmp]
    | cons x s =>
      cases b with
      | nil => simp [strncmp]
      | cons y t =>
        by_cases hxy : x = y
        · simp [strncmp, hxy, ih]
        · by_cases hlt : x.toNat < y.toNat <;> simp [strncmp, hxy, hlt]

theorem findIndexFrom_eq_neg_one (maxLen : Nat) (name : List Char) (l : List DirectoryEntry)
    (i : Nat) :
    findIndexFrom maxLen name l i = -1 ↔ ∀ e ∈ l, e.matches maxLen name = false := by
  induction l generalizing i with
  | nil => simp [findIndexFrom]
  | cons e rest ih =>
    by_cases he : e.matches maxLen name = true
    · have he2 := he
      simp only [DirectoryEntry.matches] at he2
      simp only [findIndexFrom, he2, if_true]
      constructor
      · intro h; omega
      · intro h; have := h e (List.mem_cons_self _ _); simp [he] at this
    · have he2 := he
      simp only [DirectoryEntry.matches] at he2
      simp only [findIndexFrom, he2, Bool.false_eq_true, if_false, ih]
      simp only [Bool.not_eq_true] at he
      simp only [List.mem_cons, forall_eq_or_imp, he, true_and]

theorem findIndexFrom_spec (maxLen : Nat) (name : List Char) (l : List DirectoryEntry)
    (i : Nat) (h : findIndexFrom maxLen name l i ≠ -1) :
    ∃ k, findIndexFrom maxLen name l i = ((i + k : Nat) : Int) ∧ k < l.length ∧
      (∃ e, l[k]? = some e ∧ e.matches maxLen name = true) ∧
      ∀ j, j < k → ∀ e, l[j]? = some e → e.matches maxLen name = false := by
  induction l generalizing i with
  | nil => simp [findIndexFrom] at h
  | cons e rest ih =>
    by_cases he : e.matches maxLen name = true
    · have he2 := he
      simp only [DirectoryEntry.matches] at he2
      refine ⟨0, ?_, by simp, ⟨e, by simp, he⟩, by intro j hj; omega⟩
      simp [findIndexFrom, he2]
    · have he2 := he
      simp only [DirectoryEntry.matches] at he2
      simp only [findIndexFrom, he2, Bool.false_eq_true, if_false] at h ⊢
      obtain ⟨k, hk1, hk2, hk3, hk4⟩ := ih (i + 1) h
      refine ⟨k + 1, ?_, Nat.succ_lt_succ hk2, by simpa using hk3, ?_⟩
      · rw [hk1]; push_cast; omega
      · intro j hj e1 he1
        cases j with
        | zero => simp at he1; subst he1; simpa using he
        | succ j => simp at he1; exact hk4 j (by omega) e1 he1

theorem strncmp_strncpy_self (name : List Char) (n : Nat) :
    strncmp (strncpy name n) name n = 0 := by
  rw [strncmp_eq_zero_iff]; simp [strncpy, List.take_take]

theorem addFirstFree_some (maxLen : Nat) (name : List Char) (s : Int) (f : Bool)
    (l t : List DirectoryEntry) (h : addFirstFree maxLen name s f l = some t) :
    ∃ pre e post, l = pre ++ e :: post ∧ (∀ x ∈ pre, x.inUse = true) ∧ e.inUse = false ∧
      t = pre ++ { e with inUse := true, name := strncpy name maxLen, sector := s,
                          isDir := f } :: post := by
  induction l generalizing t with
  | nil => simp [addFirstFree] at h
  | cons e rest ih =>
    by_cases he : e.inUse = true
    · cases hr : addFirstFree maxLen name s f rest with
      | none => simp [addFirstFree, he, hr] at h
      | some t1 =>
      simp only [addFirstFree, he, hr, Bool.not_true, Bool.false_eq_true, if_false,
        Option.map_some', Option.some.injEq] at h
      subst h
      obtain ⟨pre, e1, post, h1, h2, h3, h4⟩ := ih t1 hr
      refine ⟨e :: pre, e1, post, by simp [h1], ?_, h3, by simp [h4]⟩
      intro x hx
      rcases List.mem_cons.1 hx with rfl | hx
      · exact he
      · exact h2 x hx
    · simp only [Bool.not_eq_true] at he
      simp only [addFirstFree, he, Bool.not_false, if_true, Option.some.injEq] at h
      exact ⟨[], e, rest, rfl, by simp, he, by simp [← h]⟩

theorem addFirstFree_eq_none (maxLen : Nat) (name : List Char) (s : Int) (f : Bool)
    (l : List DirectoryEntry) :
    addFirstFree maxLen name s f l = none ↔ ∀ e ∈ l, e.inUse = true := by
  induction l with
  | nil => simp [addFirstFree]
  | cons e rest ih =>
    by_cases he : e.inUse = true
    · simp [addFirstFree, he, ih]
    · simp only [Bool.not_eq_true] at he
      simp [addFirstFree, he]

theorem Add_true_inv (maxLen : Nat) (d : Directory) (name : List Char) (s : Int) (f : Bool)
    (h : (d.Add maxLen name s f).1 = true) :
    d.FindIndex maxLen name = -1 ∧
      ∃ t, addFirstFree maxLen name s f d.table = some t ∧ (d.Add maxLen name s f).2 = ⟨t⟩ := by
  unfold Directory.Add at h ⊢
  by_cases hf : d.FindIndex maxLen name = -1
  · refine ⟨hf, ?_⟩
    simp only [hf, ne_eq, not_true_eq_false, if_false] at h ⊢
    cases hadd : addFirstFree maxLen name s f d.table with
    | none => simp [hadd] at h
    | some t => exact ⟨t, rfl, rfl⟩
  · simp [hf] at h

/-- C8: once `Add(name, sector, false)` has returned TRUE, a second `Add` of the same name,
with any sector and any directory flag, returns FALSE and leaves the table as it was. -/
theorem add_duplicate_rejected (maxLen : Nat) (d : Directory) (name : List Char)
    (sector : Int) (h : (d.Add maxLen name sector false).1 = true)
    (sector2 : Int) (isDir2 : Bool) :
    (d.Add maxLen name sector false).2.Add maxLen name sector2 isDir2
      = (false, (d.Add maxLen name sector false).2) := by
  obtain ⟨_, t, ht, hd⟩ := Add_true_inv maxLen d name sector false h
  rw [hd]
  obtain ⟨pre, e, post, _, _, _, h4⟩ := addFirstFree_some maxLen name sector false d.table t ht
  have hfound : Directory.FindIndex maxLen (⟨t⟩ : Directory) name ≠ -1 := by
    unfold Directory.FindIndex
    rw [Ne, findIndexFrom_eq_neg_one]
    intro hall
    have := hall { e with inUse := true, name := strncpy name maxLen, sector := sector,
                          isDir := false } (by simp [h4])
    simp [DirectoryEntry.matches, strncmp_strncpy_self] at this
  simp [Directory.Add, hfound]

/-- C8, at a concrete directory: two slots, the name `ab`. -/
theorem add_duplicate_rejected_witness :
    ((Directory.empty 2).Add 9 ['a', 'b'] 5 false).2.Add 9 ['a', 'b'] 7 true
      = (false, ((Directory.empty 2).Add 9 ['a', 'b'] 5 false).2) :=
  add_duplicate_rejected 9 (Directory.empty 2) ['a', 'b'] 5 (by decide) 7 true

theorem getD_append_cons {α : Type} (pre : List α) (e : α) (post : List α) (dflt : α) :
    (pre ++ e :: post).getD pre.length dflt = e := by
  induction pre with
  | nil => rfl
  | cons x pre ih => simpa using ih

theorem findIndexFrom_append (maxLen : Nat) (name : List Char)
    (pre : List DirectoryEntry) (e : DirectoryEntry) (post : List DirectoryEntry) (i : Nat)
    (hpre : ∀ x ∈ pre, x.matches maxLen name = false) (he : e.matches maxLen name = true) :
    findIndexFrom maxLen name (pre ++ e :: post) i = ((i + pre.length : Nat) : Int) := by
  induction pre generalizing i with
  | nil =>
    simp only [DirectoryEntry.matches] at he
    simp [findIndexFrom, he]
  | cons x pre ih =>
    have hx := hpre x (List.mem_cons_self _ _)
    simp only [DirectoryEntry.matches] at hx
    have hstep : findIndexFrom maxLen name (x :: pre ++ e :: post) i
        = findIndexFrom maxLen name (pre ++ e :: post) (i + 1) := by
      show findIndexFrom maxLen name (x :: (pre ++ e :: post)) i = _
      simp only [findIndexFrom, hx, Bool.false_eq_true, if_false]
    rw [hstep, ih (i + 1) (fun y hy => hpre y (List.mem_cons_of_mem _ hy))]
    simp only [List.length_cons]
    congr 1; omega

theorem addFirstFree_append (maxLen : Nat) (name : List Char) (s : Int) (f : Bool)
    (pre : List DirectoryEntry) (e : DirectoryEntry) (post : List DirectoryEntry)
    (hpre : ∀ x ∈ pre, x.inUse = true) (he : e.inUse = false) :
    addFirstFree maxLen name s f (pre ++ e :: post)
      = some (pre ++ { e with inUse := true, name := strncpy name maxLen, sector := s,
                              isDir := f } :: post) := by
  induction pre with
  | nil => simp [addFirstFree, he]
  | cons x pre ih =>
    have hx := hpre x (List.mem_cons_self _ _)
    simp [addFirstFree, hx, ih (fun y hy => hpre y (List.mem_cons_of_mem _ hy))]

theorem strncmp_strncpy_left (a b : List Char) (n : Nat) :
    strncmp (strncpy a n) b n = 0 ↔ strncmp a b n = 0 := by
  simp [strncmp_eq_zero_iff, strncpy, List.take_take]

theorem addMany_fill (maxLen : Nat) (items : List (List Char × Int × Bool)) :
    ∀ (used : List DirectoryEntry) (m : Nat),
      (∀ u ∈ used, u.inUse = true) →
      (∀ u ∈ used, ∀ it ∈ items, strncmp u.name it.1 maxLen ≠ 0) →
      items.Pairwise (fun a b => strncmp a.1 b.1 maxLen ≠ 0) →
      addMany maxLen ⟨used ++ List.replicate (items.length + m) emptyEntry⟩ items
        = (List.replicate items.length true,
           ⟨used ++ (items.map (entryOf maxLen) ++ List.replicate m emptyEntry)⟩) := by
  induction items with
  | nil => intro used m _ _ _; simp [addMany]
  | cons it rest ih =>
    intro used m hused hdiff hpair
    have hrep : List.replicate (List.length (it :: rest) + m) emptyEntry
        = emptyEntry :: List.replicate (rest.length + m) emptyEntry := by
      simp only [List.length_cons]
      rw [show rest.length + 1 + m = (rest.length + m) + 1 by omega, List.replicate_succ]
    have hfind : Directory.FindIndex maxLen
        ⟨used ++ List.replicate (List.length (it :: rest) + m) emptyEntry⟩ it.1 = -1 := by
      unfold Directory.FindIndex
      rw [findIndexFrom_eq_neg_one]
      intro e he
      rcases List.mem_append.1 he with h1 | h1
      · have := hdiff e h1 it (List.mem_cons_self _ _)
        simp [DirectoryEntry.matches, this]
      · rw [List.eq_of_mem_replicate h1]; simp [DirectoryEntry.matches, emptyEntry]
    have hadd : addFirstFree maxLen it.1 it.2.1 it.2.2
        (used ++ List.replicate (List.length (it :: rest) + m) emptyEntry)
        = some ((used ++ [entryOf maxLen it]) ++ List.replicate (rest.length + m) emptyEntry) := by
      rw [hrep, addFirstFree_append maxLen it.1 it.2.1 it.2.2 used emptyEntry _ hused rfl]
      simp [entryOf, emptyEntry]
    have hstep := ih (used ++ [entryOf maxLen it]) m
      (by
        intro u hu
        rcases List.mem_append.1 hu with h1 | h1
        · exact hused u h1
        · simp at h1; subst h1; rfl)
      (by
        intro u hu it2 hit2
        rcases List.mem_append.1 hu with h1 | h1
        · exact hdiff u h1 it2 (List.mem_cons_of_mem _ hit2)
        · simp at h1; subst h1
          have := (List.pairwise_cons.1 hpair).1 it2 hit2
          simpa [entryOf, strncmp_strncpy_left] using this)
      (List.pairwise_cons.1 hpair).2
    simp only [addMany, Directory.Add, hfind, ne_eq, not_true_eq_false, if_false, hadd, hstep]
    simp [List.replicate_succ]

/-- C9: in an empty directory of `n` slots, `n` calls of `Add` with names that `strncmp`
tells apart all return TRUE; after them every further `Add` returns FALSE and leaves the
table as it is, and `Find` on each of the `n` names returns the sector it was added with. -/
theorem add_until_full (maxLen : Nat) (items : List (List Char × Int × Bool))
    (hdiff : items.Pairwise (fun a b => strncmp a.1 b.1 maxLen ≠ 0)) :
    (addMany maxLen (Directory.empty items.length) items).1 = List.replicate items.length true ∧
    (∀ name sector isDir,
      (addMany maxLen (Directory.empty items.length) items).2.Add maxLen name sector isDir
        = (false, (addMany maxLen (Directory.empty items.length) items).2)) ∧
    (∀ it ∈ items,
      (addMany maxLen (Directory.empty items.length) items).2.Find maxLen it.1 = it.2.1) := by
  have h := addMany_fill maxLen items [] 0 (by simp) (by simp) hdiff
  simp only [List.nil_append, Nat.add_zero, List.replicate_zero, List.append_nil] at h
  have hempty : Directory.empty items.length = ⟨List.replicate items.length emptyEntry⟩ := rfl
  rw [hempty, h]
  refine ⟨rfl, ?_, ?_⟩
  · intro name sector isDir
    unfold Directory.Add
    by_cases hf : Directory.FindIndex maxLen ⟨items.map (entryOf maxLen)⟩ name = -1
    · have hnone : addFirstFree maxLen name sector isDir (items.map (entryOf maxLen)) = none := by
        rw [addFirstFree_eq_none]
        intro e he
        obtain ⟨it, _, rfl⟩ := List.mem_map.1 he
        rfl
      simp [hf, hnone]
    · simp [hf]
  · intro it hit
    obtain ⟨l1, l2, rfl⟩ := List.append_of_mem hit
    have hp := List.pairwise_append.1 hdiff
    have hidx : Directory.FindIndex maxLen ⟨(l1 ++ it :: l2).map (entryOf maxLen)⟩ it.1
        = ((0 + (l1.map (entryOf maxLen)).length : Nat) : Int) := by
      unfold Directory.FindIndex
      simp only [List.map_append, List.map_cons]
      apply findIndexFrom_append
      · intro x hx
        obtain ⟨it1, hit1, rfl⟩ := List.mem_map.1 hx
        have := hp.2.2 it1 hit1 it (List.mem_cons_self _ _)
        simp [DirectoryEntry.matches, entryOf, strncmp_strncpy_left, this]
      · simp [DirectoryEntry.matches, entryOf, strncmp_strncpy_self]
    unfold Directory.Find
    simp only [hidx]
    have hne : ((0 + (l1.map (entryOf maxLen)).length : Nat) : Int) ≠ -1 := by omega
    simp only [ne_eq, hne, not_false_eq_true, if_true]
    simp only [Directory.slot, Nat.zero_add, Int.toNat_ofNat, List.map_append, List.map_cons,
      getD_append_cons]
    rfl

/-- C9, at the capacity of the scenario: ten slots, ten names. -/
theorem add_until_full_witness :
    (addMany 9 (Directory.empty 10)
      [(['a'], 10, false), (['b'], 11, false), (['c'], 12, false), (['d'], 13, false),
       (['e'], 14, false), (['f'], 15, false), (['g'], 16, false), (['h'], 17, false),
       (['i'], 18, false), (['j'], 19, false)]).1 = List.replicate 10 true :=
  (add_until_full 9
      [(['a'], 10, false), (['b'], 11, false), (['c'], 12, false), (['d'], 13, false),
       (['e'], 14, false), (['f'], 15, false), (['g'], 16, false), (['h'], 17, false),
       (['i'], 18, false), (['j'], 19, false)] (by decide)).1

theorem markUnused_append (pre : List DirectoryEntry) (e : DirectoryEntry)
    (post : List DirectoryEntry) :
    markUnused (pre ++ e :: post) pre.length = pre ++ { e with inUse := false } :: post := by
  induction pre with
  | nil => rfl
  | cons x pre ih => simp [markUnused, ih]

theorem split_at_index {α : Type} (l : List α) (k : Nat) (e : α) (h : l[k]? = some e) :
    ∃ pre post, l = pre ++ e :: post ∧ pre.length = k := by
  induction l generalizing k with
  | nil => simp at h
  | cons x rest ih =>
    cases k with
    | zero => simp at h; exact ⟨[], rest, by simp [h], rfl⟩
    | succ k =>
      simp at h
      obtain ⟨pre, post, h1, h2⟩ := ih k h
      exact ⟨x :: pre, post, by simp [h1], by simp [h2]⟩

theorem uniqueNames_empty (maxLen size : Nat) :
    UniqueNames maxLen (Directory.empty size).table := by
  unfold UniqueNames Directory.empty
  rw [List.pairwise_replicate]
  right
  intro h; simp at h

theorem uniqueNames_add (maxLen : Nat) (d : Directory) (name : List Char) (s : Int) (f : Bool)
    (h : UniqueNames maxLen d.table) : UniqueNames maxLen (d.Add maxLen name s f).2.table := by
  by_cases hr : (d.Add maxLen name s f).1 = true
  · obtain ⟨hfind, t, ht, hd⟩ := Add_true_inv maxLen d name s f hr
    rw [hd]
    obtain ⟨pre, e, post, h1, _, _, h4⟩ := addFirstFree_some maxLen name s f d.table t ht
    unfold Directory.FindIndex at hfind
    rw [findIndexFrom_eq_neg_one] at hfind
    have hno : ∀ x ∈ d.table, x.inUse = true →
        ¬ (x.name.take maxLen = name.take maxLen) := by
      intro x hx hin heq
      have := hfind x hx
      simp [DirectoryEntry.matches, hin, strncmp_eq_zero_iff, heq] at this
    unfold UniqueNames at h ⊢
    simp only [h4]
    rw [h1] at h hno
    rw [List.pairwise_append] at h ⊢
    obtain ⟨hp1, hp2, hp3⟩ := h
    rw [List.pairwise_cons] at hp2 ⊢
    refine ⟨hp1, ⟨?_, hp2.2⟩, ?_⟩
    · intro y hy _ hyin
      simp only [strncpy, ne_eq, strncmp_eq_zero_iff, List.take_take, min_self]
      intro heq
      exact hno y (by simp [hy]) hyin heq.symm
    · intro x hx y hy
      rcases List.mem_cons.1 hy with rfl | hy
      · intro hxin _
        simp only [strncpy, ne_eq, strncmp_eq_zero_iff, List.take_take, min_self]
        exact hno x (by simp [hx]) hxin
      · exact hp3 x hx y (List.mem_cons_of_mem _ hy)
  · have : (d.Add maxLen name s f).2 = d := by
      unfold Directory.Add at hr ⊢
      by_cases hf : d.FindIndex maxLen name = -1
      · simp only [hf, ne_eq, not_true_eq_false, if_false] at hr ⊢
        cases hadd : addFirstFree maxLen name s f d.table with
        | none => rfl
        | some t => simp [hadd] at hr
      · simp [hf]
    rw [this]; exact h

theorem uniqueNames_markUnused (maxLen : Nat) (l : List DirectoryEntry) (k : Nat)
    (h : UniqueNames maxLen l) : UniqueNames maxLen (markUnused l k) := by
  unfold UniqueNames at h ⊢
  induction l generalizing k with
  | nil => simp [markUnused]
  | cons x rest ih =>
    rw [List.pairwise_cons] at h
    cases k with
    | zero =>
      simp only [markUnused]
      rw [List.pairwise_cons]
      exact ⟨fun y _ hx => by simp at hx, h.2⟩
    | succ k =>
      simp only [markUnused]
      rw [List.pairwise_cons]
      refine ⟨?_, ih k h.2⟩
      intro y hy hx hyin
      have hmem : ∀ (r : List DirectoryEntry) (j : Nat), ∀ y ∈ markUnused r j, y.inUse = true →
          y ∈ r := by
        intro r
        induction r with
        | nil => intro j y hy; simp [markUnused] at hy
        | cons z r ihr =>
          intro j y hy hyin
          cases j with
          | zero =>
            simp only [markUnused, List.mem_cons] at hy
            rcases hy with rfl | hy
            · simp at hyin
            · exact List.mem_cons_of_mem _ hy
          | succ j =>
            simp only [markUnused, List.mem_cons] at hy
            rcases hy with rfl | hy
            · exact List.mem_cons_self _ _
            · exact List.mem_cons_of_mem _ (ihr j y hy hyin)
      exact h.1 y (hmem rest k y hy hyin) hx hyin

theorem uniqueNames_reachable (maxLen : Nat) (d : Directory)
    (h : Directory.Reachable maxLen d) : UniqueNames maxLen d.table := by
  induction h with
  | empty size => exact uniqueNames_empty maxLen size
  | add d name s f _ ih => exact uniqueNames_add maxLen d name s f ih
  | remove d name _ ih =>
    unfold Directory.Remove
    by_cases hf : d.FindIndex maxLen name = -1
    · simpa [hf] using ih
    · simpa [hf] using uniqueNames_markUnused maxLen d.table _ ih

theorem find_after_remove_of_unique (maxLen : Nat) (d : Directory) (name : List Char)
    (h : UniqueNames maxLen d.table) :
    (d.Remove maxLen name).2.Find maxLen name = -1 := by
  have key : (d.Remove maxLen name).2.FindIndex maxLen name = -1 := by
    unfold Directory.Remove
    by_cases hf : d.FindIndex maxLen name = -1
    · simp [hf]
    · simp only [hf, if_false]
      obtain ⟨k, hk1, _, ⟨e, hke, hem⟩, _⟩ := findIndexFrom_spec maxLen name d.table 0 hf
      have hidx : (d.FindIndex maxLen name).toNat = k := by
        unfold Directory.FindIndex; rw [hk1]; simp
      obtain ⟨pre, post, hsplit, hlen⟩ := split_at_index d.table k e hke
      rw [hidx, hsplit, ← hlen, markUnused_append]
      unfold Directory.FindIndex
      rw [findIndexFrom_eq_neg_one]
      unfold UniqueNames at h
      rw [hsplit, List.pairwise_append, List.pairwise_cons] at h
      simp only [DirectoryEntry.matches, Bool.and_eq_true, beq_iff_eq] at hem
      intro y hy
      by_contra hy2
      simp only [Bool.not_eq_false, DirectoryEntry.matches, Bool.and_eq_true, beq_iff_eq] at hy2
      rcases List.mem_append.1 hy with h1 | h1
      · apply h.2.2 y h1 e (List.mem_cons_self _ _) hy2.1 hem.1
        rw [strncmp_eq_zero_iff] at hy2 hem ⊢
        rw [hy2.2, hem.2]
      · rcases List.mem_cons.1 h1 with rfl | h1
        · simp at hy2
        · apply h.2.1.1 y h1 hem.1 hy2.1
          rw [strncmp_eq_zero_iff] at hy2 hem ⊢
          rw [hy2.2, hem.2]
  unfold Directory.Find
  simp [key]

/-- C10: in a directory built from an empty one by `Add` and `Remove` calls, after
`Remove(name)`, whatever it returned, `Find(name)` returns -1. -/
theorem find_after_remove (maxLen : Nat) (d : Directory) (name : List Char)
    (h : Directory.Reachable maxLen d) :
    (d.Remove maxLen name).2.Find maxLen name = -1 :=
  find_after_remove_of_unique maxLen d name (uniqueNames_reachable maxLen d h)

/-- C10, at a concrete directory: `ab` and `cd` added to three empty slots, `ab` removed. -/
theorem find_after_remove_witness :
    ((((Directory.empty 3).Add 9 ['a', 'b'] 5 false).2.Add 9 ['c', 'd'] 6 true).2.Remove 9
      ['a', 'b']).2.Find 9 ['a', 'b'] = -1 :=
  find_after_remove 9 _ ['a', 'b']
    (Directory.Reachable.add _ _ _ _ (Directory.Reachable.add _ _ _ _
      (Directory.Reachable.empty 3)))

/-! ## Facts about the bitmap -/

theorem Test_eq_true_iff (b : Bitmap) (k : Int) :
    Bitmap.Test b k = true ↔ 0 ≤ k ∧ b[k.toNat]? = some true := by
  unfold Bitmap.Test
  rw [List.getD_eq_getElem?_getD]
  by_cases hk : 0 ≤ k
  · cases hb : b[k.toNat]? with
    | none => simp [hk]
    | some x => simp [hk]
  · simp [hk]

theorem Test_nat (b : Bitmap) (n : Nat) : Bitmap.Test b (n : Int) = b.getD n false := by
  simp [Bitmap.Test]

theorem Test_lt_length (b : Bitmap) (k : Int) (h : Bitmap.Test b k = true) :
    0 ≤ k ∧ k < b.length := by
  rw [Test_eq_true_iff] at h
  refine ⟨h.1, ?_⟩
  have := (List.getElem?_eq_some_iff.1 h.2).1
  omega

theorem Bitmap.ext_Test (b c : Bitmap) (hl : b.length = c.length)
    (h : ∀ k, Bitmap.Test b k = Bitmap.Test c k) : b = c := by
  apply List.ext_getElem?
  intro n
  by_cases hn : n < b.length
  · have hn2 : n < c.length := hl ▸ hn
    have := h (n : Int)
    rw [Test_nat, Test_nat, List.getD_eq_getElem?_getD, List.getD_eq_getElem?_getD,
      List.getElem?_eq_getElem hn, List.getElem?_eq_getElem hn2] at this
    rw [List.getElem?_eq_getElem hn, List.getElem?_eq_getElem hn2]
    simpa using this
  · rw [List.getElem?_eq_none (by omega), List.getElem?_eq_none (by omega)]

theorem Test_Clear (b : Bitmap) (k j : Int) :
    Bitmap.Test (Bitmap.Clear b k) j = (Bitmap.Test b j && !decide (j = k)) := by
  unfold Bitmap.Clear
  by_cases hk : 0 ≤ k
  · simp only [hk, if_true]
    unfold Bitmap.Test
    by_cases hj : 0 ≤ j
    · simp only [hj, decide_True, Bool.true_and, List.getD_eq_getElem?_getD, List.getElem?_set]
      by_cases hjk : j = k
      · subst hjk
        by_cases hlt : j.toNat < b.length <;> simp [hlt]
      · have : k.toNat ≠ j.toNat := by omega
        simp [this, hjk]
    · simp [hj]
  · simp only [hk, if_false]
    by_cases hjk : j = k
    · subst hjk; simp [Bitmap.Test, hk]
    · simp [hjk]

theorem length_Clear (b : Bitmap) (k : Int) : (Bitmap.Clear b k).length = b.length := by
  unfold Bitmap.Clear; split <;> simp

theorem length_clearList (b : Bitmap) (l : List Int) :
    (Bitmap.clearList b l).length = b.length := by
  unfold Bitmap.clearList
  induction l generalizing b with
  | nil => rfl
  | cons k l ih => simp only [List.foldl_cons]; rw [ih, length_Clear]

theorem Test_clearList (b : Bitmap) (l : List Int) (j : Int) :
    Bitmap.Test (Bitmap.clearList b l) j = (Bitmap.Test b j && !decide (j ∈ l)) := by
  unfold Bitmap.clearList
  induction l generalizing b with
  | nil => simp
  | cons k l ih =>
    simp only [List.foldl_cons, ih, Test_Clear, List.mem_cons]
    by_cases h1 : j = k <;> by_cases h2 : j ∈ l <;> simp [h1, h2]

theorem clearList_append (b : Bitmap) (l1 l2 : List Int) :
    Bitmap.clearList b (l1 ++ l2) = Bitmap.clearList (Bitmap.clearList b l1) l2 := by
  simp [Bitmap.clearList, List.foldl_append]

/-- What `FindAndSet` does: with a clear bit present it returns one, sets it and
changes nothing else; with none it returns -1 and changes nothing. -/
theorem FindAndSet_spec (b : Bitmap) :
    (0 < Bitmap.NumClear b ∧ 0 ≤ (Bitmap.FindAndSet b).1 ∧
      Bitmap.Test b (Bitmap.FindAndSet b).1 = false ∧
      (∀ j, Bitmap.Test (Bitmap.FindAndSet b).2 j
        = (Bitmap.Test b j || decide (j = (Bitmap.FindAndSet b).1))) ∧
      (Bitmap.FindAndSet b).2.length = b.length ∧
      Bitmap.NumClear (Bitmap.FindAndSet b).2 = Bitmap.NumClear b - 1)
    ∨ (Bitmap.NumClear b = 0 ∧ Bitmap.FindAndSet b = (-1, b)) := by
  by_cases hlt : b.findIdx (fun x => !x) < b.length
  · left
    have hbit : b[b.findIdx (fun x => !x)] = false := by
      have := @List.findIdx_getElem _ (fun x => !x) b hlt
      simpa using this
    have hfs : Bitmap.FindAndSet b
        = ((b.findIdx (fun x => !x) : Int), b.set (b.findIdx (fun x => !x)) true) := by
      simp [Bitmap.FindAndSet, hlt]
    have hcount : 0 < b.count false :=
      List.count_pos_iff.2 (hbit ▸ List.getElem_mem hlt)
    rw [hfs]
    refine ⟨?_, by simp, ?_, ?_, by simp, ?_⟩
    · unfold Bitmap.NumClear; exact_mod_cast hcount
    · simp only [Test_nat, List.getD_eq_getElem?_getD, List.getElem?_eq_getElem hlt, hbit]
      rfl
    · intro j
      unfold Bitmap.Test
      by_cases hj : 0 ≤ j
      · simp only [hj, decide_True, Bool.true_and, List.getD_eq_getElem?_getD,
          List.getElem?_set]
        by_cases hjk : j = (b.findIdx (fun x => !x) : Int)
        · have : b.findIdx (fun x => !x) = j.toNat := by omega
          simp [hjk, hlt]
        · have : b.findIdx (fun x => !x) ≠ j.toNat := by omega
          simp [this, hjk]
      · have : j ≠ (b.findIdx (fun x => !x) : Int) := by omega
        simp [hj, this]
    · unfold Bitmap.NumClear
      simp only
      rw [List.count_set _ _ _ _ hlt]
      simp only [hbit, beq_self_eq_true, if_true, Bool.true_eq_false, beq_iff_eq, if_false,
        Nat.add_zero]
      omega
  · right
    have hall : ∀ x ∈ b, (fun x => !x) x = false := by
      apply List.findIdx_eq_length.1
      have := @List.findIdx_le_length _ (fun x : Bool => !x) b
      omega
    refine ⟨?_, by simp [Bitmap.FindAndSet, hlt]⟩
    unfold Bitmap.NumClear
    have : b.count false = 0 := by
      rw [List.count_eq_zero]
      intro hmem
      simpa using hall false hmem
    simp [this]

/-! ## Facts about file headers -/

theorem tdiv_tmod_nonneg (a b : Int) (ha : 0 ≤ a) (hb : 0 < b) :
    Int.tdiv a b = a / b ∧ Int.tmod a b = a % b :=
  ⟨Int.tdiv_eq_ediv ha (le_of_lt hb), Int.tmod_eq_emod ha (le_of_lt hb)⟩

theorem divRoundUp_spec (n s : Int) (hn : 0 ≤ n) (hs : 0 < s) :
    0 ≤ divRoundUp n s ∧ (divRoundUp n s - 1) * s < n ∧ n ≤ divRoundUp n s * s := by
  unfold divRoundUp
  obtain ⟨h1, h2⟩ := tdiv_tmod_nonneg n s hn hs
  rw [h1, h2]
  have hq := Int.ediv_nonneg hn (le_of_lt hs)
  have hm := Int.emod_nonneg n (ne_of_gt hs)
  have hm2 := Int.emod_lt_of_pos n hs
  have hdm := Int.ediv_add_emod n s
  have hmul : s * (n / s) = (n / s) * s := Int.mul_comm _ _
  by_cases hpos : n % s > 0
  · simp only [hpos, if_true]
    refine ⟨by omega, ?_, ?_⟩
    · have : (n / s + 1 - 1) * s = (n / s) * s := by ring
      rw [this]; omega
    · have : (n / s + 1) * s = (n / s) * s + s := by ring
      rw [this]; omega
  · simp only [hpos, if_false, Int.add_zero]
    refine ⟨hq, ?_, ?_⟩
    · have : (n / s - 1) * s = (n / s) * s - s := by ring
      rw [this]; omega
    · omega

theorem divRoundUp_le (n s N : Int) (hn : 0 ≤ n) (hs : 0 < s) (hN : n ≤ N * s) :
    divRoundUp n s ≤ N := by
  obtain ⟨_, h2, _⟩ := divRoundUp_spec n s hn hs
  by_contra hlt
  have h3 : N ≤ divRoundUp n s - 1 := by omega
  have := Int.mul_le_mul_of_nonneg_right h3 (le_of_lt hs)
  omega

theorem divRoundUp_pos (n s : Int) (hn : 0 < n) (hs : 0 < s) : 0 < divRoundUp n s := by
  obtain ⟨h1, _, h3⟩ := divRoundUp_spec n s (le_of_lt hn) hs
  by_contra h
  have : divRoundUp n s = 0 := by omega
  rw [this] at h3; omega

theorem findAndSetN_spec (n : Nat) (fm : Bitmap) (hn : (n : Int) ≤ Bitmap.NumClear fm) :
    (findAndSetN n fm).1.length = n ∧ (findAndSetN n fm).1.Nodup ∧
    (∀ k ∈ (findAndSetN n fm).1, 0 ≤ k ∧ Bitmap.Test fm k = false) ∧
    (∀ j, Bitmap.Test (findAndSetN n fm).2 j
      = (Bitmap.Test fm j || decide (j ∈ (findAndSetN n fm).1))) ∧
    (findAndSetN n fm).2.length = fm.length ∧
    Bitmap.NumClear (findAndSetN n fm).2 = Bitmap.NumClear fm - n := by
  induction n generalizing fm with
  | zero => simp [findAndSetN]
  | succ n ih =>
    rcases FindAndSet_spec fm with ⟨_, h1, h2, h3, h4, h5⟩ | ⟨h0, _⟩
    · obtain ⟨i1, i2, i3, i4, i5, i6⟩ := ih (Bitmap.FindAndSet fm).2 (by rw [h5]; push_cast at hn; omega)
      simp only [findAndSetN]
      refine ⟨by simp [i1], ?_, ?_, ?_, by rw [i5, h4], by rw [i6, h5]; push_cast; ring⟩
      · rw [List.nodup_cons]
        refine ⟨?_, i2⟩
        intro hmem
        have := (i3 _ hmem).2
        rw [h3] at this
        simp at this
      · intro k hk
        rcases List.mem_cons.1 hk with rfl | hk
        · exact ⟨h1, h2⟩
        · refine ⟨(i3 k hk).1, ?_⟩
          have := (i3 k hk).2
          rw [h3] at this
          simp only [Bool.or_eq_false_iff] at this
          exact this.1
      · intro j
        rw [i4, h3]
        simp only [List.mem_cons, Bool.or_assoc]
        congr 1
        by_cases a1 : j = (Bitmap.FindAndSet fm).1 <;>
          by_cases a2 : j ∈ (findAndSetN n (Bitmap.FindAndSet fm).2).1 <;> simp [a1, a2]
    · push_cast at hn; omega

theorem set_take_drop (l : List Int) (i : Nat) (k : Int) (hi : i < l.length) :
    (l.set i k).take (i + 1) = l.take i ++ [k] ∧
    ∀ m, (l.set i k).drop (i + 1 + m) = l.drop (i + 1 + m) := by
  constructor
  · rw [List.set_eq_take_append_cons_drop, if_pos hi]
    have hlen : (l.take i ++ [k]).length = i + 1 := by simp; omega
    rw [show l.take i ++ k :: l.drop (i + 1) = (l.take i ++ [k]) ++ l.drop (i + 1) by simp]
    exact List.take_left' hlen
  · intro m
    rw [List.drop_set, if_pos (by omega)]

/-- The direct loop, once `NumClear` has been checked, performs `n` successful
`FindAndSet` calls and stores their results in `dataSectors[i .. i+n)`. -/
theorem allocDirect_eq (n : Nat) :
    ∀ (i : Nat) (fm : Bitmap) (h : FileHeader), (n : Int) ≤ Bitmap.NumClear fm →
      i + n ≤ h.dataSectors.length →
      allocDirect n i fm h = (some true, (findAndSetN n fm).2,
        { h with dataSectors :=
            h.dataSectors.take i ++ (findAndSetN n fm).1 ++ h.dataSectors.drop (i + n) }) := by
  induction n with
  | zero =>
    intro i fm h _ _
    simp [allocDirect, findAndSetN]
  | succ n ih =>
    intro i fm h hn hlen
    rcases FindAndSet_spec fm with ⟨_, h1, _, _, _, h5⟩ | ⟨h0, _⟩
    · have hi : i < h.dataSectors.length := by omega
      simp only [allocDirect, hi, if_true, h1, findAndSetN]
      rw [ih (i + 1) (Bitmap.FindAndSet fm).2 _ (by rw [h5]; push_cast at hn; omega)
        (by simp; omega)]
      obtain ⟨e1, e2⟩ := set_take_drop h.dataSectors i (Bitmap.FindAndSet fm).1 hi
      simp only [e1, e2 n]
      rw [show i + (n + 1) = i + 1 + n by omega]
      simp
    · push_cast at hn; omega

theorem deallocDirect_eq (h : FileHeader) (n : Nat) :
    ∀ (l : List Int) (i : Nat) (fm : Bitmap), l.length = n → l.Nodup →
      (∀ j, j < n → h.dataSectors[i + j]? = l[j]?) →
      (∀ k ∈ l, Bitmap.Test fm k = true) →
      deallocDirect h n i fm = some (Bitmap.clearList fm l) := by
  induction n with
  | zero =>
    intro l i fm hl _ _ _
    have : l = [] := List.length_eq_zero.1 hl
    subst this
    simp [deallocDirect, Bitmap.clearList]
  | succ n ih =>
    intro l i fm hl hnd hds hset
    cases l with
    | nil => simp at hl
    | cons k l =>
      have h0 := hds 0 (by omega)
      simp only [Nat.add_zero, List.getElem?_cons_zero] at h0
      rw [List.nodup_cons] at hnd
      simp only [deallocDirect, h0, hset k (List.mem_cons_self _ _), if_true]
      rw [ih l (i + 1) (Bitmap.Clear fm k) (by simpa using hl) hnd.2]
      · simp [Bitmap.clearList]
      · intro j hj
        have := hds (j + 1) (by omega)
        simpa [Nat.add_assoc, Nat.add_comm 1 j] using this
      · intro k2 hk2
        rw [Test_Clear, hset k2 (List.mem_cons_of_mem _ hk2)]
        have : k2 ≠ k := fun e => hnd.1 (e ▸ hk2)
        simp [this]

theorem maxDirect_eq (g : Geometry) :
    g.MaxDirectSize = (g.NumDirect : Int) * (g.SectorSize : Int) := rfl

/-- The direct branch with enough clear sectors: the call returns TRUE, having stored
the results of `numSectors` successive `FindAndSet` calls. -/
theorem AllocateFuel_direct_ok (g : Geometry) (junk : Int) (a : Nat) (fm : Bitmap) (d : Disk)
    (this : FileHeader) (s : Int) (hSS : 0 < g.SectorSize)
    (hlen : this.dataSectors.length = g.NumDirect) (hs0 : 0 ≤ s) (hs : s ≤ g.MaxDirectSize)
    (hclear : divRoundUp s g.SectorSize ≤ Bitmap.NumClear fm) :
    AllocateFuel g junk (a + 1) fm d this s =
      ⟨some true, (findAndSetN (divRoundUp s g.SectorSize).toNat fm).2, d,
        { numBytes := s, numSectors := divRoundUp s g.SectorSize, level := 0,
          dataSectors := (findAndSetN (divRoundUp s g.SectorSize).toNat fm).1 ++
            this.dataSectors.drop (divRoundUp s g.SectorSize).toNat }⟩ := by
  have hSS2 : (0 : Int) < g.SectorSize := by exact_mod_cast hSS
  obtain ⟨q0, _, _⟩ := divRoundUp_spec s g.SectorSize hs0 hSS2
  have hq : divRoundUp s g.SectorSize ≤ g.NumDirect :=
    divRoundUp_le s g.SectorSize g.NumDirect hs0 hSS2 hs
  have hnot : ¬ Bitmap.NumClear fm < divRoundUp s g.SectorSize := by omega
  simp only [AllocateFuel, hs, if_true, hnot, if_false]
  rw [allocDirect_eq _ 0 fm _ (by rw [Int.toNat_of_nonneg q0]; exact hclear)
    (by simp only [hlen]; omega)]
  simp

/-- The direct branch without enough clear sectors: FALSE, nothing claimed. -/
theorem AllocateFuel_direct_short (g : Geometry) (junk : Int) (a : Nat) (fm : Bitmap)
    (d : Disk) (this : FileHeader) (s : Int) (hs : s ≤ g.MaxDirectSize)
    (hclear : Bitmap.NumClear fm < divRoundUp s g.SectorSize) :
    AllocateFuel g junk (a + 1) fm d this s =
      ⟨some false, fm, d,
        { this with numBytes := s, level := 0, numSectors := divRoundUp s g.SectorSize }⟩ := by
  simp only [AllocateFuel, hs, if_true, hclear]

theorem alloc_direct_post (g : Geometry) (junk : Int) (a fD fB : Nat) (fm : Bitmap) (d : Disk)
    (this : FileHeader) (s : Int) (hSS : 0 < g.SectorSize)
    (hlen : this.dataSectors.length = g.NumDirect) (hs0 : 0 ≤ s) (hs : s ≤ g.MaxDirectSize)
    (hret : (AllocateFuel g junk (a + 1) fm d this s).ret = some true) :
    ∃ l, AllocPost g (fD + 1) (fB + 1) fm d s (AllocateFuel g junk (a + 1) fm d this s).freeMap
      (AllocateFuel g junk (a + 1) fm d this s).disk
      (AllocateFuel g junk (a + 1) fm d this s).hdr l := by
  by_cases hclear : Bitmap.NumClear fm < divRoundUp s g.SectorSize
  · rw [AllocateFuel_direct_short g junk a fm d this s hs hclear] at hret
    simp at hret
  · have hclear2 : divRoundUp s g.SectorSize ≤ Bitmap.NumClear fm := by omega
    rw [AllocateFuel_direct_ok g junk a fm d this s hSS hlen hs0 hs hclear2]
    have hSS2 : (0 : Int) < g.SectorSize := by exact_mod_cast hSS
    obtain ⟨q0, q1, q2⟩ := divRoundUp_spec s g.SectorSize hs0 hSS2
    obtain ⟨f1, f2, f3, f4, f5, _⟩ := findAndSetN_spec (divRoundUp s g.SectorSize).toNat fm
      (by rw [Int.toNat_of_nonneg q0]; exact hclear2)
    refine ⟨(findAndSetN (divRoundUp s g.SectorSize).toNat fm).1, ?_⟩
    refine ⟨f2, fun k hk => (f3 k hk).2, f4, f5, fun _ _ => rfl, ?_, ?_⟩
    · intro fm2 d2 _ hset
      simp only [DeallocateFuel, if_true]
      apply deallocDirect_eq _ _ _ 0 fm2 f1 f2 _ hset
      intro j hj
      rw [Nat.zero_add, List.getElem?_append_left (by omega)]
    · intro o ho0 ho d2 _
      obtain ⟨e1, _⟩ := tdiv_tmod_nonneg o g.SectorSize ho0 hSS2
      have hidx0 : 0 ≤ o / (g.SectorSize : Int) := Int.ediv_nonneg ho0 (le_of_lt hSS2)
      have hidx : o / (g.SectorSize : Int) < divRoundUp s g.SectorSize :=
        Int.ediv_lt_of_lt_mul hSS2 (by omega)
      have hlt : (o / (g.SectorSize : Int)).toNat
          < (findAndSetN (divRoundUp s g.SectorSize).toNat fm).1.length := by
        rw [f1]; omega
      refine ⟨_, List.getElem_mem hlt, ?_⟩
      simp only [ByteToSectorFuel, if_true, FileHeader.sectorAt, e1, hidx0]
      rw [List.getElem?_append_left hlt, List.getElem?_eq_getElem hlt]

theorem loopPost_nil (g : Geometry) (fD fB : Nat) (cap : Int) (i : Nat) (rem : Int)
    (fm : Bitmap) (d : Disk) (h : FileHeader) (hrem : rem ≤ 0) :
    LoopPost g fD fB cap 0 i rem fm d h fm d h [] where
  nodup := List.nodup_nil
  wasClear := by simp
  nowSet := by simp
  len := rfl
  frame := fun _ _ => rfl
  hdrLevel := rfl
  hdrNumSectors := rfl
  hdrNumBytes := rfl
  hdrLen := rfl
  hdrKeep := fun _ _ => rfl
  dealloc := by intro fm2 d2 _ _; simp [deallocIndirect, Bitmap.clearList]
  lookup := by intro o h0 h1; omega

theorem loopPost_step (g : Geometry) (fD fB : Nat) (cap : Int) (n i : Nat) (rem sz : Int)
    (fm : Bitmap) (d : Disk) (h : FileHeader) (s0 : Int) (fm0 fmc : Bitmap) (dc : Disk)
    (hc : FileHeader) (lc : List Int) (fm1 : Bitmap) (d1 : Disk) (h1 : FileHeader)
    (lr : List Int)
    (hcap : 0 < cap) (hi : i < h.dataSectors.length)
    (hsz : sz = if rem > cap then cap else rem)
    (hs0 : Bitmap.Test fm s0 = false)
    (hfm0 : ∀ j, Bitmap.Test fm0 j = (Bitmap.Test fm j || decide (j = s0)))
    (hlen0 : fm0.length = fm.length)
    (pc : AllocPost g fD fB fm0 d sz fmc dc hc lc)
    (pr : LoopPost g fD fB cap n (i + 1) (rem - sz) fmc (WriteBack dc s0 hc)
      { h with dataSectors := h.dataSectors.set i s0 } fm1 d1 h1 lr) :
    LoopPost g fD fB cap (n + 1) i rem fm d h fm1 d1 h1 (lc ++ s0 :: lr) := by
  have hs0set : Bitmap.Test fm0 s0 = true := by rw [hfm0]; simp
  have hs0lc : s0 ∉ lc := by
    intro hmem
    have := pc.wasClear s0 hmem
    rw [hs0set] at this; simp at this
  have hcset : ∀ k, (k ∈ lc ∨ k = s0) → Bitmap.Test fmc k = true := by
    intro k hk
    rw [pc.nowSet, hfm0]
    rcases hk with hk | hk <;> simp [hk]
  have hlr : ∀ k ∈ lr, k ∉ lc ∧ k ≠ s0 := by
    intro k hk
    have hclr := pr.wasClear k hk
    constructor
    · intro h2; rw [hcset k (Or.inl h2)] at hclr; simp at hclr
    · intro h2; rw [hcset k (Or.inr h2)] at hclr; simp at hclr
  have hs0lr : s0 ∉ lr := fun hmem => (hlr s0 hmem).2 rfl
  have hd1s0 : d1 s0 = hc := by
    rw [pr.frame s0 hs0lr]; simp [WriteBack]
  have hd1lc : ∀ k ∈ lc, d1 k = dc k := by
    intro k hk
    have hk1 : k ∉ lr := fun hmem => (hlr k hmem).1 hk
    have hk2 : k ≠ s0 := fun e => hs0lc (e ▸ hk)
    rw [pr.frame k hk1]; simp [WriteBack, hk2]
  have hds : h1.dataSectors[i]? = some s0 := by
    rw [pr.hdrKeep i (by omega)]
    simp [List.getElem?_set, hi]
  refine
    { nodup := ?_, wasClear := ?_, nowSet := ?_, len := ?_, frame := ?_, hdrLevel := pr.hdrLevel,
      hdrNumSectors := pr.hdrNumSectors, hdrNumBytes := pr.hdrNumBytes, hdrLen := ?_,
      hdrKeep := ?_, dealloc := ?_, lookup := ?_ }
  · rw [List.nodup_append]
    refine ⟨pc.nodup, List.nodup_cons.2 ⟨hs0lr, pr.nodup⟩, ?_⟩
    intro k hk1 hk2
    rcases List.mem_cons.1 hk2 with rfl | hk2
    · exact hs0lc hk1
    · exact (hlr k hk2).1 hk1
  · intro k hk
    rcases List.mem_append.1 hk with hk | hk
    · have := pc.wasClear k hk
      rw [hfm0] at this
      simp only [Bool.or_eq_false_iff] at this
      exact this.1
    · rcases List.mem_cons.1 hk with rfl | hk
      · exact hs0
      · have := pr.wasClear k hk
        rw [pc.nowSet, hfm0] at this
        simp only [Bool.or_eq_false_iff] at this
        exact this.1.1
  · intro k
    rw [pr.nowSet, pc.nowSet, hfm0]
    by_cases a1 : k = s0 <;> by_cases a2 : k ∈ lc <;> by_cases a3 : k ∈ lr <;>
      simp [a1, a2, a3]
  · rw [pr.len, pc.len, hlen0]
  · intro k hk
    simp only [List.mem_append, List.mem_cons, not_or] at hk
    rw [pr.frame k hk.2.2]
    simp only [WriteBack, hk.2.1, if_false]
    exact pc.frame k hk.1
  · rw [pr.hdrLen]; simp
  · intro j hj
    rw [pr.hdrKeep j (by omega)]
    have : i ≠ j := by omega
    simp [List.getElem?_set, this]
  · intro fm2 d2 hd2 hset
    have hchild : DeallocateFuel fD fm2 d2 (FetchFrom d2 s0)
        = some (Bitmap.clearList fm2 lc) := by
      have e1 : FetchFrom d2 s0 = hc := by
        unfold FetchFrom
        rw [hd2 s0 (by simp), hd1s0]
      rw [e1]
      apply pc.dealloc
      · intro k hk
        rw [hd2 k (by simp [hk]), hd1lc k hk]
      · intro k hk
        exact hset k (by simp [hk])
    have htest : Bitmap.Test (Bitmap.clearList fm2 lc) s0 = true := by
      rw [Test_clearList, hset s0 (by simp)]
      simp [hs0lc]
    simp only [deallocIndirect, hds, hchild, htest, if_true]
    rw [pr.dealloc (Bitmap.Clear (Bitmap.clearList fm2 lc) s0) d2
      (fun k hk => hd2 k (by simp [hk]))]
    · simp [Bitmap.clearList, List.foldl_append]
    · intro k hk
      rw [Test_Clear, Test_clearList, hset k (by simp [hk])]
      simp [(hlr k hk).1, (hlr k hk).2]
  · intro o ho0 ho d2 hd2
    by_cases hlt : o < sz
    · have hocap : o < cap := by
        rw [hsz] at hlt; split at hlt <;> omega
      obtain ⟨k, hk, hb⟩ := pc.lookup o ho0 hlt d2
        (fun k hk => by rw [hd2 k (by simp [hk]), hd1lc k hk])
      refine ⟨s0, k, ?_, by simp [hk], ?_⟩
      · rw [Int.ediv_eq_zero_of_lt ho0 hocap]; simpa using hds
      · rw [Int.emod_eq_of_lt ho0 hocap, hd2 s0 (by simp), hd1s0]; exact hb
    · have hszcap : sz = cap := by
        by_cases hrc : rem > cap
        · rw [hsz, if_pos hrc]
        · rw [hsz, if_neg hrc] at hlt; omega
      subst hszcap
      obtain ⟨s, k, e1, e2, e3⟩ := pr.lookup (o - sz) (by omega) (by omega) d2
        (fun k hk => hd2 k (by simp [hk]))
      have hdiv : o / sz = (o - sz) / sz + 1 := by
        have := Int.add_mul_ediv_right (o - sz) 1 (ne_of_gt hcap)
        rw [← this]; congr 1; ring
      have hmod : o % sz = (o - sz) % sz := by
        have := @Int.add_mul_emod_self (o - sz) 1 sz
        rw [← this]; congr 1; ring
      have hq : 0 ≤ (o - sz) / sz := Int.ediv_nonneg (by omega) (le_of_lt hcap)
      refine ⟨s, k, ?_, by simp [e2], ?_⟩
      · rw [hdiv, ← e1]; congr 1; omega
      · rw [hmod]; exact e3

theorem allocIndirect_post (g : Geometry) (junk : Int)
    (child : Bitmap → Disk → FileHeader → Int → AllocResult) (cap : Int) (fD fB : Nat)
    (hcap : 0 < cap)
    (hchild : ∀ fm d sz, 0 ≤ sz → sz ≤ cap →
      (child fm d (FileHeader.fresh g junk) sz).ret = some true →
      ∃ l, AllocPost g fD fB fm d sz (child fm d (FileHeader.fresh g junk) sz).freeMap
        (child fm d (FileHeader.fresh g junk) sz).disk
        (child fm d (FileHeader.fresh g junk) sz).hdr l)
    (n : Nat) :
    ∀ (i : Nat) (rem : Int) (fm : Bitmap) (d : Disk) (h : FileHeader),
      0 < rem → ((n : Int) - 1) * cap < rem → rem ≤ (n : Int) * cap →
      i + n ≤ h.dataSectors.length →
      (allocIndirect g junk child cap n i rem fm d h).ret = some true →
      ∃ l, LoopPost g fD fB cap n i rem fm d h
        (allocIndirect g junk child cap n i rem fm d h).freeMap
        (allocIndirect g junk child cap n i rem fm d h).disk
        (allocIndirect g junk child cap n i rem fm d h).hdr l := by
  induction n with
  | zero =>
    intro i rem fm d h hrem0 _ hhi _ _
    simp at hhi; omega
  | succ n ih =>
    intro i rem fm d h hrem0 hlo hhi hlen hret
    have hi : i < h.dataSectors.length := by omega
    have hlo1 : (n : Int) * cap < rem := by
      have : ((↑(n + 1) : Int) - 1) * cap = (n : Int) * cap := by push_cast; ring
      rw [this] at hlo; exact hlo
    have hhi1 : rem ≤ (n : Int) * cap + cap := by
      have : (↑(n + 1) : Int) * cap = (n : Int) * cap + cap := by push_cast; ring
      rw [this] at hhi; exact hhi
    clear hlo hhi
    rcases FindAndSet_spec fm with ⟨_, h1, h2, h3, h4, _⟩ | ⟨_, hfail⟩
    · have hsz0 : 0 ≤ (if rem > cap then cap else rem) := by split <;> omega
      have hszc : (if rem > cap then cap else rem) ≤ cap := by split <;> omega
      rw [allocIndirect] at hret ⊢
      simp only [hi, h1, if_true] at hret ⊢
      cases hc : (child (Bitmap.FindAndSet fm).2 d (FileHeader.fresh g junk)
          (if rem > cap then cap else rem)).ret with
      | none => simp [hc] at hret
      | some b =>
        cases b with
        | false => simp [hc] at hret
        | true =>
          obtain ⟨lc, pc⟩ := hchild _ d _ hsz0 hszc hc
          simp only [hc] at hret ⊢
          by_cases hbrk : rem - (if rem > cap then cap else rem) ≤ 0
          · simp only [hbrk, if_true] at hret ⊢
            have hn : n = 0 := by
              by_contra hne
              have hn1 : (1 : Int) ≤ n := by omega
              have := Int.mul_le_mul_of_nonneg_right hn1 (le_of_lt hcap)
              rw [Int.one_mul] at this
              split at hbrk <;> omega
            subst hn
            exact ⟨lc ++ (Bitmap.FindAndSet fm).1 :: [],
              loopPost_step g fD fB cap 0 i rem _ fm d h _ _ _ _ _ lc _ _ _ []
                hcap hi rfl h2 h3 h4 pc (loopPost_nil g fD fB cap (i + 1) _ _ _ _ hbrk)⟩
          · simp only [hbrk, if_false] at hret ⊢
            have hgt : rem > cap := by
              by_contra hle
              simp only [hle, if_false] at hbrk; omega
            simp only [hgt, if_true] at hret pc hbrk ⊢
            obtain ⟨lr, pr⟩ := ih (i + 1) (rem - cap) _ _ _ (by omega)
              (by have : ((n : Int) - 1) * cap = (n : Int) * cap - cap := by ring
                  omega)
              (by omega)
              (by simp; omega) hret
            exact ⟨lc ++ (Bitmap.FindAndSet fm).1 :: lr,
              loopPost_step g fD fB cap n i rem cap fm d h _ _ _ _ _ lc _ _ _ lr
                hcap hi (by simp [hgt]) h2 h3 h4 pc pr⟩
    · rw [allocIndirect] at hret
      simp [hi, hfail] at hret

theorem allocPost_of_loop (g : Geometry) (fD fB : Nat) (cap lvl : Int) (n : Nat) (s : Int)
    (fm : Bitmap) (d : Disk) (h : FileHeader) (fm1 : Bitmap) (d1 : Disk) (h1 : FileHeader)
    (l : List Int) (hcap : 0 < cap) (hlvl : h.level = lvl) (hlvl0 : lvl ≠ 0)
    (hn : h.numSectors.toNat = n)
    (hb : ∀ d2 (hh : FileHeader) o, hh.level = lvl →
      ByteToSectorFuel g (fB + 1) d2 hh o
        = byteToSectorVia (ByteToSectorFuel g fB d2) d2 hh cap o)
    (p : LoopPost g fD fB cap n 0 s fm d h fm1 d1 h1 l) :
    AllocPost g (fD + 1) (fB + 1) fm d s fm1 d1 h1 l where
  nodup := p.nodup
  wasClear := p.wasClear
  nowSet := p.nowSet
  len := p.len
  frame := p.frame
  dealloc := by
    intro fm2 d2 hd2 hset
    have h0 : ¬ h1.level = 0 := by rw [p.hdrLevel, hlvl]; exact hlvl0
    simp only [DeallocateFuel, h0, if_false, p.hdrNumSectors, hn]
    exact p.dealloc fm2 d2 hd2 hset
  lookup := by
    intro o ho0 ho d2 hd2
    obtain ⟨s1, k, e1, e2, e3⟩ := p.lookup o ho0 ho d2 hd2
    refine ⟨k, e2, ?_⟩
    obtain ⟨t1, t2⟩ := tdiv_tmod_nonneg o cap ho0 hcap
    have hq : 0 ≤ o / cap := Int.ediv_nonneg ho0 (le_of_lt hcap)
    rw [hb d2 h1 o (by rw [p.hdrLevel, hlvl])]
    simp only [byteToSectorVia, FileHeader.sectorAt, t1, t2, hq, if_true]
    rw [Nat.zero_add] at e1
    simp only [e1, FetchFrom]
    exact e3

/-- One indirect branch of `Allocate`, given what the recursive call guarantees. -/
theorem alloc_indirect_branch (g : Geometry) (junk : Int)
    (child : Bitmap → Disk → FileHeader → Int → AllocResult) (cap lvl : Int) (fD fB : Nat)
    (hchild : ∀ fm d sz, 0 ≤ sz → sz ≤ cap →
      (child fm d (FileHeader.fresh g junk) sz).ret = some true →
      ∃ l, AllocPost g fD fB fm d sz (child fm d (FileHeader.fresh g junk) sz).freeMap
        (child fm d (FileHeader.fresh g junk) sz).disk
        (child fm d (FileHeader.fresh g junk) sz).hdr l)
    (hlvl0 : lvl ≠ 0)
    (hb : ∀ d2 (hh : FileHeader) o, hh.level = lvl →
      ByteToSectorFuel g (fB + 1) d2 hh o
        = byteToSectorVia (ByteToSectorFuel g fB d2) d2 hh cap o)
    (fm : Bitmap) (d : Disk) (this : FileHeader) (s : Int)
    (hlen : this.dataSectors.length = g.NumDirect) (hcap0 : 0 ≤ cap)
    (hlo : cap < s) (hhi : s ≤ (g.NumDirect : Int) * cap)
    (hret : (allocIndirect g junk child cap (divRoundUp s cap).toNat 0 s fm d
      { this with numBytes := s, level := lvl, numSectors := divRoundUp s cap }).ret
        = some true) :
    ∃ l, AllocPost g (fD + 1) (fB + 1) fm d s
      (allocIndirect g junk child cap (divRoundUp s cap).toNat 0 s fm d
        { this with numBytes := s, level := lvl, numSectors := divRoundUp s cap }).freeMap
      (allocIndirect g junk child cap (divRoundUp s cap).toNat 0 s fm d
        { this with numBytes := s, level := lvl, numSectors := divRoundUp s cap }).disk
      (allocIndirect g junk child cap (divRoundUp s cap).toNat 0 s fm d
        { this with numBytes := s, level := lvl, numSectors := divRoundUp s cap }).hdr l := by
  have hcap : 0 < cap := by
    rcases lt_or_eq_of_le hcap0 with h | h
    · exact h
    · rw [← h] at hhi hlo; simp at hhi; omega
  have hs0 : 0 ≤ s := by omega
  obtain ⟨q0, q1, q2⟩ := divRoundUp_spec s cap hs0 hcap
  have q3 := divRoundUp_le s cap g.NumDirect hs0 hcap hhi
  have hcast : (((divRoundUp s cap).toNat : Nat) : Int) = divRoundUp s cap :=
    Int.toNat_of_nonneg q0
  obtain ⟨l, p⟩ := allocIndirect_post g junk child cap fD fB hcap hchild
    (divRoundUp s cap).toNat 0 s fm d
    { this with numBytes := s, level := lvl, numSectors := divRoundUp s cap }
    (by omega) (by rw [hcast]; exact q1) (by rw [hcast]; exact q2)
    (by simp only [hlen]; omega) hret
  exact ⟨l, allocPost_of_loop g fD fB cap lvl (divRoundUp s cap).toNat s fm d
    { this with numBytes := s, level := lvl, numSectors := divRoundUp s cap }
    _ _ _ l hcap rfl hlvl0 rfl hb p⟩

theorem ByteToSectorFuel_level1 (g : Geometry) (fB : Nat) (d2 : Disk) (hh : FileHeader)
    (o : Int) (h : hh.level = 1) :
    ByteToSectorFuel g (fB + 1) d2 hh o
      = byteToSectorVia (ByteToSectorFuel g fB d2) d2 hh g.MaxDirectSize o := by
  simp [ByteToSectorFuel, h]

theorem ByteToSectorFuel_level2 (g : Geometry) (fB : Nat) (d2 : Disk) (hh : FileHeader)
    (o : Int) (h : hh.level = 2) :
    ByteToSectorFuel g (fB + 1) d2 hh o
      = byteToSectorVia (ByteToSectorFuel g fB d2) d2 hh g.MaxSingleIndirectSize o := by
  simp [ByteToSectorFuel, h]

theorem ByteToSectorFuel_level3 (g : Geometry) (fB : Nat) (d2 : Disk) (hh : FileHeader)
    (o : Int) (h : hh.level = 3) :
    ByteToSectorFuel g (fB + 1) d2 hh o
      = byteToSectorVia (ByteToSectorFuel g fB d2) d2 hh g.MaxDoubleIndirectSize o := by
  simp [ByteToSectorFuel, h]

theorem maxDirect_nonneg (g : Geometry) : 0 ≤ g.MaxDirectSize := by
  unfold Geometry.MaxDirectSize; positivity

theorem maxSingle_nonneg (g : Geometry) : 0 ≤ g.MaxSingleIndirectSize := by
  unfold Geometry.MaxSingleIndirectSize; have := maxDirect_nonneg g; positivity

theorem maxDouble_nonneg (g : Geometry) : 0 ≤ g.MaxDoubleIndirectSize := by
  unfold Geometry.MaxDoubleIndirectSize; have := maxSingle_nonneg g; positivity

theorem maxTriple_nonneg (g : Geometry) : 0 ≤ g.MaxTripleIndirectSize := by
  unfold Geometry.MaxTripleIndirectSize; have := maxDouble_nonneg g; positivity

/-- The branch `MaxDirectSize < fileSize <= MaxSingleIndirectSize`. -/
theorem AllocateFuel_single (g : Geometry) (junk : Int) (a : Nat) (fm : Bitmap) (d : Disk)
    (this : FileHeader) (s : Int) (h0 : ¬ s ≤ g.MaxDirectSize)
    (h1 : s ≤ g.MaxSingleIndirectSize) :
    AllocateFuel g junk (a + 1) fm d this s =
      if Bitmap.NumClear fm < divRoundUp s g.MaxDirectSize then
        ⟨some false, fm, d,
          { this with numBytes := s, level := 1, numSectors := divRoundUp s g.MaxDirectSize }⟩
      else allocIndirect g junk (AllocateFuel g junk a) g.MaxDirectSize
        (divRoundUp s g.MaxDirectSize).toNat 0 s fm d
        { this with numBytes := s, level := 1, numSectors := divRoundUp s g.MaxDirectSize } := by
  simp only [AllocateFuel, h0, h1, if_true, if_false]

/-- The branch `MaxSingleIndirectSize < fileSize <= MaxDoubleIndirectSize`. -/
theorem AllocateFuel_double (g : Geometry) (junk : Int) (a : Nat) (fm : Bitmap) (d : Disk)
    (this : FileHeader) (s : Int) (h0 : ¬ s ≤ g.MaxDirectSize)
    (h1 : ¬ s ≤ g.MaxSingleIndirectSize) (h2 : s ≤ g.MaxDoubleIndirectSize) :
    AllocateFuel g junk (a + 1) fm d this s =
      if Bitmap.NumClear fm < divRoundUp s g.MaxSingleIndirectSize then
        ⟨some false, fm, d,
          { this with numBytes := s, level := 2,
                      numSectors := divRoundUp s g.MaxSingleIndirectSize }⟩
      else allocIndirect g junk (AllocateFuel g junk a) g.MaxSingleIndirectSize
        (divRoundUp s g.MaxSingleIndirectSize).toNat 0 s fm d
        { this with numBytes := s, level := 2,
                    numSectors := divRoundUp s g.MaxSingleIndirectSize } := by
  simp only [AllocateFuel, h0, h1, h2, if_true, if_false]

/-- The branch `MaxDoubleIndirectSize < fileSize <= MaxTripleIndirectSize`. -/
theorem AllocateFuel_triple (g : Geometry) (junk : Int) (a : Nat) (fm : Bitmap) (d : Disk)
    (this : FileHeader) (s : Int) (h0 : ¬ s ≤ g.MaxDirectSize)
    (h1 : ¬ s ≤ g.MaxSingleIndirectSize) (h2 : ¬ s ≤ g.MaxDoubleIndirectSize)
    (h3 : s ≤ g.MaxTripleIndirectSize) :
    AllocateFuel g junk (a + 1) fm d this s =
      if Bitmap.NumClear fm < divRoundUp s g.MaxDoubleIndirectSize then
        ⟨some false, fm, d,
          { this with numBytes := s, level := 3,
                      numSectors := divRoundUp s g.MaxDoubleIndirectSize }⟩
      else allocIndirect g junk (AllocateFuel g junk a) g.MaxDoubleIndirectSize
        (divRoundUp s g.MaxDoubleIndirectSize).toNat 0 s fm d
        { this with numBytes := s, level := 3,
                    numSectors := divRoundUp s g.MaxDoubleIndirectSize } := by
  simp only [AllocateFuel, h0, h1, h2, h3, if_true, if_false]

/-- The branch `fileSize > MaxTripleIndirectSize`. -/
theorem AllocateFuel_too_large (g : Geometry) (junk : Int) (a : Nat) (fm : Bitmap) (d : Disk)
    (this : FileHeader) (s : Int) (h0 : ¬ s ≤ g.MaxDirectSize)
    (h1 : ¬ s ≤ g.MaxSingleIndirectSize) (h2 : ¬ s ≤ g.MaxDoubleIndirectSize)
    (h3 : ¬ s ≤ g.MaxTripleIndirectSize) :
    AllocateFuel g junk (a + 1) fm d this s =
      ⟨some false, fm, d, { this with numBytes := s }⟩ := by
  simp only [AllocateFuel, h0, h1, h2, h3, if_false]

theorem fresh_length (g : Geometry) (junk : Int) :
    (FileHeader.fresh g junk).dataSectors.length = g.NumDirect := by
  simp [FileHeader.fresh]

theorem alloc_post_single (g : Geometry) (junk : Int) (hSS : 0 < g.SectorSize)
    (a fD fB : Nat) (fm : Bitmap) (d : Disk) (this : FileHeader) (s : Int)
    (hlen : this.dataSectors.length = g.NumDirect) (hs0 : 0 ≤ s)
    (hs : s ≤ g.MaxSingleIndirectSize)
    (hret : (AllocateFuel g junk (a + 2) fm d this s).ret = some true) :
    ∃ l, AllocPost g (fD + 2) (fB + 2) fm d s (AllocateFuel g junk (a + 2) fm d this s).freeMap
      (AllocateFuel g junk (a + 2) fm d this s).disk
      (AllocateFuel g junk (a + 2) fm d this s).hdr l := by
  by_cases h0 : s ≤ g.MaxDirectSize
  · exact alloc_direct_post g junk (a + 1) (fD + 1) (fB + 1) fm d this s hSS hlen hs0 h0 hret
  · rw [AllocateFuel_single g junk (a + 1) fm d this s h0 hs] at hret ⊢
    by_cases hc : Bitmap.NumClear fm < divRoundUp s g.MaxDirectSize
    · simp [hc] at hret
    · simp only [hc, if_false] at hret ⊢
      exact alloc_indirect_branch g junk _ g.MaxDirectSize 1 (fD + 1) (fB + 1)
        (fun fm d sz h1 h2 h3 => alloc_direct_post g junk a fD fB fm d _ sz hSS
          (fresh_length g junk) h1 h2 h3)
        (by decide) (ByteToSectorFuel_level1 g (fB + 1)) fm d this s hlen (maxDirect_nonneg g)
        (by omega) hs hret

theorem alloc_post_double (g : Geometry) (junk : Int) (hSS : 0 < g.SectorSize)
    (a fD fB : Nat) (fm : Bitmap) (d : Disk) (this : FileHeader) (s : Int)
    (hlen : this.dataSectors.length = g.NumDirect) (hs0 : 0 ≤ s)
    (hs : s ≤ g.MaxDoubleIndirectSize)
    (hret : (AllocateFuel g junk (a + 3) fm d this s).ret = some true) :
    ∃ l, AllocPost g (fD + 3) (fB + 3) fm d s (AllocateFuel g junk (a + 3) fm d this s).freeMap
      (AllocateFuel g junk (a + 3) fm d this s).disk
      (AllocateFuel g junk (a + 3) fm d this s).hdr l := by
  by_cases h1 : s ≤ g.MaxSingleIndirectSize
  · exact alloc_post_single g junk hSS (a + 1) (fD + 1) (fB + 1) fm d this s hlen hs0 h1 hret
  · have h0 : ¬ s ≤ g.MaxDirectSize := by
      intro h; apply h1
      by_cases hz : g.NumDirect = 0
      · have : g.MaxDirectSize = 0 := by simp [Geometry.MaxDirectSize, hz]
        have : g.MaxSingleIndirectSize = 0 := by simp [Geometry.MaxSingleIndirectSize, hz]
        omega
      · have h1 : (1 : Int) ≤ g.NumDirect := by omega
        have := Int.mul_le_mul_of_nonneg_right h1 (maxDirect_nonneg g)
        rw [Int.one_mul] at this
        unfold Geometry.MaxSingleIndirectSize; omega
    rw [AllocateFuel_double g junk (a + 2) fm d this s h0 h1 hs] at hret ⊢
    by_cases hc : Bitmap.NumClear fm < divRoundUp s g.MaxSingleIndirectSize
    · simp [hc] at hret
    · simp only [hc, if_false] at hret ⊢
      exact alloc_indirect_branch g junk _ g.MaxSingleIndirectSize 2 (fD + 2) (fB + 2)
        (fun fm d sz h1 h2 h3 => alloc_post_single g junk hSS a fD fB fm d _ sz
          (fresh_length g junk) h1 h2 h3)
        (by decide) (ByteToSectorFuel_level2 g (fB + 2)) fm d this s hlen (maxSingle_nonneg g)
        (by omega) hs hret

theorem le_natCast_mul (n : Nat) (x : Int) (hx : 0 ≤ x) (hn : n = 0 → x = 0) :
    x ≤ (n : Int) * x := by
  by_cases hz : n = 0
  · rw [hn hz]; simp
  · have h1 : (1 : Int) ≤ n := by omega
    have := Int.mul_le_mul_of_nonneg_right h1 hx
    rw [Int.one_mul] at this
    exact this

theorem maxDirect_le_single (g : Geometry) : g.MaxDirectSize ≤ g.MaxSingleIndirectSize :=
  le_natCast_mul g.NumDirect g.MaxDirectSize (maxDirect_nonneg g)
    (fun h => by simp [Geometry.MaxDirectSize, h])

theorem maxSingle_le_double (g : Geometry) :
    g.MaxSingleIndirectSize ≤ g.MaxDoubleIndirectSize :=
  le_natCast_mul g.NumDirect g.MaxSingleIndirectSize (maxSingle_nonneg g)
    (fun h => by simp [Geometry.MaxSingleIndirectSize, h])

theorem maxDouble_le_triple (g : Geometry) :
    g.MaxDoubleIndirectSize ≤ g.MaxTripleIndirectSize :=
  le_natCast_mul g.NumDirect g.MaxDoubleIndirectSize (maxDouble_nonneg g)
    (fun h => by simp [Geometry.MaxDoubleIndirectSize, h])

theorem alloc_post_triple (g : Geometry) (junk : Int) (hSS : 0 < g.SectorSize)
    (a fD fB : Nat) (fm : Bitmap) (d : Disk) (this : FileHeader) (s : Int)
    (hlen : this.dataSectors.length = g.NumDirect) (hs0 : 0 ≤ s)
    (hs : s ≤ g.MaxTripleIndirectSize)
    (hret : (AllocateFuel g junk (a + 4) fm d this s).ret = some true) :
    ∃ l, AllocPost g (fD + 4) (fB + 4) fm d s (AllocateFuel g junk (a + 4) fm d this s).freeMap
      (AllocateFuel g junk (a + 4) fm d this s).disk
      (AllocateFuel g junk (a + 4) fm d this s).hdr l := by
  by_cases h2 : s ≤ g.MaxDoubleIndirectSize
  · exact alloc_post_double g junk hSS (a + 1) (fD + 1) (fB + 1) fm d this s hlen hs0 h2 hret
  · have h1 : ¬ s ≤ g.MaxSingleIndirectSize := by
      have := maxSingle_le_double g; omega
    have h0 : ¬ s ≤ g.MaxDirectSize := by
      have := maxDirect_le_single g; omega
    rw [AllocateFuel_triple g junk (a + 3) fm d this s h0 h1 h2 hs] at hret ⊢
    by_cases hc : Bitmap.NumClear fm < divRoundUp s g.MaxDoubleIndirectSize
    · simp [hc] at hret
    · simp only [hc, if_false] at hret ⊢
      exact alloc_indirect_branch g junk _ g.MaxDoubleIndirectSize 3 (fD + 3) (fB + 3)
        (fun fm d sz h1 h2 h3 => alloc_post_double g junk hSS a fD fB fm d _ sz
          (fresh_length g junk) h1 h2 h3)
        (by decide) (ByteToSectorFuel_level3 g (fB + 3)) fm d this s hlen (maxDouble_nonneg g)
        (by omega) hs hret

theorem allocDirect_hdr (n : Nat) : ∀ (i : Nat) (fm : Bitmap) (h : FileHeader),
    (allocDirect n i fm h).2.2.level = h.level ∧
    (allocDirect n i fm h).2.2.numBytes = h.numBytes ∧
    (allocDirect n i fm h).2.2.numSectors = h.numSectors := by
  induction n with
  | zero => intro i fm h; simp [allocDirect]
  | succ n ih =>
    intro i fm h
    rw [allocDirect]
    by_cases hi : i < h.dataSectors.length
    · by_cases hr : 0 ≤ (Bitmap.FindAndSet fm).1
      · simp only [hi, hr, if_true]
        exact ih _ _ _
      · simp [hi, hr]
    · simp [hi]

theorem allocIndirect_hdr (g : Geometry) (junk : Int)
    (child : Bitmap → Disk → FileHeader → Int → AllocResult) (cap : Int) (n : Nat) :
    ∀ (i : Nat) (rem : Int) (fm : Bitmap) (d : Disk) (h : FileHeader),
      (allocIndirect g junk child cap n i rem fm d h).hdr.level = h.level ∧
      (allocIndirect g junk child cap n i rem fm d h).hdr.numBytes = h.numBytes ∧
      (allocIndirect g junk child cap n i rem fm d h).hdr.numSectors = h.numSectors := by
  induction n with
  | zero => intro i rem fm d h; simp [allocIndirect]
  | succ n ih =>
    intro i rem fm d h
    rw [allocIndirect]
    by_cases hi : i < h.dataSectors.length
    · by_cases hr : 0 ≤ (Bitmap.FindAndSet fm).1
      · simp only [hi, hr, if_true]
        generalize (if rem > cap then cap else rem) = sz
        generalize child (Bitmap.FindAndSet fm).2 d (FileHeader.fresh g junk) sz = c
        rcases hc : c.ret with _ | _ | _
        · simp
        · simp
        · by_cases hb : rem - sz ≤ 0
          · simp [hb]
          · simp only [hb, if_false]
            exact ih _ _ _ _ _
      · simp [hi, hr]
    · simp [hi]

/-- The header fields `Allocate` has assigned when it stops, whatever it returns. -/
theorem Allocate_hdr (g : Geometry) (junk : Int) (fm : Bitmap) (d : Disk)
    (this : FileHeader) (s : Int) (hs : s ≤ g.MaxTripleIndirectSize) :
    (Allocate g junk fm d this s).hdr.numBytes = s ∧
    (Allocate g junk fm d this s).hdr.level = (requiredLevel g s : Int) ∧
    (Allocate g junk fm d this s).hdr.numSectors
      = divRoundUp s (g.childCapacity (requiredLevel g s)) := by
  unfold Allocate
  by_cases h0 : s ≤ g.MaxDirectSize
  · have hl : requiredLevel g s = 0 := by simp [requiredLevel, Geometry.maxSizeAt, h0]
    rw [hl]
    by_cases hc : Bitmap.NumClear fm < divRoundUp s g.SectorSize
    · rw [AllocateFuel_direct_short g junk 3 fm d this s h0 hc]
      exact ⟨rfl, rfl, rfl⟩
    · simp only [AllocateFuel, h0, if_true, hc, if_false]
      exact ⟨(allocDirect_hdr _ _ _ _).2.1, (allocDirect_hdr _ _ _ _).1,
        (allocDirect_hdr _ _ _ _).2.2⟩
  · by_cases h1 : s ≤ g.MaxSingleIndirectSize
    · have hl : requiredLevel g s = 1 := by simp [requiredLevel, Geometry.maxSizeAt, h0, h1]
      rw [hl, AllocateFuel_single g junk 3 fm d this s h0 h1]
      split
      · exact ⟨rfl, rfl, rfl⟩
      · exact ⟨(allocIndirect_hdr _ _ _ _ _ _ _ _ _ _).2.1,
          (allocIndirect_hdr _ _ _ _ _ _ _ _ _ _).1, (allocIndirect_hdr _ _ _ _ _ _ _ _ _ _).2.2⟩
    · by_cases h2 : s ≤ g.MaxDoubleIndirectSize
      · have hl : requiredLevel g s = 2 := by
          simp [requiredLevel, Geometry.maxSizeAt, h0, h1, h2]
        rw [hl, AllocateFuel_double g junk 3 fm d this s h0 h1 h2]
        split
        · exact ⟨rfl, rfl, rfl⟩
        · exact ⟨(allocIndirect_hdr _ _ _ _ _ _ _ _ _ _).2.1,
            (allocIndirect_hdr _ _ _ _ _ _ _ _ _ _).1,
            (allocIndirect_hdr _ _ _ _ _ _ _ _ _ _).2.2⟩
      · have hl : requiredLevel g s = 3 := by
          simp [requiredLevel, Geometry.maxSizeAt, h0, h1, h2]
        rw [hl, AllocateFuel_triple g junk 3 fm d this s h0 h1 h2 hs]
        split
        · exact ⟨rfl, rfl, rfl⟩
        · exact ⟨(allocIndirect_hdr _ _ _ _ _ _ _ _ _ _).2.1,
            (allocIndirect_hdr _ _ _ _ _ _ _ _ _ _).1,
            (allocIndirect_hdr _ _ _ _ _ _ _ _ _ _).2.2⟩

theorem clearList_restores (fm fm1 : Bitmap) (l : List Int) (hlen : fm1.length = fm.length)
    (hclear : ∀ k ∈ l, Bitmap.Test fm k = false)
    (hset : ∀ k, Bitmap.Test fm1 k = (Bitmap.Test fm k || decide (k ∈ l))) :
    Bitmap.clearList fm1 l = fm := by
  apply Bitmap.ext_Test
  · rw [length_clearList, hlen]
  · intro k
    rw [Test_clearList, hset]
    by_cases hk : k ∈ l
    · simp [hk, hclear k hk]
    · simp [hk]

/-- C1: when `Allocate` of `s` bytes, `0 <= s <= MaxTripleIndirectSize`, on a fresh header
returns TRUE, `Deallocate` on the header it built completes and leaves the bitmap equal,
bit for bit, to the bitmap before `Allocate`. -/
theorem allocate_deallocate_restores (g : Geometry) (junk junk0 : Int)
    (hSS : 0 < g.SectorSize) (fm : Bitmap) (d : Disk) (s : Int) (hs0 : 0 ≤ s)
    (hs : s ≤ g.MaxTripleIndirectSize)
    (hret : (Allocate g junk fm d (FileHeader.fresh g junk0) s).ret = some true) :
    Deallocate (Allocate g junk fm d (FileHeader.fresh g junk0) s).freeMap
      (Allocate g junk fm d (FileHeader.fresh g junk0) s).disk
      (Allocate g junk fm d (FileHeader.fresh g junk0) s).hdr = some fm := by
  obtain ⟨l, p⟩ := alloc_post_triple g junk hSS 0 0 0 fm d (FileHeader.fresh g junk0) s
    (fresh_length g junk0) hs0 hs hret
  unfold Deallocate
  have hd := p.dealloc (Allocate g junk fm d (FileHeader.fresh g junk0) s).freeMap
    (Allocate g junk fm d (FileHeader.fresh g junk0) s).disk (fun _ _ => rfl)
    (fun k hk => by
      have := p.nowSet k
      simp only [hk, decide_True, Bool.or_true] at this
      exact this)
  rw [show (4 : Nat) = 0 + 4 from rfl]
  unfold Allocate
  rw [show (4 : Nat) = 0 + 4 from rfl]
  unfold Allocate at hd
  rw [hd, clearList_restores fm _ l p.len p.wasClear p.nowSet]

/-- C3: after `Allocate` of `s` bytes has returned TRUE, `ByteToSector` returns, for every
offset in `[0, s)`, a sector that was clear before the `Allocate` and is set after it, and
`FileLength` is `s`. `ByteToSector` reads the header and the disk and writes neither, nor
the bitmap: its result depends on the header, the disk and the offset only. -/
theorem byteToSector_claimed (g : Geometry) (junk junk0 : Int)
    (hSS : 0 < g.SectorSize) (fm : Bitmap) (d : Disk) (s : Int)
    (hs : s ≤ g.MaxTripleIndirectSize)
    (hret : (Allocate g junk fm d (FileHeader.fresh g junk0) s).ret = some true)
    (offset : Int) (ho0 : 0 ≤ offset) (ho : offset < s) :
    ∃ k, ByteToSector g (Allocate g junk fm d (FileHeader.fresh g junk0) s).disk
        (Allocate g junk fm d (FileHeader.fresh g junk0) s).hdr offset = some k ∧
      Bitmap.Test fm k = false ∧
      Bitmap.Test (Allocate g junk fm d (FileHeader.fresh g junk0) s).freeMap k = true ∧
      FileLength (Allocate g junk fm d (FileHeader.fresh g junk0) s).hdr = s := by
  obtain ⟨l, p⟩ := alloc_post_triple g junk hSS 0 0 0 fm d (FileHeader.fresh g junk0) s
    (fresh_length g junk0) (by omega) hs hret
  obtain ⟨k, hk, hb⟩ := p.lookup offset ho0 ho
    (AllocateFuel g junk (0 + 4) fm d (FileHeader.fresh g junk0) s).disk (fun _ _ => rfl)
  refine ⟨k, hb, p.wasClear k hk, ?_, (Allocate_hdr g junk fm d _ s hs).1⟩
  have := p.nowSet k
  simp only [hk, decide_True, Bool.or_true] at this
  exact this

/-- C2: for `s > MaxTripleIndirectSize`, `Allocate` returns FALSE, the bitmap is unchanged
(no sector claimed) and the disk is unchanged (nothing written). -/
theorem allocate_too_large (g : Geometry) (junk : Int) (fm : Bitmap) (d : Disk)
    (this : FileHeader) (s : Int) (hs : g.MaxTripleIndirectSize < s) :
    (Allocate g junk fm d this s).ret = some false ∧
    (Allocate g junk fm d this s).freeMap = fm ∧
    (Allocate g junk fm d this s).disk = d := by
  have h3 : ¬ s ≤ g.MaxTripleIndirectSize := by omega
  have h2 : ¬ s ≤ g.MaxDoubleIndirectSize := by have := maxDouble_le_triple g; omega
  have h1 : ¬ s ≤ g.MaxSingleIndirectSize := by have := maxSingle_le_double g; omega
  have h0 : ¬ s ≤ g.MaxDirectSize := by have := maxDirect_le_single g; omega
  unfold Allocate
  rw [AllocateFuel_too_large g junk 3 fm d this s h0 h1 h2 h3]
  exact ⟨rfl, rfl, rfl⟩

theorem requiredLevel_least (g : Geometry) (s : Int) (hs : s ≤ g.MaxTripleIndirectSize) :
    requiredLevel g s ≤ 3 ∧ s ≤ g.maxSizeAt (requiredLevel g s) ∧
    ∀ lvl, lvl < requiredLevel g s → g.maxSizeAt lvl < s := by
  unfold requiredLevel
  by_cases h0 : s ≤ g.maxSizeAt 0
  · simp [h0]
  · by_cases h1 : s ≤ g.maxSizeAt 1
    · simp only [h0, h1, if_true, if_false]
      refine ⟨by omega, trivial, ?_⟩
      intro lvl hl
      have : lvl = 0 := by omega
      subst this; omega
    · by_cases h2 : s ≤ g.maxSizeAt 2
      · simp only [h0, h1, h2, if_true, if_false]
        refine ⟨by omega, trivial, ?_⟩
        intro lvl hl
        have : lvl = 0 ∨ lvl = 1 := by omega
        rcases this with rfl | rfl <;> omega
      · simp only [h0, h1, h2, if_false]
        refine ⟨by omega, hs, ?_⟩
        intro lvl hl
        have : lvl = 0 ∨ lvl = 1 ∨ lvl = 2 := by omega
        rcases this with rfl | rfl | rfl <;> omega

/-- C4: for every `s <= MaxTripleIndirectSize` (so for `0 <= s` in particular), whatever
the bitmap and whatever the call returns, `Allocate` sets `level` to the smallest of
0, 1, 2, 3 whose maximum size is at least `s`, and `numBytes` to `s`. -/
theorem allocate_sets_level (g : Geometry) (junk : Int) (_hSS : 0 < g.SectorSize)
    (fm : Bitmap) (d : Disk) (this : FileHeader) (s : Int)
    (hs : s ≤ g.MaxTripleIndirectSize) :
    ∃ lvl : Nat, lvl ≤ 3 ∧ (Allocate g junk fm d this s).hdr.level = (lvl : Int) ∧
      s ≤ g.maxSizeAt lvl ∧ (∀ lower, lower < lvl → g.maxSizeAt lower < s) ∧
      (Allocate g junk fm d this s).hdr.numBytes = s := by
  obtain ⟨a1, a2, _⟩ := Allocate_hdr g junk fm d this s hs
  obtain ⟨b1, b2, b3⟩ := requiredLevel_least g s hs
  exact ⟨requiredLevel g s, b1, a2, b2, b3, a1⟩

/-- C7: for every `s <= MaxTripleIndirectSize` (so for `0 <= s` in particular), when the
bitmap has fewer clear sectors than the top-level `numSectors` (the file size divided by
the size one entry covers at the level of the file, rounded up), `Allocate` returns FALSE
with the bitmap and the disk unchanged, so without a `FindAndSet`. -/
theorem allocate_short_of_sectors (g : Geometry) (junk : Int) (_hSS : 0 < g.SectorSize)
    (fm : Bitmap) (d : Disk) (this : FileHeader) (s : Int)
    (hs : s ≤ g.MaxTripleIndirectSize)
    (hclear : Bitmap.NumClear fm < divRoundUp s (g.childCapacity (requiredLevel g s))) :
    (Allocate g junk fm d this s).ret = some false ∧
    (Allocate g junk fm d this s).freeMap = fm ∧
    (Allocate g junk fm d this s).disk = d := by
  unfold Allocate
  by_cases h0 : s ≤ g.MaxDirectSize
  · have hl : requiredLevel g s = 0 := by simp [requiredLevel, Geometry.maxSizeAt, h0]
    rw [hl] at hclear
    rw [AllocateFuel_direct_short g junk 3 fm d this s h0 hclear]
    exact ⟨rfl, rfl, rfl⟩
  · by_cases h1 : s ≤ g.MaxSingleIndirectSize
    · have hl : requiredLevel g s = 1 := by simp [requiredLevel, Geometry.maxSizeAt, h0, h1]
      rw [hl] at hclear
      simp only [Geometry.childCapacity] at hclear
      rw [AllocateFuel_single g junk 3 fm d this s h0 h1, if_pos hclear]
      exact ⟨rfl, rfl, rfl⟩
    · by_cases h2 : s ≤ g.MaxDoubleIndirectSize
      · have hl : requiredLevel g s = 2 := by
          simp [requiredLevel, Geometry.maxSizeAt, h0, h1, h2]
        rw [hl] at hclear
        simp only [Geometry.childCapacity] at hclear
        rw [AllocateFuel_double g junk 3 fm d this s h0 h1 h2, if_pos hclear]
        exact ⟨rfl, rfl, rfl⟩
      · have hl : requiredLevel g s = 3 := by
          simp [requiredLevel, Geometry.maxSizeAt, h0, h1, h2]
        rw [hl] at hclear
        simp only [Geometry.childCapacity] at hclear
        rw [AllocateFuel_triple g junk 3 fm d this s h0 h1 h2 hs, if_pos hclear]
        exact ⟨rfl, rfl, rfl⟩

theorem divRoundUp_eq (n s q : Int) (hn : 0 ≤ n) (hs : 0 < s) (h1 : (q - 1) * s < n)
    (h2 : n ≤ q * s) : divRoundUp n s = q := by
  obtain ⟨_, a1, a2⟩ := divRoundUp_spec n s hn hs
  by_contra hne
  rcases lt_or_gt_of_ne hne with hlt | hgt
  · have h3 : divRoundUp n s ≤ q - 1 := by omega
    have := Int.mul_le_mul_of_nonneg_right h3 (le_of_lt hs)
    omega
  · have h3 : q ≤ divRoundUp n s - 1 := by omega
    have := Int.mul_le_mul_of_nonneg_right h3 (le_of_lt hs)
    omega

/-- C6: for `0 <= s <= MaxDirectSize` and a bitmap with at least `ceil(s / SectorSize)`
clear sectors, `Allocate` returns TRUE with `level = 0` and `numSectors = ceil(s /
SectorSize)`; `dataSectors[0 .. numSectors)` holds the results of `numSectors` successive
`FindAndSet` calls in call order, the bitmap is the one those calls leave, exactly those
sectors were claimed, and the disk is untouched. For `s = MaxDirectSize`,
`numSectors = MaxDirectSize / SectorSize`. -/
theorem allocate_direct (g : Geometry) (junk junk0 : Int) (hSS : 0 < g.SectorSize)
    (fm : Bitmap) (d : Disk) (s : Int) (hs0 : 0 ≤ s) (hs : s ≤ g.MaxDirectSize)
    (hclear : divRoundUp s g.SectorSize ≤ Bitmap.NumClear fm) :
    (Allocate g junk fm d (FileHeader.fresh g junk0) s).ret = some true ∧
    (Allocate g junk fm d (FileHeader.fresh g junk0) s).hdr.level = 0 ∧
    (Allocate g junk fm d (FileHeader.fresh g junk0) s).hdr.numSectors
      = divRoundUp s g.SectorSize ∧
    ((divRoundUp s g.SectorSize - 1) * g.SectorSize < s ∧
      s ≤ divRoundUp s g.SectorSize * g.SectorSize) ∧
    (Allocate g junk fm d (FileHeader.fresh g junk0) s).hdr.dataSectors.take
        (divRoundUp s g.SectorSize).toNat
      = (findAndSetN (divRoundUp s g.SectorSize).toNat fm).1 ∧
    (Allocate g junk fm d (FileHeader.fresh g junk0) s).freeMap
      = (findAndSetN (divRoundUp s g.SectorSize).toNat fm).2 ∧
    (findAndSetN (divRoundUp s g.SectorSize).toNat fm).1.length
      = (divRoundUp s g.SectorSize).toNat ∧
    (findAndSetN (divRoundUp s g.SectorSize).toNat fm).1.Nodup ∧
    (∀ k, Bitmap.Test (Allocate g junk fm d (FileHeader.fresh g junk0) s).freeMap k
      = (Bitmap.Test fm k ||
          decide (k ∈ (findAndSetN (divRoundUp s g.SectorSize).toNat fm).1))) ∧
    (∀ k ∈ (findAndSetN (divRoundUp s g.SectorSize).toNat fm).1, Bitmap.Test fm k = false) ∧
    Bitmap.NumClear (Allocate g junk fm d (FileHeader.fresh g junk0) s).freeMap
      = Bitmap.NumClear fm - divRoundUp s g.SectorSize ∧
    (Allocate g junk fm d (FileHeader.fresh g junk0) s).disk = d ∧
    (s = g.MaxDirectSize →
      (Allocate g junk fm d (FileHeader.fresh g junk0) s).hdr.numSectors
        = g.MaxDirectSize / (g.SectorSize : Int)) := by
  have hSS2 : (0 : Int) < g.SectorSize := by exact_mod_cast hSS
  obtain ⟨q0, q1, q2⟩ := divRoundUp_spec s g.SectorSize hs0 hSS2
  have hcast : (((divRoundUp s g.SectorSize).toNat : Nat) : Int) = divRoundUp s g.SectorSize :=
    Int.toNat_of_nonneg q0
  obtain ⟨f1, f2, f3, f4, _, f6⟩ := findAndSetN_spec (divRoundUp s g.SectorSize).toNat fm
    (by rw [hcast]; exact hclear)
  unfold Allocate
  rw [AllocateFuel_direct_ok g junk 3 fm d (FileHeader.fresh g junk0) s hSS
    (fresh_length g junk0) hs0 hs hclear]
  refine ⟨rfl, rfl, rfl, ⟨q1, q2⟩, ?_, rfl, f1, f2, f4, fun k hk => (f3 k hk).2, ?_, rfl, ?_⟩
  · exact List.take_left' f1
  · rw [f6, hcast]
  · intro hmax
    subst hmax
    show divRoundUp g.MaxDirectSize g.SectorSize = g.MaxDirectSize / (g.SectorSize : Int)
    have hdiv : g.MaxDirectSize / (g.SectorSize : Int) = g.NumDirect := by
      rw [maxDirect_eq]; exact Int.mul_ediv_cancel _ (ne_of_gt hSS2)
    rw [hdiv]
    apply divRoundUp_eq _ _ _ hs0 hSS2
    · rw [maxDirect_eq]
      have : ((g.NumDirect : Int) - 1) * g.SectorSize
          = (g.NumDirect : Int) * g.SectorSize - g.SectorSize := by ring
      omega
    · rw [maxDirect_eq]

/-- One iteration of the indirect loop in which `FindAndSet` and the recursive call
both succeed. -/
theorem allocIndirect_step_ok (g : Geometry) (junk : Int)
    (child : Bitmap → Disk → FileHeader → Int → AllocResult) (cap : Int) (n i : Nat)
    (rem : Int) (fm : Bitmap) (d : Disk) (h : FileHeader) (hi : i < h.dataSectors.length)
    (hfree : 0 < Bitmap.NumClear fm)
    (hc : (child (Bitmap.FindAndSet fm).2 d (FileHeader.fresh g junk)
      (if rem > cap then cap else rem)).ret = some true) :
    allocIndirect g junk child cap (n + 1) i rem fm d h =
      if rem - (if rem > cap then cap else rem) ≤ 0 then
        ⟨some true,
          (child (Bitmap.FindAndSet fm).2 d (FileHeader.fresh g junk)
            (if rem > cap then cap else rem)).freeMap,
          WriteBack (child (Bitmap.FindAndSet fm).2 d (FileHeader.fresh g junk)
              (if rem > cap then cap else rem)).disk (Bitmap.FindAndSet fm).1
            (child (Bitmap.FindAndSet fm).2 d (FileHeader.fresh g junk)
              (if rem > cap then cap else rem)).hdr,
          { h with dataSectors := h.dataSectors.set i (Bitmap.FindAndSet fm).1 }⟩
      else allocIndirect g junk child cap n (i + 1) (rem - (if rem > cap then cap else rem))
        (child (Bitmap.FindAndSet fm).2 d (FileHeader.fresh g junk)
          (if rem > cap then cap else rem)).freeMap
        (WriteBack (child (Bitmap.FindAndSet fm).2 d (FileHeader.fresh g junk)
            (if rem > cap then cap else rem)).disk (Bitmap.FindAndSet fm).1
          (child (Bitmap.FindAndSet fm).2 d (FileHeader.fresh g junk)
            (if rem > cap then cap else rem)).hdr)
        { h with dataSectors := h.dataSectors.set i (Bitmap.FindAndSet fm).1 } := by
  rcases FindAndSet_spec fm with ⟨_, h1, _⟩ | ⟨h0, _⟩
  · rw [allocIndirect]
    simp only [hi, h1, if_true, hc]
  · omega

theorem numClear_FindAndSet (fm : Bitmap) (h : 0 < Bitmap.NumClear fm) :
    Bitmap.NumClear (Bitmap.FindAndSet fm).2 = Bitmap.NumClear fm - 1 := by
  rcases FindAndSet_spec fm with ⟨_, _, _, _, _, h5⟩ | ⟨h0, _⟩
  · exact h5
  · omega

theorem numClear_direct_ok (g : Geometry) (junk : Int) (a : Nat) (fm : Bitmap) (d : Disk)
    (this : FileHeader) (s : Int) (hSS : 0 < g.SectorSize)
    (hlen : this.dataSectors.length = g.NumDirect) (hs0 : 0 ≤ s) (hs : s ≤ g.MaxDirectSize)
    (hclear : divRoundUp s g.SectorSize ≤ Bitmap.NumClear fm) :
    (AllocateFuel g junk (a + 1) fm d this s).ret = some true ∧
    Bitmap.NumClear (AllocateFuel g junk (a + 1) fm d this s).freeMap
      = Bitmap.NumClear fm - divRoundUp s g.SectorSize := by
  have hSS2 : (0 : Int) < g.SectorSize := by exact_mod_cast hSS
  obtain ⟨q0, _, _⟩ := divRoundUp_spec s g.SectorSize hs0 hSS2
  have hcast : (((divRoundUp s g.SectorSize).toNat : Nat) : Int) = divRoundUp s g.SectorSize :=
    Int.toNat_of_nonneg q0
  obtain ⟨_, _, _, _, _, f6⟩ := findAndSetN_spec (divRoundUp s g.SectorSize).toNat fm
    (by rw [hcast]; exact hclear)
  rw [AllocateFuel_direct_ok g junk a fm d this s hSS hlen hs0 hs hclear]
  exact ⟨rfl, by rw [f6, hcast]⟩

/-- A file of `MaxDirectSize + 1` bytes needs two entries at level 1. -/
theorem alloc_maxDirect_succ (g : Geometry) (junk : Int) (hSS : 0 < g.SectorSize)
    (hND : 2 ≤ g.NumDirect) (fm : Bitmap) (d : Disk) (this : FileHeader)
    (hlen : this.dataSectors.length = g.NumDirect)
    (hclear : (g.NumDirect : Int) + 3 ≤ Bitmap.NumClear fm) :
    (Allocate g junk fm d this (g.MaxDirectSize + 1)).ret = some true ∧
    (Allocate g junk fm d this (g.MaxDirectSize + 1)).hdr.level = 1 ∧
    (Allocate g junk fm d this (g.MaxDirectSize + 1)).hdr.numSectors = 2 ∧
    (Allocate g junk fm d this (g.MaxDirectSize + 1)).hdr.numBytes = g.MaxDirectSize + 1 := by
  have hSS2 : (1 : Int) ≤ g.SectorSize := by exact_mod_cast hSS
  have hND2 : (2 : Int) ≤ g.NumDirect := by exact_mod_cast hND
  have hM1 : (2 : Int) ≤ g.MaxDirectSize := by
    rw [maxDirect_eq]
    have := Int.mul_le_mul hND2 hSS2 (by omega) (by omega)
    omega
  have hMS : g.MaxDirectSize + 1 ≤ g.MaxSingleIndirectSize := by
    unfold Geometry.MaxSingleIndirectSize
    have := Int.mul_le_mul_of_nonneg_right hND2 (maxDirect_nonneg g)
    omega
  have h0 : ¬ g.MaxDirectSize + 1 ≤ g.MaxDirectSize := by omega
  have hq : divRoundUp (g.MaxDirectSize + 1) g.MaxDirectSize = 2 :=
    divRoundUp_eq _ _ 2 (by omega) (by omega) (by omega) (by omega)
  have hlvl : requiredLevel g (g.MaxDirectSize + 1) = 1 := by
    simp [requiredLevel, Geometry.maxSizeAt, h0, hMS]
  obtain ⟨a1, a2, a3⟩ := Allocate_hdr g junk fm d this (g.MaxDirectSize + 1)
    (by have := maxSingle_le_double g; have := maxDouble_le_triple g; omega)
  rw [hlvl] at a2 a3
  simp only [Geometry.childCapacity, hq] at a3
  refine ⟨?_, by simpa using a2, a3, a1⟩
  -- the two iterations of the loop
  have hfull : divRoundUp g.MaxDirectSize g.SectorSize = g.NumDirect := by
    apply divRoundUp_eq _ _ _ (by omega) (by omega)
    · rw [maxDirect_eq]
      have : ((g.NumDirect : Int) - 1) * g.SectorSize
          = (g.NumDirect : Int) * g.SectorSize - g.SectorSize := by ring
      omega
    · rw [maxDirect_eq]
  have hone : divRoundUp 1 g.SectorSize = 1 :=
    divRoundUp_eq _ _ 1 (by omega) (by omega) (by omega) (by omega)
  have hgt : g.MaxDirectSize + 1 > g.MaxDirectSize := by omega
  have hngt : ¬ (1 : Int) > g.MaxDirectSize := by omega
  have hn1 := numClear_FindAndSet fm (by omega)
  obtain ⟨c1, c2⟩ := numClear_direct_ok g junk 2 (Bitmap.FindAndSet fm).2 d
    (FileHeader.fresh g junk) g.MaxDirectSize hSS (fresh_length g junk) (by omega)
    (le_refl _) (by rw [hfull, hn1]; omega)
  rw [hfull, hn1] at c2
  unfold Allocate
  rw [AllocateFuel_single g junk 3 fm d this _ h0 hMS, hq,
    if_neg (by omega : ¬ Bitmap.NumClear fm < 2)]
  rw [show (2 : Int).toNat = 1 + 1 from rfl]
  rw [allocIndirect_step_ok g junk _ g.MaxDirectSize 1 0 _ fm d _ (by simp only [hlen]; omega)
    (by omega) (by simp only [hgt, if_true]; exact c1)]
  simp only [hgt, if_true]
  rw [if_neg (by omega : ¬ g.MaxDirectSize + 1 - g.MaxDirectSize ≤ 0)]
  rw [show g.MaxDirectSize + 1 - g.MaxDirectSize = 1 by ring]
  have hn2 := numClear_FindAndSet
    (AllocateFuel g junk 3 (Bitmap.FindAndSet fm).2 d (FileHeader.fresh g junk)
      g.MaxDirectSize).freeMap (by rw [c2]; omega)
  obtain ⟨e1, _⟩ := numClear_direct_ok g junk 2
    (Bitmap.FindAndSet (AllocateFuel g junk 3 (Bitmap.FindAndSet fm).2 d
      (FileHeader.fresh g junk) g.MaxDirectSize).freeMap).2
    (WriteBack (AllocateFuel g junk 3 (Bitmap.FindAndSet fm).2 d (FileHeader.fresh g junk)
      g.MaxDirectSize).disk (Bitmap.FindAndSet fm).1
      (AllocateFuel g junk 3 (Bitmap.FindAndSet fm).2 d (FileHeader.fresh g junk)
        g.MaxDirectSize).hdr)
    (FileHeader.fresh g junk) 1 hSS (fresh_length g junk) (by omega) (by omega)
    (by rw [hone, hn2, c2]; omega)
  rw [allocIndirect_step_ok g junk _ g.MaxDirectSize 0 1 1 _ _ _
    (by simp only [List.length_set, hlen]; omega) (by rw [c2]; omega)
    (by simp only [hngt, if_false]; exact e1)]
  simp only [hngt, if_false, Int.sub_self, le_refl, if_true]

theorem numClear_clearMap (n : Nat) : Bitmap.NumClear (clearMap n) = (n : Int) := by
  simp [Bitmap.NumClear, clearMap]

/-- C1, at a file of 9 bytes on the small geometry (a level-2 header). -/
theorem allocate_deallocate_restores_witness :
    Deallocate
      (Allocate tinyGeometry 0 (clearMap 12) (blankDisk tinyGeometry)
        (FileHeader.fresh tinyGeometry 0) 9).freeMap
      (Allocate tinyGeometry 0 (clearMap 12) (blankDisk tinyGeometry)
        (FileHeader.fresh tinyGeometry 0) 9).disk
      (Allocate tinyGeometry 0 (clearMap 12) (blankDisk tinyGeometry)
        (FileHeader.fresh tinyGeometry 0) 9).hdr = some (clearMap 12) :=
  allocate_deallocate_restores tinyGeometry 0 0 (by decide) (clearMap 12)
    (blankDisk tinyGeometry) 9 (by decide) (by decide) (by decide)

/-- C2, at 33 bytes on the small geometry, one more than `MaxTripleIndirectSize`. -/
theorem allocate_too_large_witness :
    (Allocate tinyGeometry 0 (clearMap 12) (blankDisk tinyGeometry)
        (FileHeader.fresh tinyGeometry 0) 33).ret = some false ∧
    (Allocate tinyGeometry 0 (clearMap 12) (blankDisk tinyGeometry)
        (FileHeader.fresh tinyGeometry 0) 33).freeMap = clearMap 12 ∧
    (Allocate tinyGeometry 0 (clearMap 12) (blankDisk tinyGeometry)
        (FileHeader.fresh tinyGeometry 0) 33).disk = blankDisk tinyGeometry :=
  allocate_too_large tinyGeometry 0 (clearMap 12) (blankDisk tinyGeometry)
    (FileHeader.fresh tinyGeometry 0) 33 (by decide)

/-- C3, at offset 8 of a file of 9 bytes on the small geometry. -/
theorem byteToSector_claimed_witness :
    ∃ k, ByteToSector tinyGeometry
        (Allocate tinyGeometry 0 (clearMap 12) (blankDisk tinyGeometry)
          (FileHeader.fresh tinyGeometry 0) 9).disk
        (Allocate tinyGeometry 0 (clearMap 12) (blankDisk tinyGeometry)
          (FileHeader.fresh tinyGeometry 0) 9).hdr 8 = some k ∧
      Bitmap.Test (clearMap 12) k = false ∧
      Bitmap.Test (Allocate tinyGeometry 0 (clearMap 12) (blankDisk tinyGeometry)
          (FileHeader.fresh tinyGeometry 0) 9).freeMap k = true ∧
      FileLength (Allocate tinyGeometry 0 (clearMap 12) (blankDisk tinyGeometry)
          (FileHeader.fresh tinyGeometry 0) 9).hdr = 9 :=
  byteToSector_claimed tinyGeometry 0 0 (by decide) (clearMap 12) (blankDisk tinyGeometry) 9
    (by decide) (by decide) 8 (by decide) (by decide)

/-- C4, at 9 bytes on the small geometry. -/
theorem allocate_sets_level_witness :
    ∃ lvl : Nat, lvl ≤ 3 ∧
      (Allocate tinyGeometry 0 (clearMap 12) (blankDisk tinyGeometry)
        (FileHeader.fresh tinyGeometry 0) 9).hdr.level = (lvl : Int) ∧
      (9 : Int) ≤ tinyGeometry.maxSizeAt lvl ∧
      (∀ lower, lower < lvl → tinyGeometry.maxSizeAt lower < 9) ∧
      (Allocate tinyGeometry 0 (clearMap 12) (blankDisk tinyGeometry)
        (FileHeader.fresh tinyGeometry 0) 9).hdr.numBytes = 9 :=
  allocate_sets_level tinyGeometry 0 (by decide) (clearMap 12) (blankDisk tinyGeometry)
    (FileHeader.fresh tinyGeometry 0) 9 (by decide)

/-- C7, at 9 bytes on the small geometry with one clear sector where two are needed. -/
theorem allocate_short_of_sectors_witness :
    (Allocate tinyGeometry 0 [true, false, true] (blankDisk tinyGeometry)
        (FileHeader.fresh tinyGeometry 0) 9).ret = some false ∧
    (Allocate tinyGeometry 0 [true, false, true] (blankDisk tinyGeometry)
        (FileHeader.fresh tinyGeometry 0) 9).freeMap = [true, false, true] ∧
    (Allocate tinyGeometry 0 [true, false, true] (blankDisk tinyGeometry)
        (FileHeader.fresh tinyGeometry 0) 9).disk = blankDisk tinyGeometry :=
  allocate_short_of_sectors tinyGeometry 0 (by decide) [true, false, true]
    (blankDisk tinyGeometry) (FileHeader.fresh tinyGeometry 0) 9 (by decide) (by decide)

/-- C5 (amended): with `NumDirect >= 2` and at least `NumDirect + 3` clear sectors,
`Allocate` of `MaxDirectSize + 1` bytes on a fresh header returns TRUE with `level = 1`
and `numSectors = 2`. -/
theorem allocate_maxDirect_succ (g : Geometry) (junk junk0 : Int) (hSS : 0 < g.SectorSize)
    (hND : 2 ≤ g.NumDirect) (fm : Bitmap) (d : Disk)
    (hclear : (g.NumDirect : Int) + 3 ≤ Bitmap.NumClear fm) :
    (Allocate g junk fm d (FileHeader.fresh g junk0) (g.MaxDirectSize + 1)).ret = some true ∧
    (Allocate g junk fm d (FileHeader.fresh g junk0) (g.MaxDirectSize + 1)).hdr.level = 1 ∧
    (Allocate g junk fm d (FileHeader.fresh g junk0) (g.MaxDirectSize + 1)).hdr.numSectors = 2 :=
  have h := alloc_maxDirect_succ g junk hSS hND fm d (FileHeader.fresh g junk0)
    (fresh_length g junk0) hclear
  ⟨h.1, h.2.1, h.2.2.1⟩

/-- C5 (amended), on the small geometry: 5 bytes. -/
theorem allocate_maxDirect_succ_witness :
    (Allocate tinyGeometry 0 (clearMap 12) (blankDisk tinyGeometry)
      (FileHeader.fresh tinyGeometry 0) (tinyGeometry.MaxDirectSize + 1)).ret = some true ∧
    (Allocate tinyGeometry 0 (clearMap 12) (blankDisk tinyGeometry)
      (FileHeader.fresh tinyGeometry 0) (tinyGeometry.MaxDirectSize + 1)).hdr.level = 1 ∧
    (Allocate tinyGeometry 0 (clearMap 12) (blankDisk tinyGeometry)
      (FileHeader.fresh tinyGeometry 0) (tinyGeometry.MaxDirectSize + 1)).hdr.numSectors = 2 :=
  allocate_maxDirect_succ tinyGeometry 0 0 (by decide) (by decide) (clearMap 12)
    (blankDisk tinyGeometry) (by decide)

/-- C5 as stated fails on the NachOS geometry: on an empty disk of 1024 sectors a file of
`MaxDirectSize + 1 = 3713` bytes does not get `numSectors = 1`. -/
theorem allocate_maxDirect_succ_counterexample :
    ¬ ((Allocate nachosGeometry 0 (clearMap 1024) (blankDisk nachosGeometry)
          (FileHeader.fresh nachosGeometry 0) (nachosGeometry.MaxDirectSize + 1)).ret
          = some true ∧
        (Allocate nachosGeometry 0 (clearMap 1024) (blankDisk nachosGeometry)
          (FileHeader.fresh nachosGeometry 0) (nachosGeometry.MaxDirectSize + 1)).hdr.level
          = 1 ∧
        (Allocate nachosGeometry 0 (clearMap 1024) (blankDisk nachosGeometry)
          (FileHeader.fresh nachosGeometry 0)
          (nachosGeometry.MaxDirectSize + 1)).hdr.numSectors = 1) := by
  intro h
  have h2 := (alloc_maxDirect_succ nachosGeometry 0 (by decide) (by decide) (clearMap 1024)
    (blankDisk nachosGeometry) (FileHeader.fresh nachosGeometry 0)
    (fresh_length nachosGeometry 0)
    (by rw [numClear_clearMap]; decide)).2.2.1
  rw [h2] at h
  exact absurd h.2.2 (by decide)

/-- C6, at a file of 3 bytes on the small geometry. -/
theorem allocate_direct_witness :
    (Allocate tinyGeometry 0 [true, false, false, false] (blankDisk tinyGeometry)
      (FileHeader.fresh tinyGeometry 0) 3).ret = some true :=
  (allocate_direct tinyGeometry 0 0 (by decide) [true, false, false, false]
    (blankDisk tinyGeometry) 3 (by decide) (by decide) (by decide)).1

theorem allocIndirect_congr (g : Geometry) (junk : Int)
    (c1 c2 : Bitmap → Disk → FileHeader → Int → AllocResult) (cap : Int)
    (hc : ∀ fm d h sz, sz ≤ cap → c1 fm d h sz = c2 fm d h sz) (n : Nat) :
    ∀ (i : Nat) (rem : Int) (fm : Bitmap) (d : Disk) (h : FileHeader),
      allocIndirect g junk c1 cap n i rem fm d h = allocIndirect g junk c2 cap n i rem fm d h := by
  induction n with
  | zero => intro i rem fm d h; simp [allocIndirect]
  | succ n ih =>
    intro i rem fm d h
    have hsz : (if rem > cap then cap else rem) ≤ cap := by split <;> omega
    rw [allocIndirect, allocIndirect]
    simp only [hc _ _ _ _ hsz, ih]

/-- The recursion of `Allocate` is at most four frames deep: a larger budget changes
nothing. -/
theorem AllocateFuel_stable (g : Geometry) (junk : Int) (k : Nat) (fm : Bitmap) (d : Disk)
    (this : FileHeader) (s : Int) :
    AllocateFuel g junk (k + 4) fm d this s = AllocateFuel g junk 4 fm d this s := by
  have e0 : ∀ (a b : Nat) fm d this s, s ≤ g.MaxDirectSize →
      AllocateFuel g junk (a + 1) fm d this s = AllocateFuel g junk (b + 1) fm d this s := by
    intro a b fm d this s hs
    simp only [AllocateFuel, hs, if_true]
  have e1 : ∀ (a b : Nat) fm d this s, s ≤ g.MaxSingleIndirectSize →
      AllocateFuel g junk (a + 2) fm d this s = AllocateFuel g junk (b + 2) fm d this s := by
    intro a b fm d this s hs
    by_cases h0 : s ≤ g.MaxDirectSize
    · exact e0 (a + 1) (b + 1) fm d this s h0
    · rw [AllocateFuel_single g junk (a + 1) fm d this s h0 hs,
        AllocateFuel_single g junk (b + 1) fm d this s h0 hs,
        allocIndirect_congr g junk _ _ _ (fun fm d h sz hsz => e0 a b fm d h sz hsz)]
  have e2 : ∀ (a b : Nat) fm d this s, s ≤ g.MaxDoubleIndirectSize →
      AllocateFuel g junk (a + 3) fm d this s = AllocateFuel g junk (b + 3) fm d this s := by
    intro a b fm d this s hs
    by_cases h1 : s ≤ g.MaxSingleIndirectSize
    · exact e1 (a + 1) (b + 1) fm d this s h1
    · have h0 : ¬ s ≤ g.MaxDirectSize := by have := maxDirect_le_single g; omega
      rw [AllocateFuel_double g junk (a + 2) fm d this s h0 h1 hs,
        AllocateFuel_double g junk (b + 2) fm d this s h0 h1 hs,
        allocIndirect_congr g junk _ _ _ (fun fm d h sz hsz => e1 a b fm d h sz hsz)]
  by_cases h3 : s ≤ g.MaxTripleIndirectSize
  · by_cases h2 : s ≤ g.MaxDoubleIndirectSize
    · exact e2 (k + 1) 1 fm d this s h2
    · have h1 : ¬ s ≤ g.MaxSingleIndirectSize := by have := maxSingle_le_double g; omega
      have h0 : ¬ s ≤ g.MaxDirectSize := by have := maxDirect_le_single g; omega
      rw [AllocateFuel_triple g junk (k + 3) fm d this s h0 h1 h2 h3,
        AllocateFuel_triple g junk 3 fm d this s h0 h1 h2 h3,
        allocIndirect_congr g junk _ _ _ (fun fm d h sz hsz => e2 k 0 fm d h sz hsz)]
  · have h2 : ¬ s ≤ g.MaxDoubleIndirectSize := by have := maxDouble_le_triple g; omega
    have h1 : ¬ s ≤ g.MaxSingleIndirectSize := by have := maxSingle_le_double g; omega
    have h0 : ¬ s ≤ g.MaxDirectSize := by have := maxDirect_le_single g; omega
    rw [AllocateFuel_too_large g junk (k + 3) fm d this s h0 h1 h2 h3,
      AllocateFuel_too_large g junk 3 fm d this s h0 h1 h2 h3]

/-! ## Facts about path resolution -/

/-- C11: when `Add(name, sector, isDir)` returns TRUE, `Find(name)` right after it returns
`sector`; and `Find(name)` returns -1 whenever no in-use entry matches `name`. -/
theorem find_after_add (maxLen : Nat) (d : Directory) (name : List Char) (sector : Int)
    (isDir : Bool) :
    ((d.Add maxLen name sector isDir).1 = true →
      (d.Add maxLen name sector isDir).2.Find maxLen name = sector) ∧
    ((∀ e ∈ d.table, e.matches maxLen name = false) → d.Find maxLen name = -1) := by
  constructor
  · intro h
    obtain ⟨hfind, t, ht, hd⟩ := Add_true_inv maxLen d name sector isDir h
    rw [hd]
    obtain ⟨pre, e, post, h1, _, _, h4⟩ := addFirstFree_some maxLen name sector isDir d.table t ht
    unfold Directory.FindIndex at hfind
    rw [findIndexFrom_eq_neg_one] at hfind
    have hidx : Directory.FindIndex maxLen ⟨t⟩ name = ((0 + pre.length : Nat) : Int) := by
      unfold Directory.FindIndex
      simp only [h4]
      apply findIndexFrom_append
      · intro x hx
        exact hfind x (by rw [h1]; simp [hx])
      · simp [DirectoryEntry.matches, strncmp_strncpy_self]
    unfold Directory.Find
    simp only [hidx]
    have hne : ((0 + pre.length : Nat) : Int) ≠ -1 := by omega
    simp only [ne_eq, hne, not_false_eq_true, if_true]
    simp only [Directory.slot, Nat.zero_add, Int.toNat_ofNat, h4, getD_append_cons]
  · intro h
    have : d.FindIndex maxLen name = -1 := by
      unfold Directory.FindIndex
      rw [findIndexFrom_eq_neg_one]; exact h
    simp [Directory.Find, this]

/-- C11, at a concrete directory: `ab` added to two empty slots. -/
theorem find_after_add_witness :
    ((Directory.empty 2).Add 9 ['a', 'b'] 5 false).2.Find 9 ['a', 'b'] = 5 :=
  (find_after_add 9 (Directory.empty 2) ['a', 'b'] 5 false).1 (by decide)

theorem GetDirSectorFuel_budget (dirMaxLen maxLen : Nat) (load : DirDisk) (f1 : Nat) :
    ∀ (f2 : Nat) (this : Directory) (dirPath : List Char),
      dirPath.length ≤ f1 → dirPath.length ≤ f2 →
      GetDirSectorFuel dirMaxLen maxLen load f1 this dirPath
        = GetDirSectorFuel dirMaxLen maxLen load f2 this dirPath := by
  induction f1 with
  | zero =>
    intro f2 this dirPath h1 _
    have : dirPath = [] := List.length_eq_zero.1 (by omega)
    subst this
    cases f2 with
    | zero => rfl
    | succ f2 => simp [GetDirSectorFuel]
  | succ f1 ih =>
    intro f2 this dirPath h1 h2
    cases dirPath with
    | nil =>
      cases f2 with
      | zero => simp [GetDirSectorFuel]
      | succ f2 => simp [GetDirSectorFuel]
    | cons x tail =>
      cases f2 with
      | zero => simp at h2
      | succ f2 =>
        simp only [List.length_cons] at h1 h2
        have hrest : (tail.dropWhile (fun c => c != '/')).length ≤ tail.length :=
          (List.dropWhile_sublist _).length_le
        simp only [GetDirSectorFuel]
        split
        · rfl
        · split
          · rfl
          · split
            · split
              · rfl
              · exact ih f2 _ _ (by omega) (by omega)
            · rfl

theorem takeWhile_component (c rest : List Char) (hc : '/' ∉ c)
    (hrest : rest = [] ∨ ∃ r, rest = '/' :: r) :
    (c ++ rest).takeWhile (fun x => x != '/') = c ∧
    (c ++ rest).dropWhile (fun x => x != '/') = rest := by
  induction c with
  | nil =>
    rcases hrest with rfl | ⟨r, rfl⟩
    · simp
    · simp [List.takeWhile, List.dropWhile]
  | cons x c ih =>
    have hx : x ≠ '/' := fun e => hc (by simp [e])
    have hc2 : '/' ∉ c := fun h => hc (List.mem_cons_of_mem _ h)
    obtain ⟨i1, i2⟩ := ih hc2
    have hb : (x != '/') = true := by simp [hx]
    simp only [List.cons_append, List.takeWhile_cons, List.dropWhile_cons, hb, if_true, i1, i2,
      and_self]

theorem pathOf_shape (cs : List (List Char)) :
    pathOf cs = [] ∨ ∃ r, pathOf cs = '/' :: r := by
  cases cs with
  | nil => left; rfl
  | cons c cs => right; exact ⟨_, rfl⟩

theorem pathOf_eq_nil (cs : List (List Char)) : pathOf cs = [] ↔ cs = [] := by
  cases cs with
  | nil => simp [pathOf]
  | cons c cs => simp [pathOf]

/-- One step of `GetDirSector` on the path `/c/...`: look `c` up, and either return its
sector (last component) or continue in the directory stored there. -/
theorem GetDirSector_cons (dirMaxLen maxLen : Nat) (load : DirDisk) (this : Directory)
    (c : List Char) (cs : List (List Char)) (hc : IsComponent dirMaxLen c) :
    GetDirSector dirMaxLen maxLen load this (pathOf (c :: cs)) =
      if cs = [] then some (this.Find maxLen c)
      else match load (this.Find maxLen c) with
        | none => none
        | some sub => GetDirSector dirMaxLen maxLen load sub (pathOf cs) := by
  obtain ⟨hne, hslash, hlen⟩ := hc
  obtain ⟨t1, t2⟩ := takeWhile_component c (pathOf cs) hslash (pathOf_shape cs)
  have hnotroot : ¬ ('/' :: (c ++ pathOf cs) = ['/']) := by
    intro h
    simp only [List.cons.injEq, true_and, List.append_eq_nil] at h
    exact hne h.1
  have hlen2 : ¬ dirMaxLen < c.length := by omega
  unfold GetDirSector
  simp only [pathOf, List.length_cons, GetDirSectorFuel, hnotroot, if_false, t1, t2, hlen2,
    pathOf_eq_nil, ne_eq, ite_not]
  by_cases hcs : cs = []
  · simp [hcs]
  · simp only [hcs, if_false]
    cases hl : load (this.Find maxLen c) with
    | none => rfl
    | some sub =>
      simp only
      exact GetDirSectorFuel_budget dirMaxLen maxLen load _ _ sub _
        (by simp) (le_refl _)

/-- C12: on every directory `GetDirSector("/")` returns the root sector 1; the result
depends neither on the entries nor on what the disk holds. -/
theorem getDirSector_root (dirMaxLen maxLen : Nat) (load : DirDisk) (this : Directory) :
    GetDirSector dirMaxLen maxLen load this ['/'] = some 1 := by
  simp [GetDirSector, GetDirSectorFuel]

/-- C13: along a chain of directories `D0, ..., D(n-1)` in which each `D(i)` holds an
in-use entry for the component `c(i+1)` whose sector stores the table of `D(i+1)`,
`GetDirSector("/c1/.../cn")` on `D0` returns the sector recorded in `D(n-1)` for `cn`. -/
theorem getDirSector_chain (dirMaxLen maxLen : Nat) (load : DirDisk) (this : Directory)
    (cs : List (List Char)) (s : Int) (hchain : ResolvesTo maxLen load this cs s)
    (hcs : ∀ c ∈ cs, IsComponent dirMaxLen c) :
    GetDirSector dirMaxLen maxLen load this (pathOf cs) = some s := by
  induction hchain with
  | last dir c s _ hfind =>
    rw [GetDirSector_cons dirMaxLen maxLen load dir c [] (hcs c (by simp))]
    simp [hfind]
  | step dir c s1 sub cs s _ hfind hload hne _ ih =>
    rw [GetDirSector_cons dirMaxLen maxLen load dir c cs (hcs c (by simp))]
    simp only [hne, if_false, hfind, hload]
    exact ih (fun c2 h2 => hcs c2 (List.mem_cons_of_mem _ h2))

/-- C13, on the hierarchy `/a/b/c`: the result is the sector recorded for `c` in the table
of `b`. -/
theorem getDirSector_chain_witness :
    GetDirSector 255 9 abcDisk abcRoot (pathOf [['a'], ['b'], ['c']]) = some 7 :=
  getDirSector_chain 255 9 abcDisk abcRoot [['a'], ['b'], ['c']] 7
    (ResolvesTo.step abcRoot ['a'] 5 ((Directory.empty 4).Add 9 ['b'] 6 true).2
      [['b'], ['c']] 7 (by decide) (by decide) rfl (by decide)
      (ResolvesTo.step _ ['b'] 6 ((Directory.empty 4).Add 9 ['c'] 7 false).2
        [['c']] 7 (by decide) (by decide) rfl (by decide)
        (ResolvesTo.last _ ['c'] 7 (by decide) (by decide))))
    (by
      intro c hc
      simp only [List.mem_cons, List.mem_singleton, List.not_mem_nil, or_false] at hc
      rcases hc with rfl | rfl | rfl <;> exact ⟨by decide, by decide, by decide⟩)

/-- C14 fails on the code: with `a` absent, the path `/a` gives -1, but on the path `/a/b`
the code goes on to open the file at sector -1, the value `Find` returned, and the call
does not return a value. -/
theorem getDirSector_absent_not_last :
    GetDirSector 255 9 emptyDirDisk (Directory.empty 64) ['/', 'a'] = some (-1) ∧
    (Directory.empty 64).Find 9 ['a'] = -1 ∧
    GetDirSector 255 9 emptyDirDisk (Directory.empty 64) ['/', 'a', '/', 'b'] = none := by
  decide

/-! ## Facts about the consumer controller -/

/-- C17 fails on the code: with the thresholds of `main.cpp` (40 and 160) and one consumer,
an empty queue, below `low_threshold`, takes the consumers to 2 where the documentation of
the field says 0, and a full queue of 200 items, above `high_threshold`, takes them to 0
where the documentation says 2. -/
theorem controller_check_inverted :
    ConsumerController.check 40 160 0 1 = 2 ∧ ConsumerController.check 40 160 200 1 = 0 := by
  decide

/-! ## Facts about sector images -/

theorem ofImage_image (h : FileHeader) : FileHeader.ofImage h.image = h := by
  cases h; simp [FileHeader.ofImage, FileHeader.image]

/-- C16: `WriteBack(k)` followed by `FetchFrom(k)` on a fresh header gives back the header
written, field for field, when the header object fits in one sector (three `int` fields
and `NumDirect` entries in at most `SectorSize / sizeof(int)` values). The same holds for
the disk of header images used for `Allocate`, which leaves every other sector as it was. -/
theorem writeBack_fetchFrom (g : Geometry) (junk : Int) (raw : RawDisk) (d : Disk) (k : Int)
    (h : FileHeader) (hfit : 3 + g.NumDirect ≤ g.intsPerSector)
    (hlen : h.dataSectors.length = g.NumDirect) :
    FileHeader.FetchFromRaw (FileHeader.WriteBackRaw g raw k h) k (FileHeader.fresh g junk) = h ∧
    FetchFrom (WriteBack d k h) k = h ∧
    (∀ j, j ≠ k → FetchFrom (WriteBack d k h) j = FetchFrom d j) := by
  refine ⟨?_, by simp [FetchFrom, WriteBack], fun j hj => by simp [FetchFrom, WriteBack, hj]⟩
  have himg : h.image.length = 3 + g.NumDirect := by
    simp [FileHeader.image, hlen]; omega
  have hfresh : (FileHeader.fresh g junk).image.length = 3 + g.NumDirect := by
    simp [FileHeader.image, FileHeader.fresh]; omega
  have hsector : (FileHeader.WriteBackRaw g raw k h) k = h.image := by
    simp only [FileHeader.WriteBackRaw, WriteSector, if_true]
    exact List.take_of_length_le (by omega)
  unfold FileHeader.FetchFromRaw ReadSector
  rw [hsector, hfresh, himg, List.take_of_length_le (by omega),
    List.drop_of_length_le (by omega), List.append_nil, ofImage_image]

/-- C16, on the NachOS geometry, where the header fills the sector exactly. -/
theorem writeBack_fetchFrom_witness :
    FileHeader.FetchFromRaw
      (FileHeader.WriteBackRaw nachosGeometry (fun _ => []) 7
        { numBytes := 300, numSectors := 3, level := 0,
          dataSectors := [4, 5, 6] ++ List.replicate 26 (-1) })
      7 (FileHeader.fresh nachosGeometry 0)
      = { numBytes := 300, numSectors := 3, level := 0,
          dataSectors := [4, 5, 6] ++ List.replicate 26 (-1) } :=
  (writeBack_fetchFrom nachosGeometry 0 (fun _ => []) (blankDisk nachosGeometry) 7
    { numBytes := 300, numSectors := 3, level := 0,
      dataSectors := [4, 5, 6] ++ List.replicate 26 (-1) } (by decide) (by decide)).1

/-! ## Facts about allocations that run out of sectors -/

/-- One iteration of the indirect loop in which `FindAndSet` succeeds and the recursive
call returns FALSE: the loop returns FALSE at once, keeping what has been claimed. -/
theorem allocIndirect_step_false (g : Geometry) (junk : Int)
    (child : Bitmap → Disk → FileHeader → Int → AllocResult) (cap : Int) (n i : Nat)
    (rem : Int) (fm : Bitmap) (d : Disk) (h : FileHeader) (hi : i < h.dataSectors.length)
    (hfree : 0 < Bitmap.NumClear fm)
    (hc : (child (Bitmap.FindAndSet fm).2 d (FileHeader.fresh g junk)
      (if rem > cap then cap else rem)).ret = some false) :
    allocIndirect g junk child cap (n + 1) i rem fm d h =
      ⟨some false,
        (child (Bitmap.FindAndSet fm).2 d (FileHeader.fresh g junk)
          (if rem > cap then cap else rem)).freeMap,
        (child (Bitmap.FindAndSet fm).2 d (FileHeader.fresh g junk)
          (if rem > cap then cap else rem)).disk,
        { h with dataSectors := h.dataSectors.set i (Bitmap.FindAndSet fm).1 }⟩ := by
  rcases FindAndSet_spec fm with ⟨_, h1, _⟩ | ⟨h0, _⟩
  · rw [allocIndirect]
    simp only [hi, h1, if_true, hc]
  · omega

/-- A file of `MaxDirectSize + 1` bytes on a bitmap with `NumDirect + 2` clear sectors:
the first child takes `NumDirect + 1` of them, the second entry the last one, and the second
child then finds none left. `Allocate` returns FALSE with no clear sector left. -/
theorem alloc_maxDirect_succ_short (g : Geometry) (junk : Int) (hSS : 0 < g.SectorSize)
    (hND : 2 ≤ g.NumDirect) (fm : Bitmap) (d : Disk) (this : FileHeader)
    (hlen : this.dataSectors.length = g.NumDirect)
    (hclear : Bitmap.NumClear fm = (g.NumDirect : Int) + 2) :
    (Allocate g junk fm d this (g.MaxDirectSize + 1)).ret = some false ∧
    Bitmap.NumClear (Allocate g junk fm d this (g.MaxDirectSize + 1)).freeMap = 0 := by
  have hSS2 : (1 : Int) ≤ g.SectorSize := by exact_mod_cast hSS
  have hND2 : (2 : Int) ≤ g.NumDirect := by exact_mod_cast hND
  have hM1 : (2 : Int) ≤ g.MaxDirectSize := by
    rw [maxDirect_eq]
    have := Int.mul_le_mul hND2 hSS2 (by omega) (by omega)
    omega
  have hMS : g.MaxDirectSize + 1 ≤ g.MaxSingleIndirectSize := by
    unfold Geometry.MaxSingleIndirectSize
    have := Int.mul_le_mul_of_nonneg_right hND2 (maxDirect_nonneg g)
    omega
  have h0 : ¬ g.MaxDirectSize + 1 ≤ g.MaxDirectSize := by omega
  have hq : divRoundUp (g.MaxDirectSize + 1) g.MaxDirectSize = 2 :=
    divRoundUp_eq _ _ 2 (by omega) (by omega) (by omega) (by omega)
  have hfull : divRoundUp g.MaxDirectSize g.SectorSize = g.NumDirect := by
    apply divRoundUp_eq _ _ _ (by omega) (by omega)
    · rw [maxDirect_eq]
      have : ((g.NumDirect : Int) - 1) * g.SectorSize
          = (g.NumDirect : Int) * g.SectorSize - g.SectorSize := by ring
      omega
    · rw [maxDirect_eq]
  have hone : divRoundUp 1 g.SectorSize = 1 :=
    divRoundUp_eq _ _ 1 (by omega) (by omega) (by omega) (by omega)
  have hgt : g.MaxDirectSize + 1 > g.MaxDirectSize := by omega
  have hngt : ¬ (1 : Int) > g.MaxDirectSize := by omega
  have hn1 := numClear_FindAndSet fm (by omega)
  obtain ⟨c1, c2⟩ := numClear_direct_ok g junk 2 (Bitmap.FindAndSet fm).2 d
    (FileHeader.fresh g junk) g.MaxDirectSize hSS (fresh_length g junk) (by omega)
    (le_refl _) (by rw [hfull, hn1]; omega)
  rw [hfull, hn1, hclear] at c2
  unfold Allocate
  rw [AllocateFuel_single g junk 3 fm d this _ h0 hMS, hq,
    if_neg (by omega : ¬ Bitmap.NumClear fm < 2)]
  rw [show (2 : Int).toNat = 1 + 1 from rfl]
  rw [allocIndirect_step_ok g junk _ g.MaxDirectSize 1 0 _ fm d _ (by simp only [hlen]; omega)
    (by omega) (by simp only [hgt, if_true]; exact c1)]
  simp only [hgt, if_true]
  rw [if_neg (by omega : ¬ g.MaxDirectSize + 1 - g.MaxDirectSize ≤ 0)]
  rw [show g.MaxDirectSize + 1 - g.MaxDirectSize = 1 by ring]
  have hn2 := numClear_FindAndSet
    (AllocateFuel g junk 3 (Bitmap.FindAndSet fm).2 d (FileHeader.fresh g junk)
      g.MaxDirectSize).freeMap (by rw [c2]; omega)
  rw [c2] at hn2
  have hshort := AllocateFuel_direct_short g junk 2
    (Bitmap.FindAndSet (AllocateFuel g junk 3 (Bitmap.FindAndSet fm).2 d
      (FileHeader.fresh g junk) g.MaxDirectSize).freeMap).2
    (WriteBack (AllocateFuel g junk 3 (Bitmap.FindAndSet fm).2 d (FileHeader.fresh g junk)
      g.MaxDirectSize).disk (Bitmap.FindAndSet fm).1
      (AllocateFuel g junk 3 (Bitmap.FindAndSet fm).2 d (FileHeader.fresh g junk)
        g.MaxDirectSize).hdr)
    (FileHeader.fresh g junk) 1 (by omega) (by rw [hone, hn2]; omega)
  rw [allocIndirect_step_false g junk _ g.MaxDirectSize 0 1 1 _ _ _
    (by simp only [List.length_set, hlen]; omega) (by rw [c2]; omega)
    (by simp only [hngt, if_false]; rw [hshort])]
  simp only [hngt, if_false, hshort, true_and]
  rw [hn2]; ring

/-- C20: `Allocate` performs no rollback. With `NumDirect >= 2` there are a bitmap and a
size `s <= MaxTripleIndirectSize` for which `Allocate` returns FALSE, a nested `Allocate`
having failed, while the bitmap afterwards has strictly fewer clear sectors than before. -/
theorem allocate_no_rollback (g : Geometry) (junk junk0 : Int) (d : Disk)
    (hSS : 0 < g.SectorSize) (hND : 2 ≤ g.NumDirect) :
    ∃ (fm : Bitmap) (s : Int), 0 ≤ s ∧ s ≤ g.MaxTripleIndirectSize ∧
      Bitmap.NumClear fm ≥ divRoundUp s (g.childCapacity (requiredLevel g s)) ∧
      (Allocate g junk fm d (FileHeader.fresh g junk0) s).ret = some false ∧
      Bitmap.NumClear (Allocate g junk fm d (FileHeader.fresh g junk0) s).freeMap
        < Bitmap.NumClear fm := by
  have hND2 : (2 : Int) ≤ g.NumDirect := by exact_mod_cast hND
  have hSS2 : (1 : Int) ≤ g.SectorSize := by exact_mod_cast hSS
  have hM1 : (2 : Int) ≤ g.MaxDirectSize := by
    rw [maxDirect_eq]
    have := Int.mul_le_mul hND2 hSS2 (by omega) (by omega)
    omega
  have hMS : g.MaxDirectSize + 1 ≤ g.MaxSingleIndirectSize := by
    unfold Geometry.MaxSingleIndirectSize
    have := Int.mul_le_mul_of_nonneg_right hND2 (maxDirect_nonneg g)
    omega
  have hclear : Bitmap.NumClear (clearMap (g.NumDirect + 2)) = (g.NumDirect : Int) + 2 := by
    rw [numClear_clearMap]; push_cast; ring
  obtain ⟨r1, r2⟩ := alloc_maxDirect_succ_short g junk hSS hND (clearMap (g.NumDirect + 2)) d
    (FileHeader.fresh g junk0) (fresh_length g junk0) hclear
  have hlvl : requiredLevel g (g.MaxDirectSize + 1) = 1 := by
    simp [requiredLevel, Geometry.maxSizeAt, hMS]
  have hq : divRoundUp (g.MaxDirectSize + 1) g.MaxDirectSize = 2 :=
    divRoundUp_eq _ _ 2 (by omega) (by omega) (by omega) (by omega)
  refine ⟨clearMap (g.NumDirect + 2), g.MaxDirectSize + 1, by omega, ?_, ?_, r1, ?_⟩
  · have := maxSingle_le_double g; have := maxDouble_le_triple g; omega
  · rw [hlvl, hclear]; simp only [Geometry.childCapacity, hq]; omega
  · rw [r2, hclear]; omega

/-- C20, on the small geometry. -/
theorem allocate_no_rollback_witness :
    ∃ (fm : Bitmap) (s : Int), 0 ≤ s ∧ s ≤ tinyGeometry.MaxTripleIndirectSize ∧
      Bitmap.NumClear fm
        ≥ divRoundUp s (tinyGeometry.childCapacity (requiredLevel tinyGeometry s)) ∧
      (Allocate tinyGeometry 0 fm (blankDisk tinyGeometry)
        (FileHeader.fresh tinyGeometry 0) s).ret = some false ∧
      Bitmap.NumClear (Allocate tinyGeometry 0 fm (blankDisk tinyGeometry)
        (FileHeader.fresh tinyGeometry 0) s).freeMap < Bitmap.NumClear fm :=
  allocate_no_rollback tinyGeometry 0 0 (blankDisk tinyGeometry) (by decide) (by decide)

theorem Test_neg_one (b : Bitmap) : Bitmap.Test b (-1) = false := by
  simp [Bitmap.Test]

theorem deallocDirect_unset (h : FileHeader) (m i : Nat) (fm : Bitmap)
    (hds : h.dataSectors[i]? = some (-1)) : deallocDirect h (m + 1) i fm = none := by
  simp [deallocDirect, hds, Test_neg_one]

theorem deallocIndirect_unset (child : Bitmap → FileHeader → Option Bitmap) (d : Disk)
    (h : FileHeader) (m i : Nat) (fm : Bitmap) (hds : h.dataSectors[i]? = some (-1)) :
    deallocIndirect child d h (m + 1) i fm = none := by
  rw [deallocIndirect]
  simp only [hds]
  cases child fm (FetchFrom d (-1)) with
  | none => rfl
  | some fm1 => simp [Test_neg_one]

theorem divRoundUp_zero (c : Int) : divRoundUp 0 c = 0 := by
  simp [divRoundUp]

/-- `Deallocate` on a header whose first entry is still -1 and whose `numSectors` is
positive stops at an `ASSERT`. -/
theorem DeallocateFuel_unset (f : Nat) (fm : Bitmap) (d : Disk) (h : FileHeader)
    (hn : 1 ≤ h.numSectors) (hds : h.dataSectors[0]? = some (-1)) :
    DeallocateFuel (f + 1) fm d h = none := by
  obtain ⟨m, hm⟩ : ∃ m, h.numSectors.toNat = m + 1 := ⟨h.numSectors.toNat - 1, by omega⟩
  simp only [DeallocateFuel, hm]
  split
  · exact deallocDirect_unset h m 0 fm hds
  · exact deallocIndirect_unset _ d h m 0 fm hds

/-! ## Facts about the tree of records -/

theorem kids_step (g : Geometry) (fD fB : Nat) (Q : Int → Disk → FileHeader → Prop)
    (cap : Int) (n i : Nat) (rem sz : Int)
    (fm : Bitmap) (d : Disk) (h : FileHeader) (s0 : Int) (fm0 fmc : Bitmap) (dc : Disk)
    (hc : FileHeader) (lc : List Int) (fm1 : Bitmap) (d1 : Disk) (h1 : FileHeader)
    (lr : List Int)
    (hi : i < h.dataSectors.length)
    (hsz : sz = if rem > cap then cap else rem) (hfull : n = 0 ∨ sz = cap)
    (hs0 : Bitmap.Test fm s0 = false)
    (hfm0 : ∀ j, Bitmap.Test fm0 j = (Bitmap.Test fm j || decide (j = s0)))
    (pc : AllocPost g fD fB fm0 d sz fmc dc hc lc)
    (qc : ∀ d2, AgreeOnClaimed fm0 fmc dc d2 → Q sz d2 hc)
    (pr : LoopPost g fD fB cap n (i + 1) (rem - sz) fmc (WriteBack dc s0 hc)
      { h with dataSectors := h.dataSectors.set i s0 } fm1 d1 h1 lr)
    (kr : KidsPost Q cap n (i + 1) (rem - sz) fmc fm1 d1 h1) :
    KidsPost Q cap (n + 1) i rem fm fm1 d1 h1 := by
  have hs0set : Bitmap.Test fm0 s0 = true := by rw [hfm0]; simp
  have hs0c : Bitmap.Test fmc s0 = true := by rw [pc.nowSet, hs0set]; rfl
  have hmono : ∀ k, Bitmap.Test fmc k = true → Bitmap.Test fm1 k = true := by
    intro k hk; rw [pr.nowSet, hk]; rfl
  have hback : ∀ k, Bitmap.Test fmc k = false → Bitmap.Test fm k = false := by
    intro k hk
    rw [pc.nowSet, hfm0] at hk
    simp only [Bool.or_eq_false_iff] at hk
    exact hk.1.1
  have hs0lr : s0 ∉ lr := by
    intro hmem
    have := pr.wasClear s0 hmem
    rw [hs0c] at this; simp at this
  have hd1s0 : d1 s0 = hc := by
    rw [pr.frame s0 hs0lr]; simp [WriteBack]
  intro j hj
  cases j with
  | zero =>
    refine ⟨s0, ?_, hs0, hmono s0 hs0c, ?_⟩
    · rw [Nat.add_zero, pr.hdrKeep i (by omega)]
      simp [List.getElem?_set, hi]
    · intro d2 hd2
      have hsize : min (rem - ((0 : Nat) : Int) * cap) cap = sz := by
        rw [hsz]; simp only [Nat.cast_zero, Int.zero_mul, Int.sub_zero]
        split <;> omega
      rw [hsize, hd2 s0 hs0 (hmono s0 hs0c), hd1s0]
      apply qc
      intro k hk0 hkc
      have hk : Bitmap.Test fm k = false ∧ k ≠ s0 := by
        rw [hfm0] at hk0
        simp only [Bool.or_eq_false_iff, decide_eq_false_iff_not] at hk0
        exact hk0
      have hklr : k ∉ lr := by
        intro hmem
        have := pr.wasClear k hmem
        rw [hkc] at this; simp at this
      rw [hd2 k hk.1 (hmono k hkc), pr.frame k hklr]
      simp [WriteBack, hk.2]
  | succ j =>
    have hn : n ≠ 0 := by omega
    have hszcap : sz = cap := by rcases hfull with h | h; exact absurd h hn; exact h
    obtain ⟨sec, e1, e2, e3, e4⟩ := kr j (by omega)
    refine ⟨sec, ?_, hback sec e2, e3, ?_⟩
    · rw [← e1]; congr 1; omega
    · intro d2 hd2
      have hsize : min (rem - ((j + 1 : Nat) : Int) * cap) cap
          = min (rem - sz - (j : Int) * cap) cap := by
        rw [hszcap]; push_cast; congr 1; ring
      rw [hsize]
      apply e4
      intro k hk0 hk1
      exact hd2 k (hback k hk0) hk1

theorem allocIndirect_kids (g : Geometry) (junk : Int)
    (child : Bitmap → Disk → FileHeader → Int → AllocResult) (cap : Int) (fD fB : Nat)
    (Q : Int → Disk → FileHeader → Prop) (hcap : 0 < cap)
    (hchild : ∀ fm d sz, 0 ≤ sz → sz ≤ cap →
      (child fm d (FileHeader.fresh g junk) sz).ret = some true →
      ∃ l, AllocPost g fD fB fm d sz (child fm d (FileHeader.fresh g junk) sz).freeMap
        (child fm d (FileHeader.fresh g junk) sz).disk
        (child fm d (FileHeader.fresh g junk) sz).hdr l)
    (hQ : ∀ fm d sz, 0 ≤ sz → sz ≤ cap →
      (child fm d (FileHeader.fresh g junk) sz).ret = some true →
      ∀ d2, AgreeOnClaimed fm (child fm d (FileHeader.fresh g junk) sz).freeMap
          (child fm d (FileHeader.fresh g junk) sz).disk d2 →
        Q sz d2 (child fm d (FileHeader.fresh g junk) sz).hdr)
    (n : Nat) :
    ∀ (i : Nat) (rem : Int) (fm : Bitmap) (d : Disk) (h : FileHeader),
      0 < rem → ((n : Int) - 1) * cap < rem → rem ≤ (n : Int) * cap →
      i + n ≤ h.dataSectors.length →
      (allocIndirect g junk child cap n i rem fm d h).ret = some true →
      KidsPost Q cap n i rem fm
        (allocIndirect g junk child cap n i rem fm d h).freeMap
        (allocIndirect g junk child cap n i rem fm d h).disk
        (allocIndirect g junk child cap n i rem fm d h).hdr := by
  induction n with
  | zero =>
    intro i rem fm d h _ _ _ _ _ j hj
    omega
  | succ n ih =>
    intro i rem fm d h hrem0 hlo hhi hlen hret
    have hi : i < h.dataSectors.length := by omega
    have hlo1 : (n : Int) * cap < rem := by
      have : ((↑(n + 1) : Int) - 1) * cap = (n : Int) * cap := by push_cast; ring
      rw [this] at hlo; exact hlo
    have hhi1 : rem ≤ (n : Int) * cap + cap := by
      have : (↑(n + 1) : Int) * cap = (n : Int) * cap + cap := by push_cast; ring
      rw [this] at hhi; exact hhi
    clear hlo hhi
    rcases FindAndSet_spec fm with ⟨_, h1, h2, h3, h4, _⟩ | ⟨_, hfail⟩
    · have hsz0 : 0 ≤ (if rem > cap then cap else rem) := by split <;> omega
      have hszc : (if rem > cap then cap else rem) ≤ cap := by split <;> omega
      rw [allocIndirect] at hret ⊢
      simp only [hi, h1, if_true] at hret ⊢
      cases hc : (child (Bitmap.FindAndSet fm).2 d (FileHeader.fresh g junk)
          (if rem > cap then cap else rem)).ret with
      | none => simp [hc] at hret
      | some b =>
        cases b with
        | false => simp [hc] at hret
        | true =>
          obtain ⟨lc, pc⟩ := hchild _ d _ hsz0 hszc hc
          have qc := hQ _ d _ hsz0 hszc hc
          simp only [hc] at hret ⊢
          by_cases hbrk : rem - (if rem > cap then cap else rem) ≤ 0
          · simp only [hbrk, if_true] at hret ⊢
            have hn : n = 0 := by
              by_contra hne
              have hn1 : (1 : Int) ≤ n := by omega
              have := Int.mul_le_mul_of_nonneg_right hn1 (le_of_lt hcap)
              rw [Int.one_mul] at this
              split at hbrk <;> omega
            subst hn
            exact kids_step g fD fB Q cap 0 i rem _ fm d h _ _ _ _ _ lc _ _ _ []
              hi rfl (Or.inl rfl) h2 h3 pc qc
              (loopPost_nil g fD fB cap (i + 1) _ _ _ _ hbrk)
              (fun j hj => by omega)
          · simp only [hbrk, if_false] at hret ⊢
            have hgt : rem > cap := by
              by_contra hle
              simp only [hle, if_false] at hbrk; omega
            simp only [hgt, if_true] at hret pc qc hbrk ⊢
            have a1 : 0 < rem - cap := by omega
            have a2 : ((n : Int) - 1) * cap < rem - cap := by
              have : ((n : Int) - 1) * cap = (n : Int) * cap - cap := by ring
              omega
            have a3 : rem - cap ≤ (n : Int) * cap := by omega
            obtain ⟨lr, pr⟩ := allocIndirect_post g junk child cap fD fB hcap hchild n (i + 1)
              (rem - cap) _ _ _ a1 a2 a3 (by simp; omega) hret
            have kr := ih (i + 1) (rem - cap) _ _ _ a1 a2 a3 (by simp; omega) hret
            exact kids_step g fD fB Q cap n i rem cap fm d h _ _ _ _ _ lc _ _ _ lr
              hi (by simp [hgt]) (Or.inr rfl) h2 h3 pc qc pr kr
    · rw [allocIndirect] at hret
      simp [hi, hfail] at hret

/-- The header fields `Allocate` has assigned when it stops, for every recursion budget. -/
theorem AllocateFuel_hdr (g : Geometry) (junk : Int) (a : Nat) (fm : Bitmap) (d : Disk)
    (this : FileHeader) (s : Int) (hs : s ≤ g.MaxTripleIndirectSize) :
    (AllocateFuel g junk (a + 1) fm d this s).hdr.numBytes = s ∧
    (AllocateFuel g junk (a + 1) fm d this s).hdr.level = (requiredLevel g s : Int) ∧
    (AllocateFuel g junk (a + 1) fm d this s).hdr.numSectors
      = divRoundUp s (g.childCapacity (requiredLevel g s)) := by
  by_cases h0 : s ≤ g.MaxDirectSize
  · have hl : requiredLevel g s = 0 := by simp [requiredLevel, Geometry.maxSizeAt, h0]
    rw [hl]
    by_cases hc : Bitmap.NumClear fm < divRoundUp s g.SectorSize
    · rw [AllocateFuel_direct_short g junk a fm d this s h0 hc]
      exact ⟨rfl, rfl, rfl⟩
    · simp only [AllocateFuel, h0, if_true, hc, if_false]
      exact ⟨(allocDirect_hdr _ _ _ _).2.1, (allocDirect_hdr _ _ _ _).1,
        (allocDirect_hdr _ _ _ _).2.2⟩
  · by_cases h1 : s ≤ g.MaxSingleIndirectSize
    · have hl : requiredLevel g s = 1 := by simp [requiredLevel, Geometry.maxSizeAt, h0, h1]
      rw [hl, AllocateFuel_single g junk a fm d this s h0 h1]
      split
      · exact ⟨rfl, rfl, rfl⟩
      · exact ⟨(allocIndirect_hdr _ _ _ _ _ _ _ _ _ _).2.1,
          (allocIndirect_hdr _ _ _ _ _ _ _ _ _ _).1, (allocIndirect_hdr _ _ _ _ _ _ _ _ _ _).2.2⟩
    · by_cases h2 : s ≤ g.MaxDoubleIndirectSize
      · have hl : requiredLevel g s = 2 := by
          simp [requiredLevel, Geometry.maxSizeAt, h0, h1, h2]
        rw [hl, AllocateFuel_double g junk a fm d this s h0 h1 h2]
        split
        · exact ⟨rfl, rfl, rfl⟩
        · exact ⟨(allocIndirect_hdr _ _ _ _ _ _ _ _ _ _).2.1,
            (allocIndirect_hdr _ _ _ _ _ _ _ _ _ _).1,
            (allocIndirect_hdr _ _ _ _ _ _ _ _ _ _).2.2⟩
      · have hl : requiredLevel g s = 3 := by
          simp [requiredLevel, Geometry.maxSizeAt, h0, h1, h2]
        rw [hl, AllocateFuel_triple g junk a fm d this s h0 h1 h2 hs]
        split
        · exact ⟨rfl, rfl, rfl⟩
        · exact ⟨(allocIndirect_hdr _ _ _ _ _ _ _ _ _ _).2.1,
            (allocIndirect_hdr _ _ _ _ _ _ _ _ _ _).1,
            (allocIndirect_hdr _ _ _ _ _ _ _ _ _ _).2.2⟩

theorem maxDirect_le_triple (g : Geometry) : g.MaxDirectSize ≤ g.MaxTripleIndirectSize := by
  have := maxDirect_le_single g; have := maxSingle_le_double g
  have := maxDouble_le_triple g; omega

/-- The tree left by the direct branch. -/
theorem tree_direct (g : Geometry) (junk : Int) (hSS : 0 < g.SectorSize) (a f : Nat)
    (fm : Bitmap) (d : Disk) (this : FileHeader) (s : Int)
    (hlen : this.dataSectors.length = g.NumDirect) (hs0 : 0 ≤ s) (hs : s ≤ g.MaxDirectSize)
    (hret : (AllocateFuel g junk (a + 1) fm d this s).ret = some true) (d2 : Disk) :
    TreeOk g (f + 1) d2 (AllocateFuel g junk (a + 1) fm d this s).hdr := by
  have hsT : s ≤ g.MaxTripleIndirectSize := by have := maxDirect_le_triple g; omega
  obtain ⟨a1, a2, a3⟩ := AllocateFuel_hdr g junk a fm d this s hsT
  have hl : requiredLevel g s = 0 := by simp [requiredLevel, Geometry.maxSizeAt, hs]
  have hclear : divRoundUp s g.SectorSize ≤ Bitmap.NumClear fm := by
    by_contra hc
    rw [AllocateFuel_direct_short g junk a fm d this s hs (by omega)] at hret
    simp at hret
  have hSS2 : (0 : Int) < g.SectorSize := by exact_mod_cast hSS
  obtain ⟨q0, _, _⟩ := divRoundUp_spec s g.SectorSize hs0 hSS2
  obtain ⟨f1, _, f3, _⟩ := findAndSetN_spec (divRoundUp s g.SectorSize).toNat fm
    (by rw [Int.toNat_of_nonneg q0]; exact hclear)
  refine ⟨by rw [a1]; exact hs0, by rw [a1]; exact hsT, by rw [a1]; exact a2,
    by rw [a1]; exact a3, ?_⟩
  intro i hi
  rw [a3, hl] at hi
  simp only [Geometry.childCapacity] at hi
  have hlt : i < (findAndSetN (divRoundUp s g.SectorSize).toNat fm).1.length := by
    rw [f1]; omega
  refine ⟨(findAndSetN (divRoundUp s g.SectorSize).toNat fm).1[i], ?_,
    (f3 _ (List.getElem_mem hlt)).1, ?_⟩
  · rw [AllocateFuel_direct_ok g junk a fm d this s hSS hlen hs0 hs hclear]
    simp only
    rw [List.getElem?_append_left hlt, List.getElem?_eq_getElem hlt]
  · intro hne
    rw [a2, hl] at hne
    exact absurd rfl hne

/-- The tree left by one indirect branch, given the trees the recursive calls leave. -/
theorem tree_branch (g : Geometry) (junk : Int)
    (child : Bitmap → Disk → FileHeader → Int → AllocResult) (cap lvl : Int) (fD fB f : Nat)
    (lv : Nat) (hlv : lvl = (lv : Int))
    (hchild : ∀ fm d sz, 0 ≤ sz → sz ≤ cap →
      (child fm d (FileHeader.fresh g junk) sz).ret = some true →
      ∃ l, AllocPost g fD fB fm d sz (child fm d (FileHeader.fresh g junk) sz).freeMap
        (child fm d (FileHeader.fresh g junk) sz).disk
        (child fm d (FileHeader.fresh g junk) sz).hdr l)
    (hQ : ∀ fm d sz, 0 ≤ sz → sz ≤ cap →
      (child fm d (FileHeader.fresh g junk) sz).ret = some true →
      ∀ d2, AgreeOnClaimed fm (child fm d (FileHeader.fresh g junk) sz).freeMap
          (child fm d (FileHeader.fresh g junk) sz).disk d2 →
        (child fm d (FileHeader.fresh g junk) sz).hdr.numBytes = sz ∧
        TreeOk g f d2 (child fm d (FileHeader.fresh g junk) sz).hdr)
    (fm : Bitmap) (d : Disk) (this : FileHeader) (s : Int)
    (hlen : this.dataSectors.length = g.NumDirect) (hcap0 : 0 ≤ cap)
    (hlo : cap < s) (hhi : s ≤ (g.NumDirect : Int) * cap)
    (hsT : s ≤ g.MaxTripleIndirectSize) (hreq : requiredLevel g s = lv)
    (hcapL : g.childCapacity lv = cap)
    (hret : (allocIndirect g junk child cap (divRoundUp s cap).toNat 0 s fm d
      { this with numBytes := s, level := lvl, numSectors := divRoundUp s cap }).ret
        = some true)
    (d2 : Disk)
    (hd2 : AgreeOnClaimed fm
      (allocIndirect g junk child cap (divRoundUp s cap).toNat 0 s fm d
        { this with numBytes := s, level := lvl, numSectors := divRoundUp s cap }).freeMap
      (allocIndirect g junk child cap (divRoundUp s cap).toNat 0 s fm d
        { this with numBytes := s, level := lvl, numSectors := divRoundUp s cap }).disk d2) :
    TreeOk g (f + 1) d2
      (allocIndirect g junk child cap (divRoundUp s cap).toNat 0 s fm d
        { this with numBytes := s, level := lvl, numSectors := divRoundUp s cap }).hdr := by
  have hcap : 0 < cap := by
    rcases lt_or_eq_of_le hcap0 with h | h
    · exact h
    · rw [← h] at hhi hlo; simp at hhi; omega
  have hs0 : 0 ≤ s := by omega
  obtain ⟨q0, q1, q2⟩ := divRoundUp_spec s cap hs0 hcap
  have q3 := divRoundUp_le s cap g.NumDirect hs0 hcap hhi
  have hcast : (((divRoundUp s cap).toNat : Nat) : Int) = divRoundUp s cap :=
    Int.toNat_of_nonneg q0
  have kids := allocIndirect_kids g junk child cap fD fB
    (fun sz d2 hdr => hdr.numBytes = sz ∧ TreeOk g f d2 hdr) hcap hchild
    (fun fm d sz h1 h2 h3 d2 h4 => by
      have := hQ fm d sz h1 h2 h3 d2 h4
      exact this)
    (divRoundUp s cap).toNat 0 s fm d
    { this with numBytes := s, level := lvl, numSectors := divRoundUp s cap }
    (by omega) (by rw [hcast]; exact q1) (by rw [hcast]; exact q2)
    (by simp only [hlen]; omega) hret
  obtain ⟨b1, b2, b3⟩ := allocIndirect_hdr g junk child cap (divRoundUp s cap).toNat 0 s fm d
    { this with numBytes := s, level := lvl, numSectors := divRoundUp s cap }
  simp only at b1 b2 b3
  refine ⟨by rw [b2]; exact hs0, by rw [b2]; exact hsT, by rw [b1, b2, hreq, hlv],
    by rw [b3, b2, hreq, hcapL], ?_⟩
  intro i hi
  rw [b3] at hi
  obtain ⟨sec, e1, _, e3, e4⟩ := kids i (by omega)
  rw [Nat.zero_add] at e1
  refine ⟨sec, e1, (Test_lt_length _ sec e3).1, fun _ => ?_⟩
  have := e4 d2 hd2
  rw [b2, hreq, hcapL]
  exact this

theorem tree_single (g : Geometry) (junk : Int) (hSS : 0 < g.SectorSize) (a f : Nat)
    (fm : Bitmap) (d : Disk) (this : FileHeader) (s : Int)
    (hlen : this.dataSectors.length = g.NumDirect) (hs0 : 0 ≤ s)
    (hs : s ≤ g.MaxSingleIndirectSize)
    (hret : (AllocateFuel g junk (a + 2) fm d this s).ret = some true) (d2 : Disk)
    (hd2 : AgreeOnClaimed fm (AllocateFuel g junk (a + 2) fm d this s).freeMap
      (AllocateFuel g junk (a + 2) fm d this s).disk d2) :
    TreeOk g (f + 2) d2 (AllocateFuel g junk (a + 2) fm d this s).hdr := by
  by_cases h0 : s ≤ g.MaxDirectSize
  · exact tree_direct g junk hSS (a + 1) (f + 1) fm d this s hlen hs0 h0 hret d2
  · have hsT : s ≤ g.MaxTripleIndirectSize := by
      have := maxSingle_le_double g; have := maxDouble_le_triple g; omega
    have hreq : requiredLevel g s = 1 := by simp [requiredLevel, Geometry.maxSizeAt, h0, hs]
    rw [AllocateFuel_single g junk (a + 1) fm d this s h0 hs] at hret hd2 ⊢
    by_cases hc : Bitmap.NumClear fm < divRoundUp s g.MaxDirectSize
    · simp [hc] at hret
    · simp only [hc, if_false] at hret hd2 ⊢
      exact tree_branch g junk _ g.MaxDirectSize 1 1 1 (f + 1) 1 rfl
        (fun fm d sz h1 h2 h3 => alloc_direct_post g junk a 0 0 fm d _ sz hSS
          (fresh_length g junk) h1 h2 h3)
        (fun fm d sz h1 h2 h3 d2 _ =>
          ⟨(AllocateFuel_hdr g junk a fm d _ sz
              (by have := maxDirect_le_triple g; omega)).1,
            tree_direct g junk hSS a f fm d _ sz (fresh_length g junk) h1 h2 h3 d2⟩)
        fm d this s hlen (maxDirect_nonneg g) (by omega) hs hsT hreq rfl hret d2 hd2

theorem tree_double (g : Geometry) (junk : Int) (hSS : 0 < g.SectorSize) (a f : Nat)
    (fm : Bitmap) (d : Disk) (this : FileHeader) (s : Int)
    (hlen : this.dataSectors.length = g.NumDirect) (hs0 : 0 ≤ s)
    (hs : s ≤ g.MaxDoubleIndirectSize)
    (hret : (AllocateFuel g junk (a + 3) fm d this s).ret = some true) (d2 : Disk)
    (hd2 : AgreeOnClaimed fm (AllocateFuel g junk (a + 3) fm d this s).freeMap
      (AllocateFuel g junk (a + 3) fm d this s).disk d2) :
    TreeOk g (f + 3) d2 (AllocateFuel g junk (a + 3) fm d this s).hdr := by
  by_cases h1 : s ≤ g.MaxSingleIndirectSize
  · exact tree_single g junk hSS (a + 1) (f + 1) fm d this s hlen hs0 h1 hret d2 hd2
  · have h0 : ¬ s ≤ g.MaxDirectSize := by have := maxDirect_le_single g; omega
    have hsT : s ≤ g.MaxTripleIndirectSize := by have := maxDouble_le_triple g; omega
    have hreq : requiredLevel g s = 2 := by
      simp [requiredLevel, Geometry.maxSizeAt, h0, h1, hs]
    rw [AllocateFuel_double g junk (a + 2) fm d this s h0 h1 hs] at hret hd2 ⊢
    by_cases hc : Bitmap.NumClear fm < divRoundUp s g.MaxSingleIndirectSize
    · simp [hc] at hret
    · simp only [hc, if_false] at hret hd2 ⊢
      exact tree_branch g junk _ g.MaxSingleIndirectSize 2 2 2 (f + 2) 2 rfl
        (fun fm d sz h1 h2 h3 => alloc_post_single g junk hSS a 0 0 fm d _ sz
          (fresh_length g junk) h1 h2 h3)
        (fun fm d sz h1 h2 h3 d2 h4 =>
          ⟨(AllocateFuel_hdr g junk (a + 1) fm d _ sz
              (by have := maxSingle_le_double g; have := maxDouble_le_triple g; omega)).1,
            tree_single g junk hSS a f fm d _ sz (fresh_length g junk) h1 h2 h3 d2 h4⟩)
        fm d this s hlen (maxSingle_nonneg g) (by omega) hs hsT hreq rfl hret d2 hd2

theorem tree_triple (g : Geometry) (junk : Int) (hSS : 0 < g.SectorSize) (a f : Nat)
    (fm : Bitmap) (d : Disk) (this : FileHeader) (s : Int)
    (hlen : this.dataSectors.length = g.NumDirect) (hs0 : 0 ≤ s)
    (hs : s ≤ g.MaxTripleIndirectSize)
    (hret : (AllocateFuel g junk (a + 4) fm d this s).ret = some true) (d2 : Disk)
    (hd2 : AgreeOnClaimed fm (AllocateFuel g junk (a + 4) fm d this s).freeMap
      (AllocateFuel g junk (a + 4) fm d this s).disk d2) :
    TreeOk g (f + 4) d2 (AllocateFuel g junk (a + 4) fm d this s).hdr := by
  by_cases h2 : s ≤ g.MaxDoubleIndirectSize
  · exact tree_double g junk hSS (a + 1) (f + 1) fm d this s hlen hs0 h2 hret d2 hd2
  · have h1 : ¬ s ≤ g.MaxSingleIndirectSize := by have := maxSingle_le_double g; omega
    have h0 : ¬ s ≤ g.MaxDirectSize := by have := maxDirect_le_single g; omega
    have hreq : requiredLevel g s = 3 := by
      simp [requiredLevel, Geometry.maxSizeAt, h0, h1, h2]
    rw [AllocateFuel_triple g junk (a + 3) fm d this s h0 h1 h2 hs] at hret hd2 ⊢
    by_cases hc : Bitmap.NumClear fm < divRoundUp s g.MaxDoubleIndirectSize
    · simp [hc] at hret
    · simp only [hc, if_false] at hret hd2 ⊢
      exact tree_branch g junk _ g.MaxDoubleIndirectSize 3 3 3 (f + 3) 3 rfl
        (fun fm d sz h1 h2 h3 => alloc_post_double g junk hSS a 0 0 fm d _ sz
          (fresh_length g junk) h1 h2 h3)
        (fun fm d sz h1 h2 h3 d2 h4 =>
          ⟨(AllocateFuel_hdr g junk (a + 2) fm d _ sz
              (by have := maxDouble_le_triple g; omega)).1,
            tree_double g junk hSS a f fm d _ sz (fresh_length g junk) h1 h2 h3 d2 h4⟩)
        fm d this s hlen (maxDouble_nonneg g) (by omega) hs hs hreq rfl hret d2 hd2

/-- The tree of records left by a successful `Allocate` on a fresh header. -/
theorem allocate_tree (g : Geometry) (junk junk0 : Int) (hSS : 0 < g.SectorSize)
    (fm : Bitmap) (d : Disk) (s : Int) (hs0 : 0 ≤ s) (hs : s ≤ g.MaxTripleIndirectSize)
    (hret : (Allocate g junk fm d (FileHeader.fresh g junk0) s).ret = some true) :
    TreeOk g 4 (Allocate g junk fm d (FileHeader.fresh g junk0) s).disk
      (Allocate g junk fm d (FileHeader.fresh g junk0) s).hdr :=
  tree_triple g junk hSS 0 0 fm d (FileHeader.fresh g junk0) s (fresh_length g junk0) hs0 hs
    hret _ (fun _ _ _ => rfl)

theorem sum_full_children (cap s : Int) (m : Nat) (h : (m : Int) * cap ≤ s) (hcap : 0 ≤ cap) :
    ((List.range m).map (fun i : Nat => min (s - (i : Int) * cap) cap)).sum
      = (m : Int) * cap := by
  induction m with
  | zero => simp
  | succ m ih =>
    have h1 : ((m : Int) + 1) * cap = (m : Int) * cap + cap := by ring
    push_cast at h
    rw [h1] at h
    rw [List.range_succ, List.map_append, List.sum_append, ih (by omega)]
    simp only [List.map_cons, List.map_nil, List.sum_cons, List.sum_nil, Int.add_zero]
    rw [min_eq_right (by omega)]
    push_cast; ring

theorem sum_children (cap s : Int) (n : Nat) (hcap : 0 ≤ cap) (hn : 0 < n)
    (h1 : ((n : Int) - 1) * cap < s) (h2 : s ≤ (n : Int) * cap) :
    ((List.range n).map (fun i : Nat => min (s - (i : Int) * cap) cap)).sum = s := by
  obtain ⟨m, rfl⟩ : ∃ m, n = m + 1 := ⟨n - 1, by omega⟩
  have e1 : ((↑(m + 1) : Int) - 1) * cap = (m : Int) * cap := by push_cast; ring
  have e2 : (↑(m + 1) : Int) * cap = (m : Int) * cap + cap := by push_cast; ring
  rw [e1] at h1
  rw [e2] at h2
  rw [List.range_succ, List.map_append, List.sum_append, sum_full_children cap s m (by omega) hcap]
  simp only [List.map_cons, List.map_nil, List.sum_cons, List.sum_nil, Int.add_zero]
  rw [min_eq_left (by omega)]
  ring

theorem requiredLevel_pos (g : Geometry) (s : Int) (h : g.MaxDirectSize < s) :
    requiredLevel g s ≠ 0 := by
  have h0 : ¬ s ≤ g.maxSizeAt 0 := by simp only [Geometry.maxSizeAt]; omega
  unfold requiredLevel
  simp only [h0, if_false]
  split
  · omega
  · split <;> omega

theorem childCapacity_eq_maxSizeAt (g : Geometry) (lv : Nat) (h0 : lv ≠ 0) (h3 : lv ≤ 3) :
    g.childCapacity lv = g.maxSizeAt (lv - 1) := by
  have : lv = 1 ∨ lv = 2 ∨ lv = 3 := by omega
  rcases this with rfl | rfl | rfl <;> rfl

theorem maxSizeAt_nonneg (g : Geometry) (lv : Nat) : 0 ≤ g.maxSizeAt lv := by
  unfold Geometry.maxSizeAt
  split
  · exact maxDirect_nonneg g
  · exact maxSingle_nonneg g
  · exact maxDouble_nonneg g
  · exact maxTriple_nonneg g

theorem maxSizeAt_succ (g : Geometry) (lv : Nat) (h0 : lv ≠ 0) (h3 : lv ≤ 3) :
    g.maxSizeAt lv = (g.NumDirect : Int) * g.childCapacity lv := by
  have : lv = 1 ∨ lv = 2 ∨ lv = 3 := by omega
  rcases this with rfl | rfl | rfl <;> rfl

/-- Above level 0 one entry covers a positive number of bytes. -/
theorem childCapacity_pos (g : Geometry) (s : Int) (h : g.MaxDirectSize < s)
    (hs : s ≤ g.MaxTripleIndirectSize) : 0 < g.childCapacity (requiredLevel g s) := by
  obtain ⟨b1, b2, _⟩ := requiredLevel_least g s hs
  have hpos := requiredLevel_pos g s h
  have hnn : 0 ≤ g.childCapacity (requiredLevel g s) := by
    rw [childCapacity_eq_maxSizeAt g _ hpos b1]; exact maxSizeAt_nonneg g _
  rcases lt_or_eq_of_le hnn with h1 | h1
  · exact h1
  · rw [maxSizeAt_succ g _ hpos b1, ← h1] at b2
    have := maxDirect_nonneg g
    simp at b2; omega

/-- C18: when `Allocate` of `s` bytes, `MaxDirectSize < s <= MaxTripleIndirectSize`, returns
TRUE, `numSectors` is `s` divided by the capacity of one entry (the maximum size of the
level below), rounded up; every entry `i < numSectors` holds a sector, and the record
written back to it has `numBytes = min(s - i * capacity, capacity)`; these sizes sum to
`s`. -/
theorem allocate_children_sizes (g : Geometry) (junk junk0 : Int) (hSS : 0 < g.SectorSize)
    (fm : Bitmap) (d : Disk) (s : Int) (hlow : g.MaxDirectSize < s)
    (hs : s ≤ g.MaxTripleIndirectSize)
    (hret : (Allocate g junk fm d (FileHeader.fresh g junk0) s).ret = some true) :
    (1 ≤ requiredLevel g s ∧ requiredLevel g s ≤ 3) ∧
    (Allocate g junk fm d (FileHeader.fresh g junk0) s).hdr.level = (requiredLevel g s : Int) ∧
    g.childCapacity (requiredLevel g s) = g.maxSizeAt (requiredLevel g s - 1) ∧
    (Allocate g junk fm d (FileHeader.fresh g junk0) s).hdr.numSectors
      = divRoundUp s (g.childCapacity (requiredLevel g s)) ∧
    (((Allocate g junk fm d (FileHeader.fresh g junk0) s).hdr.numSectors - 1)
        * g.childCapacity (requiredLevel g s) < s ∧
      s ≤ (Allocate g junk fm d (FileHeader.fresh g junk0) s).hdr.numSectors
        * g.childCapacity (requiredLevel g s)) ∧
    (∀ i : Nat, (i : Int) < (Allocate g junk fm d (FileHeader.fresh g junk0) s).hdr.numSectors →
      ∃ sec, (Allocate g junk fm d (FileHeader.fresh g junk0) s).hdr.dataSectors[i]? = some sec ∧
        0 ≤ sec ∧
        (FetchFrom (Allocate g junk fm d (FileHeader.fresh g junk0) s).disk sec).numBytes
          = min (s - (i : Int) * g.childCapacity (requiredLevel g s))
              (g.childCapacity (requiredLevel g s))) ∧
    ((List.range (Allocate g junk fm d (FileHeader.fresh g junk0) s).hdr.numSectors.toNat).map
        (fun i : Nat => min (s - (i : Int) * g.childCapacity (requiredLevel g s))
          (g.childCapacity (requiredLevel g s)))).sum = s := by
  have hM := maxDirect_nonneg g
  have hs0 : 0 ≤ s := by omega
  obtain ⟨a1, a2, a3⟩ := Allocate_hdr g junk fm d (FileHeader.fresh g junk0) s hs
  obtain ⟨b1, _, _⟩ := requiredLevel_least g s hs
  have hpos := requiredLevel_pos g s hlow
  have hcap := childCapacity_pos g s hlow hs
  obtain ⟨q0, q1, q2⟩ := divRoundUp_spec s (g.childCapacity (requiredLevel g s)) hs0 hcap
  have hn := divRoundUp_pos s (g.childCapacity (requiredLevel g s)) (by omega) hcap
  have ht := allocate_tree g junk junk0 hSS fm d s hs0 hs hret
  obtain ⟨_, _, _, _, t5⟩ := ht
  refine ⟨⟨by omega, b1⟩, a2, childCapacity_eq_maxSizeAt g _ hpos b1, a3,
    ⟨by rw [a3]; exact q1, by rw [a3]; exact q2⟩, ?_, ?_⟩
  · intro i hi
    obtain ⟨sec, e1, e2, e3⟩ := t5 i hi
    have hne : (Allocate g junk fm d (FileHeader.fresh g junk0) s).hdr.level ≠ 0 := by
      rw [a2]; omega
    refine ⟨sec, e1, e2, ?_⟩
    have := (e3 hne).1
    rw [a1] at this
    exact this
  · rw [a3]
    apply sum_children _ _ _ (le_of_lt hcap) (by omega)
    · rw [Int.toNat_of_nonneg q0]; exact q1
    · rw [Int.toNat_of_nonneg q0]; exact q2

/-- C18, at 9 bytes on the small geometry: two records, of 8 bytes and of 1 byte. -/
theorem allocate_children_sizes_witness :
    ((List.range (Allocate tinyGeometry 0 (clearMap 12) (blankDisk tinyGeometry)
        (FileHeader.fresh tinyGeometry 0) 9).hdr.numSectors.toNat).map
        (fun i : Nat => min ((9 : Int) - (i : Int)
            * tinyGeometry.childCapacity (requiredLevel tinyGeometry 9))
          (tinyGeometry.childCapacity (requiredLevel tinyGeometry 9)))).sum = 9 :=
  (allocate_children_sizes tinyGeometry 0 0 (by decide) (clearMap 12) (blankDisk tinyGeometry)
    9 (by decide) (by decide) (by decide)).2.2.2.2.2.2

/-- The recorded run returns the sector `ByteToSector` returns. -/
theorem ByteToSectorTraceFuel_fst (g : Geometry) (f : Nat) :
    ∀ (d : Disk) (this : FileHeader) (offset : Int),
      (ByteToSectorTraceFuel g f d this offset).map Prod.fst
        = ByteToSectorFuel g f d this offset := by
  induction f with
  | zero => intro d this offset; rfl
  | succ f ih =>
    intro d this offset
    have hvia : ∀ cap,
        (byteToSectorTraceVia (ByteToSectorTraceFuel g f d) d this cap offset).map Prod.fst
          = byteToSectorVia (ByteToSectorFuel g f d) d this cap offset := by
      intro cap
      unfold byteToSectorTraceVia byteToSectorVia
      cases this.sectorAt (Int.tdiv offset cap) with
      | none => rfl
      | some s =>
        simp only
        rw [← ih d (FetchFrom d s) (Int.tmod offset cap)]
        cases ByteToSectorTraceFuel g f d (FetchFrom d s) (Int.tmod offset cap) <;> rfl
    simp only [ByteToSectorTraceFuel, ByteToSectorFuel]
    split
    · cases this.sectorAt (Int.tdiv offset g.SectorSize) <;> rfl
    · split
      · exact hvia _
      · split
        · exact hvia _
        · split
          · exact hvia _
          · rfl

theorem ByteToSectorTraceFuel_level (g : Geometry) (f : Nat) (d : Disk) (this : FileHeader)
    (offset : Int) (lv : Nat) (h0 : lv ≠ 0) (h3 : lv ≤ 3) (hl : this.level = (lv : Int)) :
    ByteToSectorTraceFuel g (f + 1) d this offset
      = byteToSectorTraceVia (ByteToSectorTraceFuel g f d) d this (g.childCapacity lv)
          offset := by
  have : lv = 1 ∨ lv = 2 ∨ lv = 3 := by omega
  rcases this with rfl | rfl | rfl <;>
    simp [ByteToSectorTraceFuel, hl, Geometry.childCapacity]

theorem TreeOk_mono (g : Geometry) (f : Nat) :
    ∀ (d : Disk) (h : FileHeader), TreeOk g f d h → TreeOk g (f + 1) d h := by
  induction f with
  | zero => intro d h ht; exact absurd ht (by simp [TreeOk])
  | succ f ih =>
    intro d h ht
    obtain ⟨t1, t2, t3, t4, t5⟩ := ht
    refine ⟨t1, t2, t3, t4, ?_⟩
    intro i hi
    obtain ⟨sec, e1, e2, e3⟩ := t5 i hi
    exact ⟨sec, e1, e2, fun hne => ⟨(e3 hne).1, ih d _ (e3 hne).2⟩⟩

theorem requiredLevel_le (g : Geometry) (s : Int) (lv : Nat) (h3 : lv ≤ 3)
    (h : s ≤ g.maxSizeAt lv) : requiredLevel g s ≤ lv := by
  have hcases : lv = 0 ∨ lv = 1 ∨ lv = 2 ∨ lv = 3 := by omega
  have m1 := maxDirect_le_single g
  have m2 := maxSingle_le_double g
  unfold requiredLevel
  simp only [Geometry.maxSizeAt] at h ⊢
  rcases hcases with rfl | rfl | rfl | rfl
  · simp only at h; simp [h]
  · simp only at h
    split
    · omega
    · simp [h]
  · simp only at h
    split
    · omega
    · split
      · omega
      · simp [h]
  · split
    · omega
    · split
      · omega
      · split <;> omega

/-- A full entry of a record whose level is the one its size requires holds a record of
exactly the level below. -/
theorem requiredLevel_childCapacity (g : Geometry) (s : Int)
    (hlow : g.MaxDirectSize < s) (hs : s ≤ g.MaxTripleIndirectSize) :
    requiredLevel g (g.childCapacity (requiredLevel g s)) = requiredLevel g s - 1 := by
  have m1 := maxDirect_le_single g
  have m2 := maxSingle_le_double g
  have e2 : g.MaxDoubleIndirectSize = (g.NumDirect : Int) * g.MaxSingleIndirectSize := rfl
  have e3 : g.MaxTripleIndirectSize = (g.NumDirect : Int) * g.MaxDoubleIndirectSize := rfl
  have e1 : g.MaxSingleIndirectSize = (g.NumDirect : Int) * g.MaxDirectSize := rfl
  have h0 : ¬ s ≤ g.MaxDirectSize := by omega
  by_cases h1 : s ≤ g.MaxSingleIndirectSize
  · have hl : requiredLevel g s = 1 := by simp [requiredLevel, Geometry.maxSizeAt, h0, h1]
    rw [hl]
    simp [requiredLevel, Geometry.maxSizeAt, Geometry.childCapacity]
  · by_cases h2 : s ≤ g.MaxDoubleIndirectSize
    · have hl : requiredLevel g s = 2 := by
        simp [requiredLevel, Geometry.maxSizeAt, h0, h1, h2]
      have hstrict : ¬ g.MaxSingleIndirectSize ≤ g.MaxDirectSize := by
        intro hle
        have heq : g.MaxSingleIndirectSize = g.MaxDirectSize := by omega
        rw [heq, ← e1] at e2
        omega
      rw [hl]
      simp [requiredLevel, Geometry.maxSizeAt, Geometry.childCapacity, hstrict]
    · have hl : requiredLevel g s = 3 := by
        simp [requiredLevel, Geometry.maxSizeAt, h0, h1, h2]
      have hstrict : ¬ g.MaxDoubleIndirectSize ≤ g.MaxSingleIndirectSize := by
        intro hle
        have heq : g.MaxDoubleIndirectSize = g.MaxSingleIndirectSize := by omega
        rw [heq, ← e2] at e3
        omega
      have hstrict0 : ¬ g.MaxDoubleIndirectSize ≤ g.MaxDirectSize := by omega
      rw [hl]
      simp [requiredLevel, Geometry.maxSizeAt, Geometry.childCapacity, hstrict, hstrict0]

theorem requiredLevel_eq_zero (g : Geometry) (s : Int) (h : s ≤ g.MaxDirectSize) :
    requiredLevel g s = 0 := by
  simp [requiredLevel, Geometry.maxSizeAt, h]

/-- What `TreeOk` says of the record stored in entry `i` of a record above level 0. -/
theorem tree_child (g : Geometry) (f : Nat) (d : Disk) (h : FileHeader)
    (ht : TreeOk g (f + 1) d h) (hne : h.level ≠ 0) (i : Nat) (sec : Int)
    (hi : (i : Int) < h.numSectors) (hds : h.dataSectors[i]? = some sec) :
    TreeOk g f d (d sec) ∧
    (d sec).level = (requiredLevel g (d sec).numBytes : Int) ∧
    (d sec).numBytes
      = min (h.numBytes - (i : Int) * g.childCapacity (requiredLevel g h.numBytes))
          (g.childCapacity (requiredLevel g h.numBytes)) ∧
    (d sec).level ≤ h.level - 1 ∧
    ((i : Int) + 1 < h.numSectors → (d sec).level = h.level - 1) := by
  obtain ⟨t1, t2, t3, t4, t5⟩ := ht
  obtain ⟨sec1, e1, _, e3⟩ := t5 i hi
  have hsec : sec1 = sec := by rw [e1] at hds; exact Option.some.inj hds
  subst hsec
  obtain ⟨c1, c2⟩ := e3 hne
  have hlow : g.MaxDirectSize < h.numBytes := by
    by_contra hle
    rw [t3, requiredLevel_eq_zero g _ (by omega)] at hne
    exact hne rfl
  obtain ⟨b1, _, _⟩ := requiredLevel_least g h.numBytes t2
  have hpos := requiredLevel_pos g h.numBytes hlow
  have hcap := childCapacity_pos g h.numBytes hlow t2
  have hclvl : (d sec1).level = (requiredLevel g (d sec1).numBytes : Int) := by
    cases f with
    | zero => exact absurd c2 (by simp [TreeOk])
    | succ f => exact c2.2.2.1
  have hle : requiredLevel g (d sec1).numBytes ≤ requiredLevel g h.numBytes - 1 := by
    apply requiredLevel_le g _ _ (by omega)
    rw [← childCapacity_eq_maxSizeAt g _ hpos b1, c1]
    exact min_le_right _ _
  refine ⟨c2, hclvl, c1, by rw [hclvl, t3]; omega, ?_⟩
  intro hfull
  obtain ⟨_, q1, _⟩ := divRoundUp_spec h.numBytes _ t1 hcap
  rw [← t4] at q1
  have hmul : ((i : Int) + 1) * g.childCapacity (requiredLevel g h.numBytes)
      ≤ (h.numSectors - 1) * g.childCapacity (requiredLevel g h.numBytes) :=
    Int.mul_le_mul_of_nonneg_right (by omega) (le_of_lt hcap)
  have hexp : ((i : Int) + 1) * g.childCapacity (requiredLevel g h.numBytes)
      = (i : Int) * g.childCapacity (requiredLevel g h.numBytes)
        + g.childCapacity (requiredLevel g h.numBytes) := by ring
  have hsize : (d sec1).numBytes = g.childCapacity (requiredLevel g h.numBytes) := by
    rw [c1]; exact min_eq_right (by omega)
  rw [hclvl, hsize, requiredLevel_childCapacity g _ hlow t2, t3]
  omega

theorem tree_of_inTree (g : Geometry) (f : Nat) (d : Disk) (root p : FileHeader)
    (ht : TreeOk g f d root) (hp : InTree d root p) : TreeOk g f d p := by
  induction hp with
  | root => exact ht
  | nested q i sec _ hne hi hds ih =>
    cases f with
    | zero => exact absurd ht (by simp [TreeOk])
    | succ f =>
      exact TreeOk_mono g f d _ (tree_child g f d q ih hne i sec hi hds).1

/-- On a tree of the shape `TreeOk`, `ByteToSector` returns a sector for every offset of
the file, after at most `level` nested calls, and every index it computes is within the
`numSectors` of the record it indexes. -/
theorem trace_of_tree (g : Geometry) (hSS : 0 < g.SectorSize) (f : Nat) :
    ∀ (d : Disk) (h : FileHeader) (o : Int), TreeOk g f d h → 0 ≤ o → o < h.numBytes →
      ∃ k tr, ByteToSectorTraceFuel g f d h o = some (k, tr) ∧
        (tr.length : Int) ≤ h.level + 1 ∧ ∀ p ∈ tr, 0 ≤ p.1 ∧ p.1 < p.2 := by
  induction f with
  | zero => intro d h o ht; exact absurd ht (by simp [TreeOk])
  | succ f ih =>
    intro d h o ht ho0 ho
    have ht2 := ht
    obtain ⟨t1, t2, t3, t4, t5⟩ := ht2
    by_cases hlvl : h.level = 0
    · have hreq : requiredLevel g h.numBytes = 0 := by rw [t3] at hlvl; omega
      rw [hreq] at t4
      simp only [Geometry.childCapacity] at t4
      have hSS2 : (0 : Int) < g.SectorSize := by exact_mod_cast hSS
      obtain ⟨e1, _⟩ := tdiv_tmod_nonneg o g.SectorSize ho0 hSS2
      obtain ⟨_, _, q2⟩ := divRoundUp_spec h.numBytes g.SectorSize t1 hSS2
      have hidx0 : 0 ≤ o / (g.SectorSize : Int) := Int.ediv_nonneg ho0 (le_of_lt hSS2)
      have hidx : o / (g.SectorSize : Int) < h.numSectors := by
        rw [t4]; exact Int.ediv_lt_of_lt_mul hSS2 (by omega)
      obtain ⟨sec, s1, _, _⟩ := t5 (o / (g.SectorSize : Int)).toNat
        (by rw [Int.toNat_of_nonneg hidx0]; exact hidx)
      refine ⟨sec, [(o / (g.SectorSize : Int), h.numSectors)], ?_, by simp [hlvl], ?_⟩
      · simp [ByteToSectorTraceFuel, hlvl, FileHeader.sectorAt, e1, hidx0, s1]
      · intro p hp
        simp only [List.mem_singleton] at hp
        subst hp
        exact ⟨hidx0, hidx⟩
    · have hlow : g.MaxDirectSize < h.numBytes := by
        by_contra hle
        rw [t3, requiredLevel_eq_zero g _ (by omega)] at hlvl
        exact hlvl rfl
      obtain ⟨b1, _, _⟩ := requiredLevel_least g h.numBytes t2
      have hpos := requiredLevel_pos g h.numBytes hlow
      have hcap := childCapacity_pos g h.numBytes hlow t2
      obtain ⟨e1, e2⟩ := tdiv_tmod_nonneg o _ ho0 hcap
      obtain ⟨_, _, q2⟩ := divRoundUp_spec h.numBytes _ t1 hcap
      have hidx0 : 0 ≤ o / g.childCapacity (requiredLevel g h.numBytes) :=
        Int.ediv_nonneg ho0 (le_of_lt hcap)
      have hidx : o / g.childCapacity (requiredLevel g h.numBytes) < h.numSectors := by
        rw [t4]; exact Int.ediv_lt_of_lt_mul hcap (by omega)
      have hcast : (((o / g.childCapacity (requiredLevel g h.numBytes)).toNat : Nat) : Int)
          = o / g.childCapacity (requiredLevel g h.numBytes) := Int.toNat_of_nonneg hidx0
      obtain ⟨sec, s1, _, _⟩ := t5 (o / g.childCapacity (requiredLevel g h.numBytes)).toNat
        (by rw [hcast]; exact hidx)
      obtain ⟨c1, _, c3, c4, _⟩ := tree_child g f d h ht hlvl _ sec
        (by rw [hcast]; exact hidx) s1
      rw [hcast] at c3
      have hmod0 : 0 ≤ o % g.childCapacity (requiredLevel g h.numBytes) :=
        Int.emod_nonneg o (ne_of_gt hcap)
      have hmodlt : o % g.childCapacity (requiredLevel g h.numBytes)
          < g.childCapacity (requiredLevel g h.numBytes) := Int.emod_lt_of_pos o hcap
      have hdm := Int.ediv_add_emod o (g.childCapacity (requiredLevel g h.numBytes))
      have hcomm : g.childCapacity (requiredLevel g h.numBytes)
            * (o / g.childCapacity (requiredLevel g h.numBytes))
          = o / g.childCapacity (requiredLevel g h.numBytes)
            * g.childCapacity (requiredLevel g h.numBytes) := Int.mul_comm _ _
      have hmod : o % g.childCapacity (requiredLevel g h.numBytes) < (d sec).numBytes := by
        rw [c3]
        exact lt_min (by omega) hmodlt
      obtain ⟨k, tr, r1, r2, r3⟩ := ih d (d sec) _ c1 hmod0 hmod
      refine ⟨k, (o / g.childCapacity (requiredLevel g h.numBytes), h.numSectors) :: tr,
        ?_, ?_, ?_⟩
      · rw [ByteToSectorTraceFuel_level g f d h o _ hpos b1 t3]
        simp only [byteToSectorTraceVia, FileHeader.sectorAt, e1, e2, hidx0, if_true, s1,
          FetchFrom, r1]
      · simp only [List.length_cons]; push_cast; omega
      · intro p hp
        rcases List.mem_cons.1 hp with rfl | hp
        · exact ⟨hidx0, hidx⟩
        · exact r3 p hp

/-- C19 (amended): after a successful `Allocate` of `s` bytes (`0 ≤ s ≤
MaxTripleIndirectSize`) on a fresh header, every record of the tree (the header and every
nested record) has the level that its own `numBytes` requires, between 0 and 3; the record
referenced from entry `i` of a record of level `L ≥ 1` has level at most `L - 1`, and
exactly `L - 1` when `i` is not the last entry; and `ByteToSector` on a record of level `L`
returns a sector for every offset in `[0, numBytes)` after at most `L` nested calls. -/
theorem allocate_tree_levels (g : Geometry) (junk junk0 : Int) (hSS : 0 < g.SectorSize)
    (fm : Bitmap) (d : Disk) (s : Int) (hs0 : 0 ≤ s) (hs : s ≤ g.MaxTripleIndirectSize)
    (hret : (Allocate g junk fm d (FileHeader.fresh g junk0) s).ret = some true) :
    ∀ p : FileHeader,
      InTree (Allocate g junk fm d (FileHeader.fresh g junk0) s).disk
        (Allocate g junk fm d (FileHeader.fresh g junk0) s).hdr p →
      p.level = (requiredLevel g p.numBytes : Int) ∧ 0 ≤ p.level ∧ p.level ≤ 3 ∧
      (∀ (i : Nat) (sec : Int), p.level ≠ 0 → (i : Int) < p.numSectors →
        p.dataSectors[i]? = some sec →
        (FetchFrom (Allocate g junk fm d (FileHeader.fresh g junk0) s).disk sec).level
          ≤ p.level - 1 ∧
        ((i : Int) + 1 < p.numSectors →
          (FetchFrom (Allocate g junk fm d (FileHeader.fresh g junk0) s).disk sec).level
            = p.level - 1)) ∧
      (∀ o : Int, 0 ≤ o → o < p.numBytes →
        ∃ k tr,
          ByteToSectorTraceFuel g 4
            (Allocate g junk fm d (FileHeader.fresh g junk0) s).disk p o = some (k, tr) ∧
          ByteToSector g (Allocate g junk fm d (FileHeader.fresh g junk0) s).disk p o
            = some k ∧
          (tr.length : Int) - 1 ≤ p.level) := by
  intro p hp
  have ht := tree_of_inTree g 4 _ _ p (allocate_tree g junk junk0 hSS fm d s hs0 hs hret) hp
  have ht2 := ht
  obtain ⟨_, t2, t3, _, _⟩ := ht2
  obtain ⟨b1, _, _⟩ := requiredLevel_least g p.numBytes t2
  refine ⟨t3, by omega, by omega, ?_, ?_⟩
  · intro i sec hne hi hds
    obtain ⟨_, _, _, c4, c5⟩ := tree_child g 3 _ p ht hne i sec hi hds
    exact ⟨c4, c5⟩
  · intro o ho0 ho
    obtain ⟨k, tr, r1, r2, _⟩ := trace_of_tree g hSS 4 _ p o ht ho0 ho
    refine ⟨k, tr, r1, ?_, by omega⟩
    have h := ByteToSectorTraceFuel_fst g 4
      (Allocate g junk fm d (FileHeader.fresh g junk0) s).disk p o
    rw [r1] at h
    exact h.symm

theorem allocate_tree_levels_witness :
    ((FetchFrom (Allocate tinyGeometry 0 (clearMap 12) (blankDisk tinyGeometry)
          (FileHeader.fresh tinyGeometry 0) 9).disk 0).level = 1 ∧
      (FetchFrom (Allocate tinyGeometry 0 (clearMap 12) (blankDisk tinyGeometry)
          (FileHeader.fresh tinyGeometry 0) 9).disk 7).level ≤ 1) ∧
    ∃ k tr,
      ByteToSectorTraceFuel tinyGeometry 4
        (Allocate tinyGeometry 0 (clearMap 12) (blankDisk tinyGeometry)
          (FileHeader.fresh tinyGeometry 0) 9).disk
        (Allocate tinyGeometry 0 (clearMap 12) (blankDisk tinyGeometry)
          (FileHeader.fresh tinyGeometry 0) 9).hdr 8 = some (k, tr) ∧
      ByteToSector tinyGeometry
        (Allocate tinyGeometry 0 (clearMap 12) (blankDisk tinyGeometry)
          (FileHeader.fresh tinyGeometry 0) 9).disk
        (Allocate tinyGeometry 0 (clearMap 12) (blankDisk tinyGeometry)
          (FileHeader.fresh tinyGeometry 0) 9).hdr 8 = some k ∧
      (tr.length : Int) - 1
        ≤ (Allocate tinyGeometry 0 (clearMap 12) (blankDisk tinyGeometry)
          (FileHeader.fresh tinyGeometry 0) 9).hdr.level :=
  have h := allocate_tree_levels tinyGeometry 0 0 (by decide) (clearMap 12)
    (blankDisk tinyGeometry) 9 (by decide) (by decide) (by decide) _ (InTree.root)
  ⟨⟨((h.2.2.2.1 0 0 (by decide) (by decide) (by decide)).2 (by decide)),
     (h.2.2.2.1 1 7 (by decide) (by decide) (by decide)).1⟩,
   h.2.2.2.2 8 (by decide) (by decide)⟩

/-- C19 as stated fails on the geometry of sectors of 2 bytes and 2 entries per record: a
file of 9 bytes gets a header of level 2 whose entry 1 (sector 7) holds the record of the
last byte, which has level 0 and not 1, and `ByteToSector` at offset 8 makes one nested
call and not two. -/
theorem nested_level_counterexample :
    (Allocate tinyGeometry 0 (clearMap 12) (blankDisk tinyGeometry)
        (FileHeader.fresh tinyGeometry 0) 9).ret = some true ∧
    (Allocate tinyGeometry 0 (clearMap 12) (blankDisk tinyGeometry)
        (FileHeader.fresh tinyGeometry 0) 9).hdr.level = 2 ∧
    (Allocate tinyGeometry 0 (clearMap 12) (blankDisk tinyGeometry)
        (FileHeader.fresh tinyGeometry 0) 9).hdr.numSectors = 2 ∧
    (Allocate tinyGeometry 0 (clearMap 12) (blankDisk tinyGeometry)
        (FileHeader.fresh tinyGeometry 0) 9).hdr.dataSectors[1]? = some 7 ∧
    ¬ ((FetchFrom (Allocate tinyGeometry 0 (clearMap 12) (blankDisk tinyGeometry)
        (FileHeader.fresh tinyGeometry 0) 9).disk 7).level = 2 - 1) ∧
    ¬ ((ByteToSectorTraceFuel tinyGeometry 4
        (Allocate tinyGeometry 0 (clearMap 12) (blankDisk tinyGeometry)
          (FileHeader.fresh tinyGeometry 0) 9).disk
        (Allocate tinyGeometry 0 (clearMap 12) (blankDisk tinyGeometry)
          (FileHeader.fresh tinyGeometry 0) 9).hdr 8).map (fun r => r.2.length - 1)
        = some 2) := by
  decide

/-! ## Facts about FindIndex, Add and Remove -/

theorem matches_iff (maxLen : Nat) (name : List Char) (e : DirectoryEntry) :
    e.matches maxLen name = true
      ↔ e.inUse = true ∧ e.name.take maxLen = name.take maxLen := by
  unfold DirectoryEntry.matches
  rw [Bool.and_eq_true, beq_iff_eq, strncmp_eq_zero_iff]

theorem matches_eq_false_iff (maxLen : Nat) (name : List Char) (e : DirectoryEntry) :
    e.matches maxLen name = false
      ↔ ¬ (e.inUse = true ∧ e.name.take maxLen = name.take maxLen) := by
  rw [← matches_iff, Bool.not_eq_true]

/-- C23: `FindIndex(name)` returns -1 exactly when no slot is in use with a name equal to
`name` on the first `FileNameMaxLen` characters; otherwise it returns the smallest index of
such a slot, which lies inside the table; a slot that is not in use is never the result,
whatever name it still holds. -/
theorem findIndex_smallest (maxLen : Nat) (d : Directory) (name : List Char) :
    (d.FindIndex maxLen name = -1 ↔
      ∀ e ∈ d.table, ¬ (e.inUse = true ∧ e.name.take maxLen = name.take maxLen)) ∧
    (d.FindIndex maxLen name ≠ -1 →
      ∃ k : Nat, d.FindIndex maxLen name = (k : Int) ∧ k < d.table.length ∧
        (∃ e, d.table[k]? = some e ∧ e.inUse = true ∧
          e.name.take maxLen = name.take maxLen) ∧
        ∀ (j : Nat) (e : DirectoryEntry), j < k → d.table[j]? = some e →
          ¬ (e.inUse = true ∧ e.name.take maxLen = name.take maxLen)) ∧
    (∀ (k : Nat) (e : DirectoryEntry), d.table[k]? = some e → e.inUse = false →
      d.FindIndex maxLen name ≠ (k : Int)) := by
  have hsome : d.FindIndex maxLen name ≠ -1 →
      ∃ k : Nat, d.FindIndex maxLen name = (k : Int) ∧ k < d.table.length ∧
        (∃ e, d.table[k]? = some e ∧ e.inUse = true ∧
          e.name.take maxLen = name.take maxLen) ∧
        ∀ (j : Nat) (e : DirectoryEntry), j < k → d.table[j]? = some e →
          ¬ (e.inUse = true ∧ e.name.take maxLen = name.take maxLen) := by
    intro h
    obtain ⟨k, h1, h2, ⟨e, h3, h4⟩, h5⟩ := findIndexFrom_spec maxLen name d.table 0 h
    refine ⟨k, ?_, h2, ⟨e, h3, ((matches_iff maxLen name e).1 h4).1,
      ((matches_iff maxLen name e).1 h4).2⟩, ?_⟩
    · unfold Directory.FindIndex; rw [h1]; simp
    · intro j e2 hj he2
      exact (matches_eq_false_iff maxLen name e2).1 (h5 j hj e2 he2)
  refine ⟨?_, hsome, ?_⟩
  · unfold Directory.FindIndex
    rw [findIndexFrom_eq_neg_one]
    constructor
    · intro h e he; exact (matches_eq_false_iff maxLen name e).1 (h e he)
    · intro h e he; exact (matches_eq_false_iff maxLen name e).2 (h e he)
  · intro k e hk he hfind
    have hne : d.FindIndex maxLen name ≠ -1 := by rw [hfind]; omega
    obtain ⟨k2, h1, _, ⟨e2, h3, h4, _⟩, _⟩ := hsome hne
    have hk2 : k2 = k := by rw [h1] at hfind; exact_mod_cast hfind
    subst hk2
    rw [hk] at h3
    have : e = e2 := Option.some.inj h3
    subst this
    rw [he] at h4
    exact Bool.false_ne_true h4

/-- C23, at a concrete table: slot 0 holds the stale name `ab` and is not in use, slots 1
and 2 both hold `ab` in use; the scan returns 1. -/
theorem findIndex_smallest_witness :
    ∃ k : Nat,
      (Directory.mk [⟨false, 3, ['a', 'b'], false⟩, ⟨true, 4, ['a', 'b'], false⟩,
        ⟨true, 5, ['a', 'b'], false⟩]).FindIndex 9 ['a', 'b'] = (k : Int) ∧ k < 3 :=
  have h := (findIndex_smallest 9
    (Directory.mk [⟨false, 3, ['a', 'b'], false⟩, ⟨true, 4, ['a', 'b'], false⟩,
      ⟨true, 5, ['a', 'b'], false⟩]) ['a', 'b']).2.1 (by decide)
  h.elim (fun k hk => ⟨k, hk.1, hk.2.1⟩)

/-- C24: in a directory built from an empty one by `Add` and `Remove` calls, no two slots
in use hold names that are equal on their first `FileNameMaxLen` characters, which is the
comparison `FindIndex` makes. -/
theorem names_unique (maxLen : Nat) (d : Directory) (h : Directory.Reachable maxLen d) :
    ∀ (i j : Nat) (a b : DirectoryEntry), i < j →
      d.table[i]? = some a → d.table[j]? = some b →
      a.inUse = true → b.inUse = true →
      strncmp a.name b.name maxLen ≠ 0 ∧ a.name.take maxLen ≠ b.name.take maxLen := by
  intro i j a b hij ha hb hau hbu
  have hu := uniqueNames_reachable maxLen d h
  unfold UniqueNames at hu
  have hj : j < d.table.length := (List.getElem?_eq_some_iff.1 hb).1
  have hi : i < d.table.length := by omega
  have key := List.pairwise_iff_getElem.1 hu i j hi hj hij
  have ea : d.table[i] = a := (List.getElem?_eq_some_iff.1 ha).2
  have eb : d.table[j] = b := (List.getElem?_eq_some_iff.1 hb).2
  rw [ea, eb] at key
  have hne := key hau hbu
  exact ⟨hne, fun heq => hne ((strncmp_eq_zero_iff _ _ _).2 heq)⟩

/-- C24, at a concrete directory: `ab`, `cd` added, `ab` removed, `ef` added; `ef` takes
slot 0 and `cd` stays in slot 1. -/
theorem names_unique_witness :
    ((((((Directory.empty 3).Add 9 ['a', 'b'] 5 false).2.Add 9 ['c', 'd'] 6 true).2.Remove 9
        ['a', 'b']).2.Add 9 ['e', 'f'] 7 false).2.table[0]?
        = some ⟨true, 7, ['e', 'f'], false⟩ ∧
      (((((Directory.empty 3).Add 9 ['a', 'b'] 5 false).2.Add 9 ['c', 'd'] 6 true).2.Remove 9
        ['a', 'b']).2.Add 9 ['e', 'f'] 7 false).2.table[1]?
        = some ⟨true, 6, ['c', 'd'], true⟩) ∧
    strncmp ['e', 'f'] ['c', 'd'] 9 ≠ 0 ∧ List.take 9 ['e', 'f'] ≠ List.take 9 ['c', 'd'] :=
  have h0 : (((((Directory.empty 3).Add 9 ['a', 'b'] 5 false).2.Add 9 ['c', 'd'] 6 true).2.Remove
      9 ['a', 'b']).2.Add 9 ['e', 'f'] 7 false).2.table[0]?
      = some ⟨true, 7, ['e', 'f'], false⟩ := by decide
  have h1 : (((((Directory.empty 3).Add 9 ['a', 'b'] 5 false).2.Add 9 ['c', 'd'] 6 true).2.Remove
      9 ['a', 'b']).2.Add 9 ['e', 'f'] 7 false).2.table[1]?
      = some ⟨true, 6, ['c', 'd'], true⟩ := by decide
  ⟨⟨h0, h1⟩,
    names_unique 9 _
      (Directory.Reachable.add _ _ _ _ (Directory.Reachable.remove _ _
        (Directory.Reachable.add _ _ _ _ (Directory.Reachable.add _ _ _ _
          (Directory.Reachable.empty 3)))))
      0 1 _ _ (by decide) h0 h1 rfl rfl⟩

theorem markUnused_getElem? (l : List DirectoryEntry) (i k : Nat) :
    (markUnused l i)[k]?
      = (l[k]?).map (fun e => if k = i then { e with inUse := false } else e) := by
  induction l generalizing i k with
  | nil => simp [markUnused]
  | cons x rest ih =>
    cases i with
    | zero =>
      cases k with
      | zero => simp [markUnused]
      | succ k => simp [markUnused]
    | succ i =>
      cases k with
      | zero => simp [markUnused]
      | succ k => simp [markUnused, ih]

theorem length_markUnused (l : List DirectoryEntry) (i : Nat) :
    (markUnused l i).length = l.length := by
  induction l generalizing i with
  | nil => simp [markUnused]
  | cons x rest ih =>
    cases i with
    | zero => simp [markUnused]
    | succ i => simp [markUnused, ih]

/-- C25: when `name` is absent `Remove(name)` returns FALSE and the table is unchanged;
otherwise it returns TRUE, the table keeps its size, the slot `FindIndex(name)` differs
from before only in `inUse`, now FALSE, and every other slot is unchanged. The method works
on the table alone: bitmap and disk are not among what it reads or writes. -/
theorem remove_frame (maxLen : Nat) (d : Directory) (name : List Char) :
    (d.FindIndex maxLen name = -1 → d.Remove maxLen name = (false, d)) ∧
    (d.FindIndex maxLen name ≠ -1 →
      (d.Remove maxLen name).1 = true ∧
      (d.Remove maxLen name).2.table.length = d.table.length ∧
      ∀ (k : Nat) (e : DirectoryEntry), d.table[k]? = some e →
        (d.Remove maxLen name).2.table[k]?
          = some (if (k : Int) = d.FindIndex maxLen name then { e with inUse := false }
              else e)) := by
  constructor
  · intro h; simp [Directory.Remove, h]
  · intro h
    obtain ⟨k0, h1, _, _, _⟩ := findIndexFrom_spec maxLen name d.table 0 h
    have hk0 : d.FindIndex maxLen name = (k0 : Int) := by
      unfold Directory.FindIndex; rw [h1]; simp
    refine ⟨by simp [Directory.Remove, h], by simp [Directory.Remove, h, length_markUnused],
      ?_⟩
    intro k e hk
    simp only [Directory.Remove, h, if_false]
    rw [markUnused_getElem?, hk, hk0]
    simp only [Option.map_some', Int.toNat_ofNat, Nat.cast_inj]

/-- C25, at a concrete directory: `ab` at slot 0 and `cd` at slot 1, `cd` removed. -/
theorem remove_frame_witness :
    ((Directory.mk [⟨true, 4, ['a', 'b'], false⟩, ⟨true, 5, ['c', 'd'], true⟩]).Remove 9
        ['c', 'd']).1 = true ∧
    ((Directory.mk [⟨true, 4, ['a', 'b'], false⟩, ⟨true, 5, ['c', 'd'], true⟩]).Remove 9
        ['c', 'd']).2.table.length = 2 ∧
    ((Directory.mk [⟨true, 4, ['a', 'b'], false⟩, ⟨true, 5, ['c', 'd'], true⟩]).Remove 9
        ['c', 'd']).2.table[1]? = some ⟨false, 5, ['c', 'd'], true⟩ :=
  have h := (remove_frame 9
    (Directory.mk [⟨true, 4, ['a', 'b'], false⟩, ⟨true, 5, ['c', 'd'], true⟩])
    ['c', 'd']).2 (by decide)
  ⟨h.1, h.2.1, h.2.2 1 ⟨true, 5, ['c', 'd'], true⟩ rfl⟩

/-- C26: when `name` is absent and some slot is not in use, `Add(name, sector, isDir)`
returns TRUE; the table keeps its size; the slot written is the unused slot of lowest
index, which afterwards is in use with the first `FileNameMaxLen` characters of `name`,
`sector` and `isDir`; every other slot is unchanged. -/
theorem add_frame (maxLen : Nat) (d : Directory) (name : List Char) (sector : Int)
    (isDir : Bool) (habs : d.FindIndex maxLen name = -1)
    (hfree : ∃ e ∈ d.table, e.inUse = false) :
    (d.Add maxLen name sector isDir).1 = true ∧
    (d.Add maxLen name sector isDir).2.table.length = d.table.length ∧
    ∃ i : Nat, i < d.table.length ∧
      (∃ e, d.table[i]? = some e ∧ e.inUse = false) ∧
      (∀ (j : Nat) (e : DirectoryEntry), j < i → d.table[j]? = some e → e.inUse = true) ∧
      (d.Add maxLen name sector isDir).2.table[i]?
        = some { inUse := true, sector := sector, name := name.take maxLen,
                 isDir := isDir } ∧
      ∀ j : Nat, j ≠ i → (d.Add maxLen name sector isDir).2.table[j]? = d.table[j]? := by
  have hsome : ∃ t, addFirstFree maxLen name sector isDir d.table = some t := by
    cases hc : addFirstFree maxLen name sector isDir d.table with
    | some t => exact ⟨t, rfl⟩
    | none =>
      obtain ⟨e, he, hu⟩ := hfree
      have := (addFirstFree_eq_none maxLen name sector isDir d.table).1 hc e he
      rw [hu] at this
      exact absurd this Bool.false_ne_true
  obtain ⟨t, ht⟩ := hsome
  obtain ⟨pre, e, post, h1, h2, h3, h4⟩ :=
    addFirstFree_some maxLen name sector isDir d.table t ht
  have hadd : d.Add maxLen name sector isDir = (true, ⟨t⟩) := by
    simp [Directory.Add, habs, ht]
  rw [hadd]
  subst h4
  have hmid : ∀ (x : DirectoryEntry), (pre ++ x :: post)[pre.length]? = some x := by
    intro x
    rw [List.getElem?_append_right (le_refl _)]
    simp
  refine ⟨rfl, by simp [h1], pre.length, by simp [h1], ⟨e, by rw [h1]; exact hmid e, h3⟩,
    ?_, ?_, ?_⟩
  · intro j x hj hx
    rw [h1, List.getElem?_append_left hj] at hx
    exact h2 x (List.mem_iff_getElem?.2 ⟨j, hx⟩)
  · simp only [strncpy]
    exact hmid _
  · intro j hj
    rw [h1]
    rcases Nat.lt_or_gt_of_ne hj with hlt | hgt
    · simp only [List.getElem?_append_left hlt]
    · have hle : pre.length ≤ j := by omega
      simp only [List.getElem?_append_right hle]
      obtain ⟨m, hm⟩ : ∃ m, j - pre.length = m + 1 := ⟨j - pre.length - 1, by omega⟩
      rw [hm]
      simp

/-- C26, at a concrete directory: slot 0 in use, slots 1 and 2 free; the name is cut to
nine characters and goes to slot 1. -/
theorem add_frame_witness :
    ((Directory.mk [⟨true, 4, ['a', 'b'], false⟩, emptyEntry, emptyEntry]).Add 9
        ['0', '1', '2', '3', '4', '5', '6', '7', '8', '9'] 7 true).1 = true ∧
    ((Directory.mk [⟨true, 4, ['a', 'b'], false⟩, emptyEntry, emptyEntry]).Add 9
        ['0', '1', '2', '3', '4', '5', '6', '7', '8', '9'] 7 true).2.table
      = [⟨true, 4, ['a', 'b'], false⟩,
         ⟨true, 7, ['0', '1', '2', '3', '4', '5', '6', '7', '8'], true⟩, emptyEntry] :=
  have h := add_frame 9 (Directory.mk [⟨true, 4, ['a', 'b'], false⟩, emptyEntry, emptyEntry])
    ['0', '1', '2', '3', '4', '5', '6', '7', '8', '9'] 7 true (by decide)
    ⟨emptyEntry, by decide, rfl⟩
  ⟨h.1, by decide⟩

/-! ## Facts about RecursiveList -/

theorem indentLoop_eq (n : Nat) : indentLoop n = List.replicate (4 * n) ' ' := by
  induction n with
  | zero => rfl
  | succ n ih =>
    rw [indentLoop, ih, show 4 * (n + 1) = 4 * n + 4 by ring]
    simp [List.replicate_succ]

theorem indent_level (level : Int) :
    indentLoop level.toNat = List.replicate (4 * level).toNat ' ' := by
  rw [indentLoop_eq]
  congr 1
  omega

theorem unlines_append (a b : List (List Char)) : unlines (a ++ b) = unlines a ++ unlines b := by
  simp [unlines, List.flatMap_append]

theorem unlines_cons (l : List Char) (ls : List (List Char)) :
    unlines (l :: ls) = l ++ ['\n'] ++ unlines ls := by
  simp [unlines, List.flatMap_cons]

/-- The loop of `RecursiveList` prints the lines of the specification when every nested
call does. -/
theorem recursiveListLoop_eq (load : DirDisk) (child : Directory → Option (List Char))
    (sub : Directory → List (List Char)) (level : Int) (l : List DirectoryEntry)
    (h : ∀ e ∈ l, e.inUse = true → e.isDir = true →
      ∃ s, load e.sector = some s ∧ child s = some (unlines (sub s))) :
    recursiveListLoop load child level l
      = some (unlines (l.flatMap (fun e =>
          if e.inUse then
            (List.replicate (4 * level).toNat ' '
                ++ (if e.isDir then ['[', 'D', ']', ' '] else ['[', 'F', ']', ' ']) ++ e.name)
              :: (if e.isDir then
                    match load e.sector with
                    | some s => sub s
                    | none => []
                  else [])
          else []))) := by
  induction l with
  | nil => rfl
  | cons e rest ih =>
    have ih2 := ih (fun x hx => h x (List.mem_cons_of_mem _ hx))
    rw [List.flatMap_cons, unlines_append]
    unfold recursiveListLoop
    by_cases hu : e.inUse = true
    · by_cases hd : e.isDir = true
      · obtain ⟨s, hs1, hs2⟩ := h e (List.mem_cons_self _ _) hu hd
        simp only [hu, hd, if_true, hs1, hs2, ih2, Option.map_some', unlines_cons,
          unlines_append, indent_level, beq_self_eq_true]
      · have hd2 : e.isDir = false := by simpa using hd
        simp only [hu, hd2, if_true, ih2, Option.map_some', unlines_cons, indent_level,
          Bool.false_eq_true, if_false]
        simp [unlines]
    · have hu2 : e.inUse = false := by simpa using hu
      simp only [hu2, Bool.false_eq_true, if_false, ih2]
      simp [unlines]

/-- C27: on a directory hierarchy without cycles, at most `n` directories deep,
`RecursiveList(level)` returns with any recursion budget above `n`, and what it prints is
the listing of the specification: per in-use entry, in table order, a line of `4 * level`
spaces, `[D] ` or `[F] `, the name and a newline, a directory's line being followed at once
by the listing at `level + 1` of the table loaded from its sector; unused entries print
nothing. -/
theorem recursiveList_listing (load : DirDisk) (n : Nat) :
    ∀ (fuel : Nat) (dir : Directory) (level : Int), n < fuel → Hierarchy load n dir = true →
      RecursiveListFuel load fuel dir level
        = some (unlines (listingLines load fuel dir level)) := by
  induction n with
  | zero =>
    intro fuel dir level hf hh
    obtain ⟨f, rfl⟩ : ∃ f, fuel = f + 1 := ⟨fuel - 1, by omega⟩
    simp only [Hierarchy, List.all_eq_true] at hh
    rw [RecursiveListFuel, listingLines]
    apply recursiveListLoop_eq load _ (fun s => listingLines load f s (level + 1))
    intro e he hu hd
    have := hh e he
    simp [hu, hd] at this
  | succ n ih =>
    intro fuel dir level hf hh
    obtain ⟨f, rfl⟩ : ∃ f, fuel = f + 1 := ⟨fuel - 1, by omega⟩
    simp only [Hierarchy, List.all_eq_true] at hh
    rw [RecursiveListFuel, listingLines]
    apply recursiveListLoop_eq load _ (fun s => listingLines load f s (level + 1))
    intro e he hu hd
    have h1 := hh e he
    simp only [hu, hd, Bool.and_self, Bool.not_true, Bool.false_or] at h1
    cases hl : load e.sector with
    | none => rw [hl] at h1; exact absurd h1 Bool.false_ne_true
    | some s =>
      rw [hl] at h1
      exact ⟨s, rfl, ih f s (level + 1) (by omega) h1⟩

/-- C27, on the hierarchy `/a/b/c`: three lines, indented by 0, 4 and 8 spaces. -/
theorem recursiveList_listing_witness :
    RecursiveListFuel abcDisk 3 abcRoot 0
      = some (unlines (listingLines abcDisk 3 abcRoot 0)) ∧
    listingLines abcDisk 3 abcRoot 0
      = [['[', 'D', ']', ' ', 'a'],
         [' ', ' ', ' ', ' ', '[', 'D', ']', ' ', 'b'],
         [' ', ' ', ' ', ' ', ' ', ' ', ' ', ' ', '[', 'F', ']', ' ', 'c']] :=
  ⟨recursiveList_listing abcDisk 2 3 abcRoot 0 (by decide) (by decide), by decide⟩

/-! ## Facts about the Clear calls of Deallocate -/

theorem clearRun_nil (fm : Bitmap) : ClearRun fm fm [] :=
  ⟨rfl, List.nodup_nil, fun _ hk => absurd hk (List.not_mem_nil _)⟩

theorem clearRun_single (fm : Bitmap) (s : Int) (h : Bitmap.Test fm s = true) :
    ClearRun fm (Bitmap.Clear fm s) [s] :=
  ⟨rfl, List.nodup_singleton s, fun k hk => by rw [List.mem_singleton.1 hk]; exact h⟩

theorem clearRun_append (fm fm1 fm2 : Bitmap) (a b : List Int) (ha : ClearRun fm fm1 a)
    (hb : ClearRun fm1 fm2 b) : ClearRun fm fm2 (a ++ b) := by
  obtain ⟨a1, a2, a3⟩ := ha
  obtain ⟨b1, b2, b3⟩ := hb
  have hb4 : ∀ k ∈ b, Bitmap.Test fm k = true ∧ k ∉ a := by
    intro k hk
    have := b3 k hk
    rw [a1, Test_clearList] at this
    simpa using this
  refine ⟨by rw [clearList_append, ← a1, b1], ?_, ?_⟩
  · rw [List.nodup_append]
    exact ⟨a2, b2, fun k hka hkb => (hb4 k hkb).2 hka⟩
  · intro k hk
    rcases List.mem_append.1 hk with h | h
    · exact a3 k h
    · exact (hb4 k h).1

theorem deallocDirectTrace_run (h : FileHeader) (n : Nat) :
    ∀ (i : Nat) (fm fm1 : Bitmap) (tr : List Int),
      deallocDirectTrace h n i fm = some (fm1, tr) →
      ClearRun fm fm1 tr ∧ tr = (List.range' i n).map (fun j => h.dataSectors.getD j (-1)) ∧
      ∀ j, i ≤ j → j < i + n → ∃ s, h.dataSectors[j]? = some s := by
  induction n with
  | zero =>
    intro i fm fm1 tr hr
    simp only [deallocDirectTrace, Option.some.injEq, Prod.mk.injEq] at hr
    obtain ⟨rfl, rfl⟩ := hr
    exact ⟨clearRun_nil fm, rfl, fun j h1 h2 => absurd h2 (by omega)⟩
  | succ n ih =>
    intro i fm fm1 tr hr
    unfold deallocDirectTrace at hr
    cases hs : h.dataSectors[i]? with
    | none => rw [hs] at hr; exact absurd hr (by simp)
    | some s =>
      rw [hs] at hr
      simp only at hr
      by_cases ht : Bitmap.Test fm s = true
      · simp only [ht, if_true] at hr
        cases hrec : deallocDirectTrace h n (i + 1) (Bitmap.Clear fm s) with
        | none => rw [hrec] at hr; exact absurd hr (by simp)
        | some r =>
          rw [hrec] at hr
          simp only [Option.some.injEq, Prod.mk.injEq] at hr
          obtain ⟨rfl, rfl⟩ := hr
          obtain ⟨r1, r2, r3⟩ := ih (i + 1) _ r.1 r.2 hrec
          refine ⟨clearRun_append fm _ r.1 [s] r.2 (clearRun_single fm s ht) r1, ?_, ?_⟩
          · rw [List.range'_succ, List.map_cons, ← r2, List.getD_eq_getElem?_getD, hs]
            rfl
          · intro j h1 h2
            rcases Nat.eq_or_lt_of_le h1 with rfl | hlt
            · exact ⟨s, hs⟩
            · exact r3 j (by omega) (by omega)
      · simp only [ht, if_false] at hr
        exact absurd hr (by simp)

/-- What a completed run of the indirect loop of `Deallocate` says about each of its
iterations `j`: the entry is inside the array, the nested call on the record stored there
returned, and the sectors it cleared come in the run just before the entry itself. -/
theorem deallocIndirectTrace_run (child : Bitmap → FileHeader → Option (Bitmap × List Int))
    (d : Disk) (h : FileHeader)
    (hchild : ∀ fm q fm1 tr, child fm q = some (fm1, tr) → ClearRun fm fm1 tr) (n : Nat) :
    ∀ (i : Nat) (fm fm1 : Bitmap) (tr : List Int),
      deallocIndirectTrace child d h n i fm = some (fm1, tr) →
      ClearRun fm fm1 tr ∧
      ∀ j, i ≤ j → j < i + n → ∃ s fmA fmB trj pre post, h.dataSectors[j]? = some s ∧
        child fmA (d s) = some (fmB, trj) ∧ tr = pre ++ trj ++ s :: post := by
  induction n with
  | zero =>
    intro i fm fm1 tr hr
    simp only [deallocIndirectTrace, Option.some.injEq, Prod.mk.injEq] at hr
    obtain ⟨rfl, rfl⟩ := hr
    exact ⟨clearRun_nil fm, fun j h1 h2 => absurd h2 (by omega)⟩
  | succ n ih =>
    intro i fm fm1 tr hr
    unfold deallocIndirectTrace at hr
    cases hs : h.dataSectors[i]? with
    | none => rw [hs] at hr; exact absurd hr (by simp)
    | some s =>
      rw [hs] at hr
      simp only at hr
      cases hc : child fm (FetchFrom d s) with
      | none => rw [hc] at hr; exact absurd hr (by simp)
      | some c =>
        rw [hc] at hr
        simp only at hr
        by_cases ht : Bitmap.Test c.1 s = true
        · simp only [ht, if_true] at hr
          cases hrec : deallocIndirectTrace child d h n (i + 1) (Bitmap.Clear c.1 s) with
          | none => rw [hrec] at hr; exact absurd hr (by simp)
          | some r =>
            rw [hrec] at hr
            simp only [Option.some.injEq, Prod.mk.injEq] at hr
            obtain ⟨rfl, rfl⟩ := hr
            obtain ⟨r1, r3⟩ := ih (i + 1) _ r.1 r.2 hrec
            have hcr := hchild fm (FetchFrom d s) c.1 c.2 hc
            refine ⟨?_, ?_⟩
            · have := clearRun_append fm c.1 r.1 c.2 (s :: r.2) hcr
                (clearRun_append c.1 _ r.1 [s] r.2 (clearRun_single c.1 s ht) r1)
              exact this
            · intro j h1 h2
              rcases Nat.eq_or_lt_of_le h1 with rfl | hlt
              · exact ⟨s, fm, c.1, c.2, [], r.2, hs, hc, by simp⟩
              · obtain ⟨s2, fmA, fmB, trj, pre, post, e1, e2, e3⟩ :=
                  r3 j (by omega) (by omega)
                exact ⟨s2, fmA, fmB, trj, c.2 ++ s :: pre, post, e1, e2, by rw [e3]; simp⟩
        · simp only [ht, if_false] at hr
          exact absurd hr (by simp)

/-- Facts on a completed `Deallocate`: the bitmap afterwards is the one before with the
sectors of the run cleared, no sector is cleared twice and each was marked before. -/
theorem DeallocateTraceFuel_run (f : Nat) :
    ∀ (fm : Bitmap) (d : Disk) (h : FileHeader) (fm1 : Bitmap) (tr : List Int),
      DeallocateTraceFuel f fm d h = some (fm1, tr) → ClearRun fm fm1 tr := by
  induction f with
  | zero => intro fm d h fm1 tr hr; exact absurd hr (by simp [DeallocateTraceFuel])
  | succ f ih =>
    intro fm d h fm1 tr hr
    unfold DeallocateTraceFuel at hr
    by_cases hl : h.level = 0
    · simp only [hl, if_true] at hr
      exact (deallocDirectTrace_run h _ 0 fm fm1 tr hr).1
    · simp only [hl, if_false] at hr
      exact (deallocIndirectTrace_run _ d h (fun fm q fm1 tr hq => ih fm d q fm1 tr hq)
        _ 0 fm fm1 tr hr).1

theorem deallocDirectTrace_fst (h : FileHeader) (n : Nat) :
    ∀ (i : Nat) (fm : Bitmap),
      (deallocDirectTrace h n i fm).map Prod.fst = deallocDirect h n i fm := by
  induction n with
  | zero => intro i fm; rfl
  | succ n ih =>
    intro i fm
    unfold deallocDirectTrace deallocDirect
    cases h.dataSectors[i]? with
    | none => rfl
    | some s =>
      simp only
      by_cases ht : Bitmap.Test fm s = true
      · simp only [ht, if_true]
        rw [← ih (i + 1) (Bitmap.Clear fm s)]
        cases deallocDirectTrace h n (i + 1) (Bitmap.Clear fm s) <;> rfl
      · simp only [ht, if_false]; rfl

theorem deallocIndirectTrace_fst (child : Bitmap → FileHeader → Option (Bitmap × List Int))
    (child0 : Bitmap → FileHeader → Option Bitmap) (d : Disk) (h : FileHeader)
    (hc : ∀ fm q, (child fm q).map Prod.fst = child0 fm q) (n : Nat) :
    ∀ (i : Nat) (fm : Bitmap),
      (deallocIndirectTrace child d h n i fm).map Prod.fst
        = deallocIndirect child0 d h n i fm := by
  induction n with
  | zero => intro i fm; rfl
  | succ n ih =>
    intro i fm
    unfold deallocIndirectTrace deallocIndirect
    cases h.dataSectors[i]? with
    | none => rfl
    | some s =>
      simp only
      rw [← hc fm (FetchFrom d s)]
      cases child fm (FetchFrom d s) with
      | none => rfl
      | some c =>
        simp only [Option.map_some']
        by_cases ht : Bitmap.Test c.1 s = true
        · simp only [ht, if_true]
          rw [← ih (i + 1) (Bitmap.Clear c.1 s)]
          cases deallocIndirectTrace child d h n (i + 1) (Bitmap.Clear c.1 s) <;> rfl
        · simp only [ht, if_false]; rfl

/-- The recorded run of `Deallocate` leaves the bitmap `Deallocate` leaves. -/
theorem DeallocateTraceFuel_fst (f : Nat) :
    ∀ (fm : Bitmap) (d : Disk) (h : FileHeader),
      (DeallocateTraceFuel f fm d h).map Prod.fst = DeallocateFuel f fm d h := by
  induction f with
  | zero => intro fm d h; rfl
  | succ f ih =>
    intro fm d h
    unfold DeallocateTraceFuel DeallocateFuel
    by_cases hl : h.level = 0
    · simp only [hl, if_true]
      exact deallocDirectTrace_fst h _ 0 fm
    · simp only [hl, if_false]
      exact deallocIndirectTrace_fst _ _ d h (fun fm q => ih fm d q) _ 0 fm

theorem inTree_inv (d : Disk) (h p : FileHeader) (hp : InTree d h p) :
    p = h ∨ ∃ (i : Nat) (sec : Int), h.level ≠ 0 ∧ (i : Int) < h.numSectors ∧
      h.dataSectors[i]? = some sec ∧ InTree d (d sec) p := by
  induction hp with
  | root => exact Or.inl rfl
  | nested q j s _ hne hj hds ih =>
    rcases ih with rfl | ⟨i, sec, h1, h2, h3, h4⟩
    · exact Or.inr ⟨j, s, hne, hj, hds, InTree.root⟩
    · exact Or.inr ⟨i, sec, h1, h2, h3, InTree.nested q j s h4 hne hj hds⟩

theorem inTree_of_child (d : Disk) (h : FileHeader) (i : Nat) (sec : Int) (p : FileHeader)
    (hne : h.level ≠ 0) (hi : (i : Int) < h.numSectors) (hds : h.dataSectors[i]? = some sec)
    (hp : InTree d (d sec) p) : InTree d h p := by
  induction hp with
  | root => exact InTree.nested h i sec InTree.root hne hi hds
  | nested q j s _ hne2 hj hds2 ih => exact InTree.nested q j s ih hne2 hj hds2

theorem refs_inv (d : Disk) (h : FileHeader) (k : Int) (hr : Refs d h k) :
    (∃ i : Nat, (i : Int) < h.numSectors ∧ h.dataSectors[i]? = some k) ∨
    ∃ (i : Nat) (sec : Int), h.level ≠ 0 ∧ (i : Int) < h.numSectors ∧
      h.dataSectors[i]? = some sec ∧ Refs d (d sec) k := by
  obtain ⟨p, hp, hk⟩ := hr
  rcases inTree_inv d h p hp with rfl | ⟨i, sec, h1, h2, h3, h4⟩
  · exact Or.inl hk
  · exact Or.inr ⟨i, sec, h1, h2, h3, p, h4, hk⟩

/-- A completed `Deallocate` has called `Clear` on every sector reachable from the
header. -/
theorem refs_mem_trace (f : Nat) :
    ∀ (fm : Bitmap) (d : Disk) (h : FileHeader) (fm1 : Bitmap) (tr : List Int),
      DeallocateTraceFuel f fm d h = some (fm1, tr) → ∀ k, Refs d h k → k ∈ tr := by
  induction f with
  | zero => intro fm d h fm1 tr hr; exact absurd hr (by simp [DeallocateTraceFuel])
  | succ f ih =>
    intro fm d h fm1 tr hr k hk
    unfold DeallocateTraceFuel at hr
    by_cases hl : h.level = 0
    · simp only [hl, if_true] at hr
      obtain ⟨_, r2, _⟩ := deallocDirectTrace_run h _ 0 fm fm1 tr hr
      rcases refs_inv d h k hk with ⟨i, h1, h2⟩ | ⟨i, sec, h1, _⟩
      · rw [r2, List.mem_map]
        refine ⟨i, ?_, ?_⟩
        · rw [List.mem_range']
          exact ⟨i, by omega, by simp⟩
        · rw [List.getD_eq_getElem?_getD, h2]; rfl
      · exact absurd hl h1
    · simp only [hl, if_false] at hr
      obtain ⟨_, r2⟩ := deallocIndirectTrace_run _ d h
        (fun fm q fm1 tr hq => DeallocateTraceFuel_run f fm d q fm1 tr hq) _ 0 fm fm1 tr hr
      rcases refs_inv d h k hk with ⟨i, h1, h2⟩ | ⟨i, sec, _, h1, h2, h3⟩
      · obtain ⟨s, _, _, trj, pre, post, e1, _, e3⟩ := r2 i (by omega) (by omega)
        rw [h2] at e1
        obtain rfl : k = s := Option.some.inj e1
        rw [e3]; simp
      · obtain ⟨s, fmA, fmB, trj, pre, post, e1, e2, e3⟩ := r2 i (by omega) (by omega)
        rw [h2] at e1
        obtain rfl : sec = s := Option.some.inj e1
        have := ih fmA d (d sec) fmB trj e2 k h3
        rw [e3]; simp [this]

/-- In a completed `Deallocate`, the `Clear` on the sector of a nested record comes after
the `Clear` on every sector reachable from that record. -/
theorem trace_order (f : Nat) :
    ∀ (fm : Bitmap) (d : Disk) (h : FileHeader) (fm1 : Bitmap) (tr : List Int),
      DeallocateTraceFuel f fm d h = some (fm1, tr) →
      ∀ p, InTree d h p → p.level ≠ 0 → ∀ (i : Nat) (sec : Int),
        (i : Int) < p.numSectors → p.dataSectors[i]? = some sec →
        ∃ pre post, tr = pre ++ sec :: post ∧ ∀ k, Refs d (d sec) k → k ∈ pre := by
  induction f with
  | zero => intro fm d h fm1 tr hr; exact absurd hr (by simp [DeallocateTraceFuel])
  | succ f ih =>
    intro fm d h fm1 tr hr p hp hpl i sec hi hds
    unfold DeallocateTraceFuel at hr
    by_cases hl : h.level = 0
    · rcases inTree_inv d h p hp with rfl | ⟨_, _, h1, _⟩
      · exact absurd hl hpl
      · exact absurd hl h1
    · simp only [hl, if_false] at hr
      obtain ⟨_, r2⟩ := deallocIndirectTrace_run _ d h
        (fun fm q fm1 tr hq => DeallocateTraceFuel_run f fm d q fm1 tr hq) _ 0 fm fm1 tr hr
      rcases inTree_inv d h p hp with rfl | ⟨i0, sec0, _, h2, h3, h4⟩
      · obtain ⟨s, fmA, fmB, trj, pre, post, e1, e2, e3⟩ := r2 i (by omega) (by omega)
        rw [hds] at e1
        obtain rfl : sec = s := Option.some.inj e1
        refine ⟨pre ++ trj, post, by rw [e3], ?_⟩
        intro k hk
        exact List.mem_append_right _ (refs_mem_trace f fmA d (d sec) fmB trj e2 k hk)
      · obtain ⟨s, fmA, fmB, trj, pre0, post0, e1, e2, e3⟩ := r2 i0 (by omega) (by omega)
        rw [h3] at e1
        obtain rfl : sec0 = s := Option.some.inj e1
        obtain ⟨pre, post, q1, q2⟩ := ih fmA d (d sec0) fmB trj e2 p h4 hpl i sec hi hds
        refine ⟨pre0 ++ pre, post ++ sec0 :: post0, by rw [e3, q1]; simp, ?_⟩
        intro k hk
        exact List.mem_append_right _ (q2 k hk)

/-! ## Facts about the sectors Allocate claims -/

theorem FindAndSet_mono (fm : Bitmap) (k : Int) (h : Bitmap.Test fm k = true) :
    Bitmap.Test (Bitmap.FindAndSet fm).2 k = true := by
  rcases FindAndSet_spec fm with ⟨_, _, _, h4, _, _⟩ | ⟨_, h2⟩
  · rw [h4, h]; rfl
  · rw [h2]; exact h

theorem allocDirect_mono (k : Int) (n : Nat) : ∀ (i : Nat) (fm : Bitmap) (h : FileHeader),
    Bitmap.Test fm k = true → Bitmap.Test (allocDirect n i fm h).2.1 k = true := by
  induction n with
  | zero => intro i fm h hk; simpa [allocDirect] using hk
  | succ n ih =>
    intro i fm h hk
    rw [allocDirect]
    by_cases hi : i < h.dataSectors.length
    · by_cases hr : 0 ≤ (Bitmap.FindAndSet fm).1
      · simp only [hi, hr, if_true]
        exact ih _ _ _ (FindAndSet_mono fm k hk)
      · simp only [hi, hr, if_true, if_false]
        exact FindAndSet_mono fm k hk
    · simp only [hi, if_false]
      exact hk

theorem allocIndirect_mono (g : Geometry) (junk : Int)
    (child : Bitmap → Disk → FileHeader → Int → AllocResult) (cap : Int) (k : Int)
    (hchild : ∀ fm d h sz, Bitmap.Test fm k = true →
      Bitmap.Test (child fm d h sz).freeMap k = true) (n : Nat) :
    ∀ (i : Nat) (rem : Int) (fm : Bitmap) (d : Disk) (h : FileHeader),
      Bitmap.Test fm k = true →
      Bitmap.Test (allocIndirect g junk child cap n i rem fm d h).freeMap k = true := by
  induction n with
  | zero => intro i rem fm d h hk; simpa [allocIndirect] using hk
  | succ n ih =>
    intro i rem fm d h hk
    rw [allocIndirect]
    by_cases hi : i < h.dataSectors.length
    · by_cases hr : 0 ≤ (Bitmap.FindAndSet fm).1
      · simp only [hi, hr, if_true]
        generalize (if rem > cap then cap else rem) = sz
        have hc2 := hchild (Bitmap.FindAndSet fm).2 d (FileHeader.fresh g junk) sz
          (FindAndSet_mono fm k hk)
        generalize child (Bitmap.FindAndSet fm).2 d (FileHeader.fresh g junk) sz = c at hc2
        rcases hc : c.ret with _ | _ | _
        · simpa using hc2
        · simpa using hc2
        · by_cases hb : rem - sz ≤ 0
          · simpa [hb] using hc2
          · simp only [hb, if_false]
            exact ih _ _ _ _ _ hc2
      · simp only [hi, hr, if_true, if_false]
        exact FindAndSet_mono fm k hk
    · simp only [hi, if_false]
      exact hk

/-- Whatever `Allocate` returns, a sector marked before the call is marked after it. -/
theorem AllocateFuel_mono (g : Geometry) (junk : Int) (k : Int) (f : Nat) :
    ∀ (fm : Bitmap) (d : Disk) (this : FileHeader) (s : Int),
      Bitmap.Test fm k = true → Bitmap.Test (AllocateFuel g junk f fm d this s).freeMap k = true := by
  induction f with
  | zero => intro fm d this s hk; simpa [AllocateFuel] using hk
  | succ f ih =>
    intro fm d this s hk
    by_cases h0 : s ≤ g.MaxDirectSize
    · simp only [AllocateFuel, h0, if_true]
      split
      · exact hk
      · exact allocDirect_mono k _ _ _ _ hk
    · by_cases h1 : s ≤ g.MaxSingleIndirectSize
      · rw [AllocateFuel_single g junk f fm d this s h0 h1]
        split
        · exact hk
        · exact allocIndirect_mono g junk _ _ k ih _ _ _ _ _ _ hk
      · by_cases h2 : s ≤ g.MaxDoubleIndirectSize
        · rw [AllocateFuel_double g junk f fm d this s h0 h1 h2]
          split
          · exact hk
          · exact allocIndirect_mono g junk _ _ k ih _ _ _ _ _ _ hk
        · by_cases h3 : s ≤ g.MaxTripleIndirectSize
          · rw [AllocateFuel_triple g junk f fm d this s h0 h1 h2 h3]
            split
            · exact hk
            · exact allocIndirect_mono g junk _ _ k ih _ _ _ _ _ _ hk
          · rw [AllocateFuel_too_large g junk f fm d this s h0 h1 h2 h3]
            exact hk

/-- What a successful `Allocate` on a fresh header leaves behind, in terms of the two
bitmaps: the length of the bitmap is kept; the disk changed only in sectors that were clear
and are now marked; on every disk that holds those sectors unchanged the tree has the
shape `TreeOk`, and `Deallocate` completes, restores the bitmap and calls `Clear` once on
each of those sectors and on no other. -/
theorem allocate_summary (g : Geometry) (junk junk0 : Int) (hSS : 0 < g.SectorSize)
    (fm : Bitmap) (d : Disk) (s : Int) (hs0 : 0 ≤ s) (hs : s ≤ g.MaxTripleIndirectSize)
    (hret : (Allocate g junk fm d (FileHeader.fresh g junk0) s).ret = some true) :
    (Allocate g junk fm d (FileHeader.fresh g junk0) s).freeMap.length = fm.length ∧
    (∀ k, ¬ (Bitmap.Test fm k = false ∧
        Bitmap.Test (Allocate g junk fm d (FileHeader.fresh g junk0) s).freeMap k = true) →
      (Allocate g junk fm d (FileHeader.fresh g junk0) s).disk k = d k) ∧
    ∀ d2, AgreeOnClaimed fm (Allocate g junk fm d (FileHeader.fresh g junk0) s).freeMap
        (Allocate g junk fm d (FileHeader.fresh g junk0) s).disk d2 →
      TreeOk g 4 d2 (Allocate g junk fm d (FileHeader.fresh g junk0) s).hdr ∧
      ∃ tr, DeallocateTraceFuel 4
          (Allocate g junk fm d (FileHeader.fresh g junk0) s).freeMap d2
          (Allocate g junk fm d (FileHeader.fresh g junk0) s).hdr = some (fm, tr) ∧
        tr.Nodup ∧
        ∀ k, k ∈ tr ↔ (Bitmap.Test fm k = false ∧
          Bitmap.Test (Allocate g junk fm d (FileHeader.fresh g junk0) s).freeMap k = true) := by
  obtain ⟨l, P⟩ := alloc_post_triple g junk hSS 0 0 0 fm d (FileHeader.fresh g junk0) s
    (fresh_length g junk0) hs0 hs hret
  have hl : ∀ k ∈ l, Bitmap.Test fm k = false ∧
      Bitmap.Test (Allocate g junk fm d (FileHeader.fresh g junk0) s).freeMap k = true := by
    intro k hk
    refine ⟨P.wasClear k hk, ?_⟩
    have := P.nowSet k
    simp only [hk, decide_True, Bool.or_true] at this
    exact this
  refine ⟨P.len, ?_, ?_⟩
  · intro k hk
    exact P.frame k (fun hkl => hk (hl k hkl))
  · intro d2 hd2
    refine ⟨tree_triple g junk hSS 0 0 fm d (FileHeader.fresh g junk0) s
      (fresh_length g junk0) hs0 hs hret d2 hd2, ?_⟩
    have hD := P.dealloc (Allocate g junk fm d (FileHeader.fresh g junk0) s).freeMap d2
      (fun k hk => hd2 k (hl k hk).1 (hl k hk).2) (fun k hk => (hl k hk).2)
    have hrest := clearList_restores fm
      (Allocate g junk fm d (FileHeader.fresh g junk0) s).freeMap l P.len P.wasClear P.nowSet
    rw [hrest] at hD
    have hfst := DeallocateTraceFuel_fst 4
      (Allocate g junk fm d (FileHeader.fresh g junk0) s).freeMap d2
      (Allocate g junk fm d (FileHeader.fresh g junk0) s).hdr
    have hD2 : DeallocateFuel 4 (Allocate g junk fm d (FileHeader.fresh g junk0) s).freeMap d2
        (Allocate g junk fm d (FileHeader.fresh g junk0) s).hdr = some fm := hD
    rw [hD2] at hfst
    cases hT : DeallocateTraceFuel 4
        (Allocate g junk fm d (FileHeader.fresh g junk0) s).freeMap d2
        (Allocate g junk fm d (FileHeader.fresh g junk0) s).hdr with
    | none => rw [hT] at hfst; exact absurd hfst (by simp)
    | some r =>
      rw [hT] at hfst
      simp only [Option.map_some', Option.some.injEq] at hfst
      obtain ⟨fm1, tr⟩ := r
      simp only at hfst
      rw [hfst] at hT
      obtain ⟨c1, c2, c3⟩ := DeallocateTraceFuel_run 4 _ d2 _ fm tr hT
      refine ⟨tr, by rw [hfst], c2, ?_⟩
      intro k
      have ht : Bitmap.Test fm k = (Bitmap.Test
          (Allocate g junk fm d (FileHeader.fresh g junk0) s).freeMap k && !decide (k ∈ tr)) := by
        conv_lhs => rw [c1]
        exact Test_clearList _ _ _
      constructor
      · intro hk
        refine ⟨?_, c3 k hk⟩
        rw [ht]; simp [hk]
      · intro ⟨h1, h2⟩
        rw [ht, h2] at h1
        simpa using h1

/-- C21: on the tree built by a successful `Allocate` (`0 ≤ s ≤ MaxTripleIndirectSize`,
fresh header), `Deallocate` completes, so every `ASSERT(freeMap->Test(sector))` it runs
holds, and it gives back the bitmap from before `Allocate`; in the list of its `Clear`
calls no sector occurs twice, and the sectors in it are exactly those `Allocate` claimed
(clear before `Allocate`, marked after it); they include every sector reachable from the
header; and the sector of a nested record comes in that list after every sector reachable
from that record. -/
theorem deallocate_clears_once (g : Geometry) (junk junk0 : Int) (hSS : 0 < g.SectorSize)
    (fm : Bitmap) (d : Disk) (s : Int) (hs0 : 0 ≤ s) (hs : s ≤ g.MaxTripleIndirectSize)
    (hret : (Allocate g junk fm d (FileHeader.fresh g junk0) s).ret = some true) :
    ∃ tr,
      DeallocateTraceFuel 4 (Allocate g junk fm d (FileHeader.fresh g junk0) s).freeMap
        (Allocate g junk fm d (FileHeader.fresh g junk0) s).disk
        (Allocate g junk fm d (FileHeader.fresh g junk0) s).hdr = some (fm, tr) ∧
      Deallocate (Allocate g junk fm d (FileHeader.fresh g junk0) s).freeMap
        (Allocate g junk fm d (FileHeader.fresh g junk0) s).disk
        (Allocate g junk fm d (FileHeader.fresh g junk0) s).hdr = some fm ∧
      tr.Nodup ∧
      (∀ k, k ∈ tr ↔ (Bitmap.Test fm k = false ∧
        Bitmap.Test (Allocate g junk fm d (FileHeader.fresh g junk0) s).freeMap k = true)) ∧
      (∀ k, Refs (Allocate g junk fm d (FileHeader.fresh g junk0) s).disk
        (Allocate g junk fm d (FileHeader.fresh g junk0) s).hdr k → k ∈ tr) ∧
      ∀ p, InTree (Allocate g junk fm d (FileHeader.fresh g junk0) s).disk
          (Allocate g junk fm d (FileHeader.fresh g junk0) s).hdr p → p.level ≠ 0 →
        ∀ (i : Nat) (sec : Int), (i : Int) < p.numSectors → p.dataSectors[i]? = some sec →
          ∃ pre post, tr = pre ++ sec :: post ∧
            ∀ k, Refs (Allocate g junk fm d (FileHeader.fresh g junk0) s).disk
              (FetchFrom (Allocate g junk fm d (FileHeader.fresh g junk0) s).disk sec) k →
              k ∈ pre := by
  obtain ⟨_, _, h3⟩ := allocate_summary g junk junk0 hSS fm d s hs0 hs hret
  obtain ⟨_, tr, t1, t2, t3⟩ := h3 _ (fun _ _ _ => rfl)
  refine ⟨tr, t1, ?_, t2, t3, refs_mem_trace 4 _ _ _ fm tr t1, trace_order 4 _ _ _ fm tr t1⟩
  have := DeallocateTraceFuel_fst 4 (Allocate g junk fm d (FileHeader.fresh g junk0) s).freeMap
    (Allocate g junk fm d (FileHeader.fresh g junk0) s).disk
    (Allocate g junk fm d (FileHeader.fresh g junk0) s).hdr
  rw [t1] at this
  exact this.symm

/-- C21, on the small geometry: the nine sectors of a file of 9 bytes are cleared in the
order 2, 3, 1, 5, 6, 4, 0, 8, 7: data sectors, then the record above them. -/
theorem deallocate_clears_once_witness :
    ∃ tr,
      DeallocateTraceFuel 4
        (Allocate tinyGeometry 0 (clearMap 12) (blankDisk tinyGeometry)
          (FileHeader.fresh tinyGeometry 0) 9).freeMap
        (Allocate tinyGeometry 0 (clearMap 12) (blankDisk tinyGeometry)
          (FileHeader.fresh tinyGeometry 0) 9).disk
        (Allocate tinyGeometry 0 (clearMap 12) (blankDisk tinyGeometry)
          (FileHeader.fresh tinyGeometry 0) 9).hdr = some (clearMap 12, tr) ∧
      tr = [2, 3, 1, 5, 6, 4, 0, 8, 7] ∧ tr.Nodup :=
  have he : DeallocateTraceFuel 4
      (Allocate tinyGeometry 0 (clearMap 12) (blankDisk tinyGeometry)
        (FileHeader.fresh tinyGeometry 0) 9).freeMap
      (Allocate tinyGeometry 0 (clearMap 12) (blankDisk tinyGeometry)
        (FileHeader.fresh tinyGeometry 0) 9).disk
      (Allocate tinyGeometry 0 (clearMap 12) (blankDisk tinyGeometry)
        (FileHeader.fresh tinyGeometry 0) 9).hdr
      = some (clearMap 12, [2, 3, 1, 5, 6, 4, 0, 8, 7]) := by decide
  (deallocate_clears_once tinyGeometry 0 0 (by decide) (clearMap 12) (blankDisk tinyGeometry) 9
    (by decide) (by decide) (by decide)).elim
    (fun tr h => ⟨tr, h.1, (Prod.mk.inj (Option.some.inj (h.1.symm.trans he))).2, h.2.2.1⟩)

/-- C22: whatever `Allocate` returns, every sector marked before the call is marked after
it. After a successful `Allocate` on a fresh header, every sector stored in an entry of a
record of the tree was clear before the call and is marked after it. When a second
`Allocate` succeeds on the bitmap and disk the first one left, no sector stored in the tree
of the first file (read before or after the second call) is stored in the tree of the
second. -/
theorem allocate_disjoint (g : Geometry) (junk junk0 : Int) (hSS : 0 < g.SectorSize)
    (fm : Bitmap) (d : Disk) (s : Int) (hs0 : 0 ≤ s) (hs : s ≤ g.MaxTripleIndirectSize)
    (hret : (Allocate g junk fm d (FileHeader.fresh g junk0) s).ret = some true) :
    (∀ (fm0 : Bitmap) (d0 : Disk) (this : FileHeader) (s0 k : Int),
      Bitmap.Test fm0 k = true →
      Bitmap.Test (Allocate g junk fm0 d0 this s0).freeMap k = true) ∧
    (∀ k, Refs (Allocate g junk fm d (FileHeader.fresh g junk0) s).disk
        (Allocate g junk fm d (FileHeader.fresh g junk0) s).hdr k →
      Bitmap.Test fm k = false ∧
      Bitmap.Test (Allocate g junk fm d (FileHeader.fresh g junk0) s).freeMap k = true) ∧
    ∀ (junk1 s2 : Int), 0 ≤ s2 → s2 ≤ g.MaxTripleIndirectSize →
      (Allocate g junk (Allocate g junk fm d (FileHeader.fresh g junk0) s).freeMap
        (Allocate g junk fm d (FileHeader.fresh g junk0) s).disk
        (FileHeader.fresh g junk1) s2).ret = some true →
      ∀ k,
        (Refs (Allocate g junk fm d (FileHeader.fresh g junk0) s).disk
            (Allocate g junk fm d (FileHeader.fresh g junk0) s).hdr k ∨
          Refs (Allocate g junk (Allocate g junk fm d (FileHeader.fresh g junk0) s).freeMap
              (Allocate g junk fm d (FileHeader.fresh g junk0) s).disk
              (FileHeader.fresh g junk1) s2).disk
            (Allocate g junk fm d (FileHeader.fresh g junk0) s).hdr k) →
        ¬ Refs (Allocate g junk (Allocate g junk fm d (FileHeader.fresh g junk0) s).freeMap
              (Allocate g junk fm d (FileHeader.fresh g junk0) s).disk
              (FileHeader.fresh g junk1) s2).disk
            (Allocate g junk (Allocate g junk fm d (FileHeader.fresh g junk0) s).freeMap
              (Allocate g junk fm d (FileHeader.fresh g junk0) s).disk
              (FileHeader.fresh g junk1) s2).hdr k := by
  have key : ∀ (fmA : Bitmap) (dA : Disk) (jA sA : Int), 0 ≤ sA →
      sA ≤ g.MaxTripleIndirectSize →
      (Allocate g junk fmA dA (FileHeader.fresh g jA) sA).ret = some true →
      ∀ d2, AgreeOnClaimed fmA (Allocate g junk fmA dA (FileHeader.fresh g jA) sA).freeMap
          (Allocate g junk fmA dA (FileHeader.fresh g jA) sA).disk d2 →
        ∀ k, Refs d2 (Allocate g junk fmA dA (FileHeader.fresh g jA) sA).hdr k →
          Bitmap.Test fmA k = false ∧
          Bitmap.Test (Allocate g junk fmA dA (FileHeader.fresh g jA) sA).freeMap k = true := by
    intro fmA dA jA sA h0 h1 hr d2 hd2 k hk
    obtain ⟨_, _, h3⟩ := allocate_summary g junk jA hSS fmA dA sA h0 h1 hr
    obtain ⟨_, tr, t1, _, t3⟩ := h3 d2 hd2
    exact (t3 k).1 (refs_mem_trace 4 _ _ _ fmA tr t1 k hk)
  refine ⟨fun fm0 d0 this s0 k hk => AllocateFuel_mono g junk k 4 fm0 d0 this s0 hk,
    key fm d junk0 s hs0 hs hret _ (fun _ _ _ => rfl), ?_⟩
  intro junk1 s2 h20 h21 hret2 k hk1 hk2
  have c2 := key _ _ junk1 s2 h20 h21 hret2 _ (fun _ _ _ => rfl) k hk2
  obtain ⟨_, hframe, _⟩ := allocate_summary g junk junk1 hSS _ _ s2 h20 h21 hret2
  have c1 : Bitmap.Test (Allocate g junk fm d (FileHeader.fresh g junk0) s).freeMap k
      = true := by
    rcases hk1 with hk1 | hk1
    · exact (key fm d junk0 s hs0 hs hret _ (fun _ _ _ => rfl) k hk1).2
    · refine (key fm d junk0 s hs0 hs hret _ ?_ k hk1).2
      intro j _ hj2
      exact hframe j (fun hc => by rw [hj2] at hc; exact absurd hc.1 (by simp))
  rw [c2.1] at c1
  exact absurd c1 (by simp)

/-- C22, on the small geometry: after a file of 5 bytes, a file of 3 bytes; sector 0, held
by entry 0 of the first header, was clear and is marked, and is not among the sectors of
the second file. -/
theorem allocate_disjoint_witness :
    (Bitmap.Test (clearMap 16) 0 = false ∧
      Bitmap.Test (Allocate tinyGeometry 0 (clearMap 16) (blankDisk tinyGeometry)
        (FileHeader.fresh tinyGeometry 0) 5).freeMap 0 = true) ∧
    ¬ Refs
      (Allocate tinyGeometry 0
        (Allocate tinyGeometry 0 (clearMap 16) (blankDisk tinyGeometry)
          (FileHeader.fresh tinyGeometry 0) 5).freeMap
        (Allocate tinyGeometry 0 (clearMap 16) (blankDisk tinyGeometry)
          (FileHeader.fresh tinyGeometry 0) 5).disk (FileHeader.fresh tinyGeometry 0) 3).disk
      (Allocate tinyGeometry 0
        (Allocate tinyGeometry 0 (clearMap 16) (blankDisk tinyGeometry)
          (FileHeader.fresh tinyGeometry 0) 5).freeMap
        (Allocate tinyGeometry 0 (clearMap 16) (blankDisk tinyGeometry)
          (FileHeader.fresh tinyGeometry 0) 5).disk (FileHeader.fresh tinyGeometry 0) 3).hdr
      0 :=
  have h := allocate_disjoint tinyGeometry 0 0 (by decide) (clearMap 16)
    (blankDisk tinyGeometry) 5 (by decide) (by decide) (by decide)
  have hr : Refs (Allocate tinyGeometry 0 (clearMap 16) (blankDisk tinyGeometry)
        (FileHeader.fresh tinyGeometry 0) 5).disk
      (Allocate tinyGeometry 0 (clearMap 16) (blankDisk tinyGeometry)
        (FileHeader.fresh tinyGeometry 0) 5).hdr 0 :=
    ⟨_, InTree.root, 0, by decide, by decide⟩
  ⟨h.2.1 0 hr, h.2.2 0 3 (by decide) (by decide) (by decide) 0 (Or.inl hr)⟩

/-! ## Facts about array bounds -/

/-- The `numSectors` that `Allocate` computes for a size it accepts fits the table. -/
theorem numSectors_bounds (g : Geometry) (hSS : 0 < g.SectorSize) (s : Int) (hs0 : 0 ≤ s)
    (hs : s ≤ g.MaxTripleIndirectSize) :
    0 ≤ divRoundUp s (g.childCapacity (requiredLevel g s)) ∧
    divRoundUp s (g.childCapacity (requiredLevel g s)) ≤ g.NumDirect := by
  obtain ⟨b1, b2, _⟩ := requiredLevel_least g s hs
  have hSS2 : (0 : Int) < g.SectorSize := by exact_mod_cast hSS
  by_cases h0 : s ≤ g.MaxDirectSize
  · rw [requiredLevel_eq_zero g s h0]
    simp only [Geometry.childCapacity]
    exact ⟨(divRoundUp_spec s _ hs0 hSS2).1,
      divRoundUp_le s _ _ hs0 hSS2 (by rw [← maxDirect_eq]; exact h0)⟩
  · have hlow : g.MaxDirectSize < s := by omega
    have hcap := childCapacity_pos g s hlow hs
    refine ⟨(divRoundUp_spec s _ hs0 hcap).1, divRoundUp_le s _ _ hs0 hcap ?_⟩
    rw [← maxSizeAt_succ g _ (requiredLevel_pos g s hlow) b1]
    exact b2

theorem tree_numSectors (g : Geometry) (hSS : 0 < g.SectorSize) (f : Nat) (d : Disk)
    (h : FileHeader) (ht : TreeOk g (f + 1) d h) :
    0 ≤ h.numSectors ∧ h.numSectors ≤ g.NumDirect := by
  obtain ⟨t1, t2, _, t4, _⟩ := ht
  rw [t4]
  exact numSectors_bounds g hSS h.numBytes t1 t2

/-- On a tree of the shape `TreeOk`, every index `ByteToSector` computes for an offset of
the file is inside `[0, numSectors)` of the record it indexes, and that `numSectors` is at
most the capacity of the table. -/
theorem trace_in_bounds (g : Geometry) (hSS : 0 < g.SectorSize) (f : Nat) :
    ∀ (d : Disk) (h : FileHeader) (o : Int), TreeOk g f d h → 0 ≤ o → o < h.numBytes →
      ∃ k tr, ByteToSectorTraceFuel g f d h o = some (k, tr) ∧
        ∀ p ∈ tr, 0 ≤ p.1 ∧ p.1 < p.2 ∧ p.2 ≤ g.NumDirect := by
  induction f with
  | zero => intro d h o ht; exact absurd ht (by simp [TreeOk])
  | succ f ih =>
    intro d h o ht ho0 ho
    have ht2 := ht
    have hns := (tree_numSectors g hSS f d h ht).2
    obtain ⟨t1, t2, t3, t4, t5⟩ := ht2
    by_cases hlvl : h.level = 0
    · have hreq : requiredLevel g h.numBytes = 0 := by rw [t3] at hlvl; omega
      rw [hreq] at t4
      simp only [Geometry.childCapacity] at t4
      have hSS2 : (0 : Int) < g.SectorSize := by exact_mod_cast hSS
      obtain ⟨e1, _⟩ := tdiv_tmod_nonneg o g.SectorSize ho0 hSS2
      obtain ⟨_, _, q2⟩ := divRoundUp_spec h.numBytes g.SectorSize t1 hSS2
      have hidx0 : 0 ≤ o / (g.SectorSize : Int) := Int.ediv_nonneg ho0 (le_of_lt hSS2)
      have hidx : o / (g.SectorSize : Int) < h.numSectors := by
        rw [t4]; exact Int.ediv_lt_of_lt_mul hSS2 (by omega)
      obtain ⟨sec, s1, _, _⟩ := t5 (o / (g.SectorSize : Int)).toNat
        (by rw [Int.toNat_of_nonneg hidx0]; exact hidx)
      refine ⟨sec, [(o / (g.SectorSize : Int), h.numSectors)], ?_, ?_⟩
      · simp [ByteToSectorTraceFuel, hlvl, FileHeader.sectorAt, e1, hidx0, s1]
      · intro p hp
        simp only [List.mem_singleton] at hp
        subst hp
        exact ⟨hidx0, hidx, hns⟩
    · have hlow : g.MaxDirectSize < h.numBytes := by
        by_contra hle
        rw [t3, requiredLevel_eq_zero g _ (by omega)] at hlvl
        exact hlvl rfl
      obtain ⟨b1, _, _⟩ := requiredLevel_least g h.numBytes t2
      have hpos := requiredLevel_pos g h.numBytes hlow
      have hcap := childCapacity_pos g h.numBytes hlow t2
      obtain ⟨e1, e2⟩ := tdiv_tmod_nonneg o _ ho0 hcap
      obtain ⟨_, _, q2⟩ := divRoundUp_spec h.numBytes _ t1 hcap
      have hidx0 : 0 ≤ o / g.childCapacity (requiredLevel g h.numBytes) :=
        Int.ediv_nonneg ho0 (le_of_lt hcap)
      have hidx : o / g.childCapacity (requiredLevel g h.numBytes) < h.numSectors := by
        rw [t4]; exact Int.ediv_lt_of_lt_mul hcap (by omega)
      have hcast : (((o / g.childCapacity (requiredLevel g h.numBytes)).toNat : Nat) : Int)
          = o / g.childCapacity (requiredLevel g h.numBytes) := Int.toNat_of_nonneg hidx0
      obtain ⟨sec, s1, _, _⟩ := t5 (o / g.childCapacity (requiredLevel g h.numBytes)).toNat
        (by rw [hcast]; exact hidx)
      obtain ⟨c1, _, c3, _, _⟩ := tree_child g f d h ht hlvl _ sec
        (by rw [hcast]; exact hidx) s1
      rw [hcast] at c3
      have hmod0 : 0 ≤ o % g.childCapacity (requiredLevel g h.numBytes) :=
        Int.emod_nonneg o (ne_of_gt hcap)
      have hmodlt : o % g.childCapacity (requiredLevel g h.numBytes)
          < g.childCapacity (requiredLevel g h.numBytes) := Int.emod_lt_of_pos o hcap
      have hdm := Int.ediv_add_emod o (g.childCapacity (requiredLevel g h.numBytes))
      have hcomm : g.childCapacity (requiredLevel g h.numBytes)
            * (o / g.childCapacity (requiredLevel g h.numBytes))
          = o / g.childCapacity (requiredLevel g h.numBytes)
            * g.childCapacity (requiredLevel g h.numBytes) := Int.mul_comm _ _
      have hmod : o % g.childCapacity (requiredLevel g h.numBytes) < (d sec).numBytes := by
        rw [c3]
        exact lt_min (by omega) hmodlt
      obtain ⟨k, tr, r1, r3⟩ := ih d (d sec) _ c1 hmod0 hmod
      refine ⟨k, (o / g.childCapacity (requiredLevel g h.numBytes), h.numSectors) :: tr,
        ?_, ?_⟩
      · rw [ByteToSectorTraceFuel_level g f d h o _ hpos b1 t3]
        simp only [byteToSectorTraceVia, FileHeader.sectorAt, e1, e2, hidx0, if_true, s1,
          FetchFrom, r1]
      · intro p hp
        rcases List.mem_cons.1 hp with rfl | hp
        · exact ⟨hidx0, hidx, hns⟩
        · exact r3 p hp

/-- C28: for `0 ≤ s ≤ MaxTripleIndirectSize` the `numSectors` that `Allocate` computes,
whatever header it is called on and whatever it returns, is between 0 and the capacity
`NumDirect` of `dataSectors`; and after a successful `Allocate` on a fresh header,
`ByteToSector` returns for every offset in `[0, s)`, and each index it computes on the
way, in the header and in every nested record it visits, is at least 0 and below the
`numSectors` of the record indexed, which is at most `NumDirect`. -/
theorem accesses_in_bounds (g : Geometry) (junk junk0 : Int) (hSS : 0 < g.SectorSize)
    (fm : Bitmap) (d : Disk) (s : Int) (hs0 : 0 ≤ s) (hs : s ≤ g.MaxTripleIndirectSize) :
    (∀ this : FileHeader,
      0 ≤ (Allocate g junk fm d this s).hdr.numSectors ∧
      (Allocate g junk fm d this s).hdr.numSectors ≤ g.NumDirect) ∧
    ((Allocate g junk fm d (FileHeader.fresh g junk0) s).ret = some true →
      ∀ o : Int, 0 ≤ o → o < s →
        ∃ k tr,
          ByteToSectorTraceFuel g 4
            (Allocate g junk fm d (FileHeader.fresh g junk0) s).disk
            (Allocate g junk fm d (FileHeader.fresh g junk0) s).hdr o = some (k, tr) ∧
          ByteToSector g (Allocate g junk fm d (FileHeader.fresh g junk0) s).disk
            (Allocate g junk fm d (FileHeader.fresh g junk0) s).hdr o = some k ∧
          ∀ p ∈ tr, 0 ≤ p.1 ∧ p.1 < p.2 ∧ p.2 ≤ g.NumDirect) := by
  constructor
  · intro this
    rw [(Allocate_hdr g junk fm d this s hs).2.2]
    exact numSectors_bounds g hSS s hs0 hs
  · intro hret o ho0 ho
    have ht := allocate_tree g junk junk0 hSS fm d s hs0 hs hret
    have hnb := (Allocate_hdr g junk fm d (FileHeader.fresh g junk0) s hs).1
    obtain ⟨k, tr, r1, r2⟩ := trace_in_bounds g hSS 4 _ _ o ht ho0 (by rw [hnb]; exact ho)
    refine ⟨k, tr, r1, ?_, r2⟩
    have h := ByteToSectorTraceFuel_fst g 4
      (Allocate g junk fm d (FileHeader.fresh g junk0) s).disk
      (Allocate g junk fm d (FileHeader.fresh g junk0) s).hdr o
    rw [r1] at h
    exact h.symm

/-- C28, on the small geometry: a file of 9 bytes has `numSectors = 2`, and the lookup of
offset 8 indexes entry 1 of 2 in the header, then entry 0 of 1 in the nested record. -/
theorem accesses_in_bounds_witness :
    ((Allocate tinyGeometry 0 (clearMap 12) (blankDisk tinyGeometry)
        (FileHeader.fresh tinyGeometry 0) 9).hdr.numSectors ≤ tinyGeometry.NumDirect) ∧
    ∃ k tr,
      ByteToSectorTraceFuel tinyGeometry 4
        (Allocate tinyGeometry 0 (clearMap 12) (blankDisk tinyGeometry)
          (FileHeader.fresh tinyGeometry 0) 9).disk
        (Allocate tinyGeometry 0 (clearMap 12) (blankDisk tinyGeometry)
          (FileHeader.fresh tinyGeometry 0) 9).hdr 8 = some (k, tr) ∧
      ByteToSector tinyGeometry
        (Allocate tinyGeometry 0 (clearMap 12) (blankDisk tinyGeometry)
          (FileHeader.fresh tinyGeometry 0) 9).disk
        (Allocate tinyGeometry 0 (clearMap 12) (blankDisk tinyGeometry)
          (FileHeader.fresh tinyGeometry 0) 9).hdr 8 = some k ∧
      ∀ p ∈ tr, 0 ≤ p.1 ∧ p.1 < p.2 ∧ p.2 ≤ tinyGeometry.NumDirect :=
  have h := accesses_in_bounds tinyGeometry 0 0 (by decide) (clearMap 12)
    (blankDisk tinyGeometry) 9 (by decide) (by decide)
  ⟨(h.1 (FileHeader.fresh tinyGeometry 0)).2, h.2 (by decide) 8 (by decide) (by decide)⟩

/-! ## Facts about the data sectors and the nested records -/

theorem perm_step (a : List Int) (s : Int) (r x y p q : List Int)
    (ha : a.Perm (x ++ y)) (hr : r.Perm (p ++ q)) :
    (a ++ s :: r).Perm ((x ++ p) ++ ((s :: y) ++ q)) := by
  rw [List.perm_iff_count]
  intro c
  have h1 := ha.count_eq c
  have h2 := hr.count_eq c
  simp only [List.count_append, List.count_cons] at h1 h2 ⊢
  generalize (if (s == c) = true then 1 else 0) = z
  omega

theorem deallocIndirectTrace_perm (f : Nat) (d : Disk) (h : FileHeader)
    (ih : ∀ fm q fm1 tr, DeallocateTraceFuel f fm d q = some (fm1, tr) →
      tr.Perm (dataBlocks f d q ++ nestedSectors f d q)) (n : Nat) :
    ∀ (i : Nat) (fm fm1 : Bitmap) (tr : List Int),
      deallocIndirectTrace (fun fm1 h1 => DeallocateTraceFuel f fm1 d h1) d h n i fm
        = some (fm1, tr) →
      tr.Perm
        ((List.range' i n).flatMap (fun j => dataBlocks f d (d (h.dataSectors.getD j (-1))))
          ++ (List.range' i n).flatMap (fun j => h.dataSectors.getD j (-1)
                :: nestedSectors f d (d (h.dataSectors.getD j (-1))))) := by
  induction n with
  | zero =>
    intro i fm fm1 tr hr
    simp only [deallocIndirectTrace, Option.some.injEq, Prod.mk.injEq] at hr
    obtain ⟨_, rfl⟩ := hr
    simp
  | succ n ihn =>
    intro i fm fm1 tr hr
    unfold deallocIndirectTrace at hr
    cases hs : h.dataSectors[i]? with
    | none => rw [hs] at hr; exact absurd hr (by simp)
    | some s =>
      rw [hs] at hr
      simp only at hr
      cases hc : DeallocateTraceFuel f fm d (FetchFrom d s) with
      | none => rw [hc] at hr; exact absurd hr (by simp)
      | some c =>
        rw [hc] at hr
        simp only at hr
        by_cases ht : Bitmap.Test c.1 s = true
        · simp only [ht, if_true] at hr
          cases hrec : deallocIndirectTrace (fun fm1 h1 => DeallocateTraceFuel f fm1 d h1) d h n
              (i + 1) (Bitmap.Clear c.1 s) with
          | none => rw [hrec] at hr; exact absurd hr (by simp)
          | some r =>
            rw [hrec] at hr
            simp only [Option.some.injEq, Prod.mk.injEq] at hr
            obtain ⟨_, rfl⟩ := hr
            have hg : h.dataSectors.getD i (-1) = s := by
              rw [List.getD_eq_getElem?_getD, hs]; rfl
            rw [List.range'_succ, List.flatMap_cons, List.flatMap_cons, hg]
            exact perm_step c.2 s r.2 _ _ _ _ (ih fm (d s) c.1 c.2 hc)
              (ihn (i + 1) _ r.1 r.2 hrec)
        · simp only [ht, if_false] at hr
          exact absurd hr (by simp)

/-- The sectors a completed `Deallocate` clears are, up to their order, the data sectors of
the file followed by the sectors of the nested records. -/
theorem trace_perm (f : Nat) :
    ∀ (fm : Bitmap) (d : Disk) (h : FileHeader) (fm1 : Bitmap) (tr : List Int),
      DeallocateTraceFuel f fm d h = some (fm1, tr) →
      tr.Perm (dataBlocks f d h ++ nestedSectors f d h) := by
  induction f with
  | zero => intro fm d h fm1 tr hr; exact absurd hr (by simp [DeallocateTraceFuel])
  | succ f ih =>
    intro fm d h fm1 tr hr
    unfold DeallocateTraceFuel at hr
    by_cases hl : h.level = 0
    · simp only [hl, if_true] at hr
      obtain ⟨_, r2, _⟩ := deallocDirectTrace_run h _ 0 fm fm1 tr hr
      simp only [dataBlocks, nestedSectors, hl, if_true, List.append_nil]
      rw [r2, List.range_eq_range']
    · simp only [hl, if_false] at hr
      have := deallocIndirectTrace_perm f d h (fun fm q fm1 tr hq => ih fm d q fm1 tr hq)
        _ 0 fm fm1 tr hr
      simp only [dataBlocks, nestedSectors, hl, if_false]
      rw [List.range_eq_range']
      exact this

theorem numClear_Clear (b : Bitmap) (k : Int) (h : Bitmap.Test b k = true) :
    Bitmap.NumClear (Bitmap.Clear b k) = Bitmap.NumClear b + 1 := by
  obtain ⟨h0, h1⟩ := (Test_eq_true_iff b k).1 h
  obtain ⟨hlt, hget⟩ := List.getElem?_eq_some_iff.1 h1
  unfold Bitmap.NumClear Bitmap.Clear
  simp only [h0, if_true]
  rw [List.count_set false false b k.toNat hlt, hget]
  simp

theorem numClear_clearRun (tr : List Int) :
    ∀ (fm fm1 : Bitmap), ClearRun fm fm1 tr →
      Bitmap.NumClear fm1 = Bitmap.NumClear fm + (tr.length : Int) := by
  induction tr with
  | nil =>
    intro fm fm1 h
    rw [h.1]; simp [Bitmap.clearList]
  | cons s rest ih =>
    intro fm fm1 h
    obtain ⟨h1, h2, h3⟩ := h
    have hs : Bitmap.Test fm s = true := h3 s (List.mem_cons_self _ _)
    rw [List.nodup_cons] at h2
    have hrest : ClearRun (Bitmap.Clear fm s) fm1 rest := by
      refine ⟨by rw [h1]; rfl, h2.2, ?_⟩
      intro k hk
      rw [Test_Clear, h3 k (List.mem_cons_of_mem _ hk)]
      have : k ≠ s := fun e => h2.1 (e ▸ hk)
      simp [this]
    rw [ih _ _ hrest, numClear_Clear fm s hs, List.length_cons]
    push_cast
    ring

/-- The sector of every nested record of a tree of the shape `TreeOk` is in the list
`nestedSectors`. -/
theorem nested_mem (g : Geometry) (f : Nat) :
    ∀ (d : Disk) (h p : FileHeader), TreeOk g f d h → InTree d h p → p.level ≠ 0 →
      ∀ (i : Nat) (sec : Int), (i : Int) < p.numSectors → p.dataSectors[i]? = some sec →
        sec ∈ nestedSectors f d h := by
  induction f with
  | zero => intro d h p ht; exact absurd ht (by simp [TreeOk])
  | succ f ih =>
    intro d h p ht hp hpl i sec hi hds
    by_cases hl : h.level = 0
    · rcases inTree_inv d h p hp with rfl | ⟨_, _, h1, _⟩
      · exact absurd hl hpl
      · exact absurd hl h1
    · simp only [nestedSectors, hl, if_false, List.mem_flatMap, List.mem_range,
        List.mem_cons]
      rcases inTree_inv d h p hp with rfl | ⟨i0, sec0, _, h2, h3, h4⟩
      · refine ⟨i, by omega, Or.inl ?_⟩
        rw [List.getD_eq_getElem?_getD, hds]; rfl
      · refine ⟨i0, by omega, Or.inr ?_⟩
        have hg : h.dataSectors.getD i0 (-1) = sec0 := by
          rw [List.getD_eq_getElem?_getD, h3]; rfl
        rw [hg]
        exact ih d (d sec0) p (tree_child g f d h ht hl i0 sec0 h2 h3).1 h4 hpl i sec hi hds

theorem block_index (SS m o : Int) (hSS : 0 < SS) :
    o / SS = o / (m * SS) * m + o % (m * SS) / SS := by
  have h := Int.ediv_add_emod o (m * SS)
  have h2 : o = o % (m * SS) + (o / (m * SS) * m) * SS := by linear_combination (-1 : Int) * h
  have h3 := congrArg (fun x => x / SS) h2
  simp only at h3
  rw [Int.add_mul_ediv_right _ _ (ne_of_gt hSS)] at h3
  omega

theorem block_rem (SS m o : Int) (hSS : 0 < SS) (hm : 0 < m) :
    0 ≤ o % (m * SS) / SS ∧ o % (m * SS) / SS < m := by
  have hc : 0 < m * SS := Int.mul_pos hm hSS
  exact ⟨Int.ediv_nonneg (Int.emod_nonneg o (ne_of_gt hc)) (le_of_lt hSS),
    Int.ediv_lt_of_lt_mul hSS (Int.emod_lt_of_pos o hc)⟩

theorem block_same (SS m o1 o2 : Int) (hSS : 0 < SS) (hm : 0 < m) :
    o1 / SS = o2 / SS ↔
      o1 / (m * SS) = o2 / (m * SS) ∧ o1 % (m * SS) / SS = o2 % (m * SS) / SS := by
  rw [block_index SS m o1 hSS, block_index SS m o2 hSS]
  obtain ⟨a1, a2⟩ := block_rem SS m o1 hSS hm
  obtain ⟨b1, b2⟩ := block_rem SS m o2 hSS hm
  constructor
  · intro h
    have hq : o1 / (m * SS) = o2 / (m * SS) := by
      rcases lt_trichotomy (o1 / (m * SS)) (o2 / (m * SS)) with hlt | heq | hgt
      · have h1 : (o1 / (m * SS) + 1) * m ≤ o2 / (m * SS) * m :=
          Int.mul_le_mul_of_nonneg_right (by omega) (le_of_lt hm)
        have h2 : (o1 / (m * SS) + 1) * m = o1 / (m * SS) * m + m := by ring
        omega
      · exact heq
      · have h1 : (o2 / (m * SS) + 1) * m ≤ o1 / (m * SS) * m :=
          Int.mul_le_mul_of_nonneg_right (by omega) (le_of_lt hm)
        have h2 : (o2 / (m * SS) + 1) * m = o2 / (m * SS) * m + m := by ring
        omega
    refine ⟨hq, ?_⟩
    rw [hq] at h
    omega
  · intro ⟨h1, h2⟩
    rw [h1, h2]

/-- Above level 0, the size covered by one entry is a whole number of sectors. -/
theorem childCapacity_sectors (g : Geometry) (lv : Nat) (h0 : lv ≠ 0) :
    ∃ m : Int, g.childCapacity lv = m * (g.SectorSize : Int) := by
  rcases lv with _ | _ | _ | lv
  · exact absurd rfl h0
  · exact ⟨g.NumDirect, rfl⟩
  · exact ⟨(g.NumDirect : Int) * g.NumDirect, by
      simp only [Geometry.childCapacity, Geometry.MaxSingleIndirectSize, Geometry.MaxDirectSize]
      ring⟩
  · exact ⟨(g.NumDirect : Int) * g.NumDirect * g.NumDirect, by
      simp only [Geometry.childCapacity, Geometry.MaxDoubleIndirectSize,
        Geometry.MaxSingleIndirectSize, Geometry.MaxDirectSize]
      ring⟩

theorem ByteToSectorFuel_level (g : Geometry) (f : Nat) (d : Disk) (this : FileHeader)
    (offset : Int) (lv : Nat) (h0 : lv ≠ 0) (h3 : lv ≤ 3) (hl : this.level = (lv : Int)) :
    ByteToSectorFuel g (f + 1) d this offset
      = byteToSectorVia (ByteToSectorFuel g f d) d this (g.childCapacity lv) offset := by
  have : lv = 1 ∨ lv = 2 ∨ lv = 3 := by omega
  rcases this with rfl | rfl | rfl
  · simp [ByteToSectorFuel, hl, Geometry.childCapacity]
  · simp [ByteToSectorFuel, hl, Geometry.childCapacity]
  · simp [ByteToSectorFuel, hl, Geometry.childCapacity]

/-- On a tree of the shape `TreeOk` whose data sectors are pairwise distinct, `ByteToSector`
returns a data sector for every offset of the file, and the same one for two offsets exactly
when they lie in the same block. -/
theorem lookup_inj (g : Geometry) (hSS : 0 < g.SectorSize) (f : Nat) :
    ∀ (d : Disk) (h : FileHeader), TreeOk g f d h → (dataBlocks f d h).Nodup →
      ∀ o1 o2 : Int, 0 ≤ o1 → o1 < h.numBytes → 0 ≤ o2 → o2 < h.numBytes →
        ∃ k1 k2, ByteToSectorFuel g f d h o1 = some k1 ∧
          ByteToSectorFuel g f d h o2 = some k2 ∧
          k1 ∈ dataBlocks f d h ∧ k2 ∈ dataBlocks f d h ∧
          (k1 = k2 ↔ o1 / (g.SectorSize : Int) = o2 / (g.SectorSize : Int)) := by
  have hSS2 : (0 : Int) < g.SectorSize := by exact_mod_cast hSS
  induction f with
  | zero => intro d h ht; exact absurd ht (by simp [TreeOk])
  | succ f ih =>
    intro d h ht hnd o1 o2 h10 h11 h20 h21
    have ht2 := ht
    obtain ⟨t1, t2, t3, t4, t5⟩ := ht2
    by_cases hlvl : h.level = 0
    · have hreq : requiredLevel g h.numBytes = 0 := by rw [t3] at hlvl; omega
      rw [hreq] at t4
      simp only [Geometry.childCapacity] at t4
      obtain ⟨_, _, q2⟩ := divRoundUp_spec h.numBytes g.SectorSize t1 hSS2
      have key : ∀ o : Int, 0 ≤ o → o < h.numBytes →
          0 ≤ o / (g.SectorSize : Int) ∧ (o / (g.SectorSize : Int)).toNat < h.numSectors.toNat ∧
          ByteToSectorFuel g (f + 1) d h o
            = some (h.dataSectors.getD (o / (g.SectorSize : Int)).toNat (-1)) := by
        intro o ho0 ho
        obtain ⟨e1, _⟩ := tdiv_tmod_nonneg o g.SectorSize ho0 hSS2
        have hidx0 : 0 ≤ o / (g.SectorSize : Int) := Int.ediv_nonneg ho0 (le_of_lt hSS2)
        have hidx : o / (g.SectorSize : Int) < h.numSectors := by
          rw [t4]; exact Int.ediv_lt_of_lt_mul hSS2 (by omega)
        obtain ⟨sec, s1, _, _⟩ := t5 (o / (g.SectorSize : Int)).toNat
          (by rw [Int.toNat_of_nonneg hidx0]; exact hidx)
        refine ⟨hidx0, by omega, ?_⟩
        simp [ByteToSectorFuel, hlvl, FileHeader.sectorAt, e1, hidx0, s1,
          List.getD_eq_getElem?_getD]
      obtain ⟨a1, a2, a3⟩ := key o1 h10 h11
      obtain ⟨b1, b2, b3⟩ := key o2 h20 h21
      simp only [dataBlocks, hlvl, if_true] at hnd ⊢
      refine ⟨_, _, a3, b3, List.mem_map.2 ⟨_, List.mem_range.2 a2, rfl⟩,
        List.mem_map.2 ⟨_, List.mem_range.2 b2, rfl⟩, ?_⟩
      constructor
      · intro he
        have := List.inj_on_of_nodup_map hnd (List.mem_range.2 a2) (List.mem_range.2 b2) he
        omega
      · intro he; rw [he]
    · have hlow : g.MaxDirectSize < h.numBytes := by
        by_contra hle
        rw [t3, requiredLevel_eq_zero g _ (by omega)] at hlvl
        exact hlvl rfl
      obtain ⟨b1, _, _⟩ := requiredLevel_least g h.numBytes t2
      have hpos := requiredLevel_pos g h.numBytes hlow
      have hcap := childCapacity_pos g h.numBytes hlow t2
      obtain ⟨m, hm⟩ := childCapacity_sectors g (requiredLevel g h.numBytes) hpos
      have hm0 : 0 < m := by
        rw [hm] at hcap
        by_contra hneg
        have : m * (g.SectorSize : Int) ≤ 0 :=
          Int.mul_nonpos_of_nonpos_of_nonneg (by omega) (le_of_lt hSS2)
        omega
      obtain ⟨_, _, q2⟩ := divRoundUp_spec h.numBytes _ t1 hcap
      simp only [dataBlocks, hlvl, if_false] at hnd ⊢
      obtain ⟨hnd1, hnd2⟩ := List.nodup_flatMap.1 hnd
      have key : ∀ o : Int, 0 ≤ o → o < h.numBytes →
          ∃ sec, 0 ≤ o / g.childCapacity (requiredLevel g h.numBytes) ∧
            (o / g.childCapacity (requiredLevel g h.numBytes)).toNat < h.numSectors.toNat ∧
            h.dataSectors.getD (o / g.childCapacity (requiredLevel g h.numBytes)).toNat (-1)
              = sec ∧
            TreeOk g f d (d sec) ∧
            0 ≤ o % g.childCapacity (requiredLevel g h.numBytes) ∧
            o % g.childCapacity (requiredLevel g h.numBytes) < (d sec).numBytes ∧
            ByteToSectorFuel g (f + 1) d h o
              = ByteToSectorFuel g f d (d sec)
                  (o % g.childCapacity (requiredLevel g h.numBytes)) := by
        intro o ho0 ho
        obtain ⟨e1, e2⟩ := tdiv_tmod_nonneg o _ ho0 hcap
        have hidx0 : 0 ≤ o / g.childCapacity (requiredLevel g h.numBytes) :=
          Int.ediv_nonneg ho0 (le_of_lt hcap)
        have hidx : o / g.childCapacity (requiredLevel g h.numBytes) < h.numSectors := by
          rw [t4]; exact Int.ediv_lt_of_lt_mul hcap (by omega)
        have hcast : (((o / g.childCapacity (requiredLevel g h.numBytes)).toNat : Nat) : Int)
            = o / g.childCapacity (requiredLevel g h.numBytes) := Int.toNat_of_nonneg hidx0
        obtain ⟨sec, s1, _, _⟩ :=
          t5 (o / g.childCapacity (requiredLevel g h.numBytes)).toNat
            (by rw [hcast]; exact hidx)
        obtain ⟨c1, _, c3, _, _⟩ := tree_child g f d h ht hlvl _ sec
          (by rw [hcast]; exact hidx) s1
        rw [hcast] at c3
        have hmod0 : 0 ≤ o % g.childCapacity (requiredLevel g h.numBytes) :=
          Int.emod_nonneg o (ne_of_gt hcap)
        have hmodlt : o % g.childCapacity (requiredLevel g h.numBytes)
            < g.childCapacity (requiredLevel g h.numBytes) := Int.emod_lt_of_pos o hcap
        have hdm := Int.ediv_add_emod o (g.childCapacity (requiredLevel g h.numBytes))
        have hcomm : g.childCapacity (requiredLevel g h.numBytes)
              * (o / g.childCapacity (requiredLevel g h.numBytes))
            = o / g.childCapacity (requiredLevel g h.numBytes)
              * g.childCapacity (requiredLevel g h.numBytes) := Int.mul_comm _ _
        have hmod : o % g.childCapacity (requiredLevel g h.numBytes) < (d sec).numBytes := by
          rw [c3]
          exact lt_min (by omega) hmodlt
        refine ⟨sec, hidx0, by omega, by rw [List.getD_eq_getElem?_getD, s1]; rfl, c1, hmod0,
          hmod, ?_⟩
        rw [ByteToSectorFuel_level g f d h o _ hpos b1 t3]
        simp only [byteToSectorVia, FileHeader.sectorAt, e1, e2, hidx0, if_true, s1, FetchFrom]
      obtain ⟨sec1, a1, a2, a3, a4, a5, a6, a7⟩ := key o1 h10 h11
      obtain ⟨sec2, c1, c2, c3, c4, c5, c6, c7⟩ := key o2 h20 h21
      have hn1 := hnd1 _ (List.mem_range.2 a2)
      have hn2 := hnd1 _ (List.mem_range.2 c2)
      simp only [a3] at hn1
      simp only [c3] at hn2
      obtain ⟨x1, _, p1, _, p3, _, _⟩ := ih d (d sec1) a4 hn1 _ _ a5 a6 a5 a6
      obtain ⟨y1, _, r1, _, r3, _, _⟩ := ih d (d sec2) c4 hn2 _ _ c5 c6 c5 c6
      refine ⟨x1, y1, by rw [a7]; exact p1, by rw [c7]; exact r1,
        List.mem_flatMap.2 ⟨_, List.mem_range.2 a2, by rw [a3]; exact p3⟩,
        List.mem_flatMap.2 ⟨_, List.mem_range.2 c2, by rw [c3]; exact r3⟩, ?_⟩
      rw [block_same _ m o1 o2 hSS2 hm0, ← hm]
      by_cases hq : o1 / g.childCapacity (requiredLevel g h.numBytes)
          = o2 / g.childCapacity (requiredLevel g h.numBytes)
      · have hsec : sec1 = sec2 := by rw [← a3, ← c3, hq]
        subst hsec
        obtain ⟨z1, z2, w1, w2, _, _, w5⟩ := ih d (d sec1) a4 hn1 _ _ a5 a6 c5 c6
        rw [p1] at w1
        rw [r1] at w2
        obtain rfl : x1 = z1 := Option.some.inj w1
        obtain rfl : y1 = z2 := Option.some.inj w2
        rw [w5]
        constructor
        · intro hh; exact ⟨hq, hh⟩
        · intro hh; exact hh.2
      · have hne : (o1 / g.childCapacity (requiredLevel g h.numBytes)).toNat
            ≠ (o2 / g.childCapacity (requiredLevel g h.numBytes)).toNat := by omega
        have hdis := List.Pairwise.forall
          (fun a b (hab : (List.Disjoint on fun i =>
            dataBlocks f d (d (h.dataSectors.getD i (-1)))) a b) => hab.symm)
          hnd2 (List.mem_range.2 a2) (List.mem_range.2 c2) hne
        simp only [Function.onFun, a3, c3] at hdis
        constructor
        · intro hh
          subst hh
          exact absurd r3 (hdis p3)
        · intro hh; exact absurd hh.1 hq

theorem divRoundUp_add_mul (r q SS : Int) (hr : 0 ≤ r) (hq : 0 ≤ q) (hSS : 0 < SS) :
    divRoundUp (r + q * SS) SS = divRoundUp r SS + q := by
  obtain ⟨_, h2, h3⟩ := divRoundUp_spec r SS hr hSS
  have hq2 : 0 ≤ q * SS := Int.mul_nonneg hq (le_of_lt hSS)
  apply divRoundUp_eq _ _ _ (by omega) hSS
  · have : (divRoundUp r SS + q - 1) * SS = (divRoundUp r SS - 1) * SS + q * SS := by ring
    omega
  · have : (divRoundUp r SS + q) * SS = divRoundUp r SS * SS + q * SS := by ring
    omega

theorem divRoundUp_mul (m SS : Int) (hm : 0 ≤ m) (hSS : 0 < SS) :
    divRoundUp (m * SS) SS = m := by
  have := divRoundUp_add_mul 0 m SS (le_refl _) hm hSS
  rw [divRoundUp_zero] at this
  simpa using this

theorem full_prefix_length (F : Nat → List Int) (m : Int) (k : Nat)
    (h : ∀ j, j < k → ((F j).length : Int) = m) :
    (((List.range k).flatMap F).length : Int) = (k : Int) * m := by
  induction k with
  | zero => simp
  | succ k ih =>
    rw [List.range_succ, List.flatMap_append, List.length_append]
    push_cast
    rw [ih (fun j hj => h j (by omega))]
    simp only [List.flatMap_cons, List.flatMap_nil, List.append_nil]
    rw [h k (by omega)]
    ring

/-- The number of data sectors of a tree of the shape `TreeOk` is its `numBytes` divided by
the sector size, rounded up. -/
theorem dataBlocks_length (g : Geometry) (hSS : 0 < g.SectorSize) (f : Nat) :
    ∀ (d : Disk) (h : FileHeader), TreeOk g f d h →
      ((dataBlocks f d h).length : Int) = divRoundUp h.numBytes g.SectorSize := by
  have hSS2 : (0 : Int) < g.SectorSize := by exact_mod_cast hSS
  induction f with
  | zero => intro d h ht; exact absurd ht (by simp [TreeOk])
  | succ f ih =>
    intro d h ht
    have ht2 := ht
    obtain ⟨t1, t2, t3, t4, t5⟩ := ht2
    by_cases hlvl : h.level = 0
    · have hreq : requiredLevel g h.numBytes = 0 := by rw [t3] at hlvl; omega
      rw [hreq] at t4
      simp only [Geometry.childCapacity] at t4
      obtain ⟨q0, _, _⟩ := divRoundUp_spec h.numBytes g.SectorSize t1 hSS2
      simp only [dataBlocks, hlvl, if_true, List.length_map, List.length_range]
      rw [← t4]
      omega
    · have hlow : g.MaxDirectSize < h.numBytes := by
        by_contra hle
        rw [t3, requiredLevel_eq_zero g _ (by omega)] at hlvl
        exact hlvl rfl
      have hpos := requiredLevel_pos g h.numBytes hlow
      have hcap := childCapacity_pos g h.numBytes hlow t2
      obtain ⟨m, hm⟩ := childCapacity_sectors g (requiredLevel g h.numBytes) hpos
      have hm0 : 0 < m := by
        rw [hm] at hcap
        by_contra hneg
        have : m * (g.SectorSize : Int) ≤ 0 :=
          Int.mul_nonpos_of_nonpos_of_nonneg (by omega) (le_of_lt hSS2)
        omega
      have hM := maxDirect_nonneg g
      obtain ⟨_, q1, q2⟩ := divRoundUp_spec h.numBytes _ t1 hcap
      have hN := divRoundUp_pos h.numBytes _ (by omega) hcap
      rw [← t4] at q1 q2 hN
      obtain ⟨k, hk⟩ : ∃ k : Nat, h.numSectors.toNat = k + 1 :=
        ⟨h.numSectors.toNat - 1, by omega⟩
      have hkN : h.numSectors = (k : Int) + 1 := by omega
      have hchild : ∀ j : Nat, j < k + 1 →
          ((dataBlocks f d (d (h.dataSectors.getD j (-1)))).length : Int)
            = divRoundUp (min (h.numBytes
                - (j : Int) * g.childCapacity (requiredLevel g h.numBytes))
                (g.childCapacity (requiredLevel g h.numBytes))) g.SectorSize := by
        intro j hj
        obtain ⟨sec, s1, _, s3⟩ := t5 j (by omega)
        obtain ⟨c1, c2⟩ := s3 hlvl
        have hg : h.dataSectors.getD j (-1) = sec := by
          rw [List.getD_eq_getElem?_getD, s1]; rfl
        rw [hg, ih d (d sec) c2, c1]
      simp only [dataBlocks, hlvl, if_false]
      rw [hk, List.range_succ, List.flatMap_append, List.length_append]
      push_cast
      rw [full_prefix_length _ m k (fun j hj => by
        rw [hchild j (by omega)]
        have hmul : ((j : Int) + 1) * g.childCapacity (requiredLevel g h.numBytes)
            ≤ (k : Int) * g.childCapacity (requiredLevel g h.numBytes) :=
          Int.mul_le_mul_of_nonneg_right (by omega) (le_of_lt hcap)
        have hexp : ((j : Int) + 1) * g.childCapacity (requiredLevel g h.numBytes)
            = (j : Int) * g.childCapacity (requiredLevel g h.numBytes)
              + g.childCapacity (requiredLevel g h.numBytes) := by ring
        have hk1 : (h.numSectors - 1) * g.childCapacity (requiredLevel g h.numBytes)
            = (k : Int) * g.childCapacity (requiredLevel g h.numBytes) := by rw [hkN]; ring
        rw [min_eq_right (by omega), hm]
        exact divRoundUp_mul m _ (le_of_lt hm0) hSS2)]
      simp only [List.flatMap_cons, List.flatMap_nil, List.append_nil]
      rw [hchild k (by omega)]
      have hk1 : (h.numSectors - 1) * g.childCapacity (requiredLevel g h.numBytes)
          = (k : Int) * g.childCapacity (requiredLevel g h.numBytes) := by rw [hkN]; ring
      have hk2 : h.numSectors * g.childCapacity (requiredLevel g h.numBytes)
          = (k : Int) * g.childCapacity (requiredLevel g h.numBytes)
            + g.childCapacity (requiredLevel g h.numBytes) := by rw [hkN]; ring
      rw [min_eq_left (by omega)]
      have hsplit : h.numBytes
          = (h.numBytes - (k : Int) * g.childCapacity (requiredLevel g h.numBytes))
            + ((k : Int) * m) * (g.SectorSize : Int) := by rw [hm]; ring
      conv_rhs => rw [hsplit]
      rw [divRoundUp_add_mul _ _ _ (by omega) (Int.mul_nonneg (by omega) (le_of_lt hm0)) hSS2]
      ring

theorem countHeadersLoop_eq (child : FileHeader → Option Int) (d : Disk) (h : FileHeader)
    (f N : Nat)
    (hchild : ∀ j, j < N → ∃ sec, h.dataSectors[j]? = some sec ∧
      child (d sec) = some (1 + ((nestedSectors f d (d sec)).length : Int))) (n : Nat) :
    ∀ (i : Nat) (count : Int), i + n ≤ N →
      countHeadersLoop child d h n i count
        = some (count + (((List.range' i n).flatMap (fun j => h.dataSectors.getD j (-1)
            :: nestedSectors f d (d (h.dataSectors.getD j (-1))))).length : Int)) := by
  induction n with
  | zero => intro i count _; simp [countHeadersLoop]
  | succ n ih =>
    intro i count hi
    obtain ⟨sec, s1, s2⟩ := hchild i (by omega)
    have hg : h.dataSectors.getD i (-1) = sec := by
      rw [List.getD_eq_getElem?_getD, s1]; rfl
    rw [countHeadersLoop]
    simp only [s1, FetchFrom, s2]
    rw [ih (i + 1) _ (by omega), List.range'_succ, List.flatMap_cons, hg]
    simp only [List.length_append, List.length_cons]
    push_cast
    congr 1
    ring

/-- On a tree of the shape `TreeOk`, `CountHeaders` returns one more than the number of
nested records. -/
theorem countHeaders_tree (g : Geometry) (f : Nat) :
    ∀ (d : Disk) (h : FileHeader), TreeOk g f d h →
      CountHeadersFuel g f d h = some (1 + ((nestedSectors f d h).length : Int)) := by
  induction f with
  | zero => intro d h ht; exact absurd ht (by simp [TreeOk])
  | succ f ih =>
    intro d h ht
    have ht2 := ht
    obtain ⟨t1, t2, t3, t4, t5⟩ := ht2
    have h01 := maxDirect_le_single g
    have h12 := maxSingle_le_double g
    have h23 := maxDouble_le_triple g
    by_cases hlvl : h.level = 0
    · have hreq : requiredLevel g h.numBytes = 0 := by rw [t3] at hlvl; omega
      obtain ⟨_, b2, _⟩ := requiredLevel_least g h.numBytes t2
      rw [hreq] at b2
      simp only [Geometry.maxSizeAt] at b2
      have c1 : ¬ (h.numBytes > g.MaxDirectSize ∧ h.numBytes ≤ g.MaxSingleIndirectSize) := by
        omega
      have c2 : ¬ (h.numBytes > g.MaxSingleIndirectSize
          ∧ h.numBytes ≤ g.MaxDoubleIndirectSize) := by omega
      have c3 : ¬ (h.numBytes > g.MaxDoubleIndirectSize
          ∧ h.numBytes ≤ g.MaxTripleIndirectSize) := by omega
      simp only [CountHeadersFuel, c1, c2, c3, if_false, nestedSectors, hlvl, if_true]
      simp
    · have hlow : g.MaxDirectSize < h.numBytes := by
        by_contra hle
        rw [t3, requiredLevel_eq_zero g _ (by omega)] at hlvl
        exact hlvl rfl
      have hloop : countHeadersLoop (CountHeadersFuel g f d) d h h.numSectors.toNat 0 1
          = some (1 + ((nestedSectors (f + 1) d h).length : Int)) := by
        rw [countHeadersLoop_eq (CountHeadersFuel g f d) d h f h.numSectors.toNat ?_ _ 0 1
          (by omega)]
        · simp only [nestedSectors, hlvl, if_false]
          rw [List.range_eq_range']
        · intro j hj
          obtain ⟨sec, s1, _, s3⟩ := t5 j (by omega)
          exact ⟨sec, s1, ih d (d sec) (s3 hlvl).2⟩
      unfold CountHeadersFuel
      split
      · exact hloop
      · split
        · exact hloop
        · split
          · exact hloop
          · omega

/-- After a successful `Allocate` on a fresh header, the data sectors of the file and the
sectors of its nested records are pairwise distinct, and there are as many of them as the
number of clear sectors went down. -/
theorem allocate_sectors (g : Geometry) (junk junk0 : Int) (hSS : 0 < g.SectorSize)
    (fm : Bitmap) (d : Disk) (s : Int) (hs0 : 0 ≤ s) (hs : s ≤ g.MaxTripleIndirectSize)
    (hret : (Allocate g junk fm d (FileHeader.fresh g junk0) s).ret = some true) :
    (dataBlocks 4 (Allocate g junk fm d (FileHeader.fresh g junk0) s).disk
        (Allocate g junk fm d (FileHeader.fresh g junk0) s).hdr
      ++ nestedSectors 4 (Allocate g junk fm d (FileHeader.fresh g junk0) s).disk
        (Allocate g junk fm d (FileHeader.fresh g junk0) s).hdr).Nodup ∧
    Bitmap.NumClear fm
      = Bitmap.NumClear (Allocate g junk fm d (FileHeader.fresh g junk0) s).freeMap
        + ((dataBlocks 4 (Allocate g junk fm d (FileHeader.fresh g junk0) s).disk
            (Allocate g junk fm d (FileHeader.fresh g junk0) s).hdr).length : Int)
        + ((nestedSectors 4 (Allocate g junk fm d (FileHeader.fresh g junk0) s).disk
            (Allocate g junk fm d (FileHeader.fresh g junk0) s).hdr).length : Int) := by
  obtain ⟨_, _, h3⟩ := allocate_summary g junk junk0 hSS fm d s hs0 hs hret
  obtain ⟨_, tr, t1, t2, _⟩ := h3 _ (fun _ _ _ => rfl)
  have hperm := trace_perm 4 _ _ _ fm tr t1
  have hrun := DeallocateTraceFuel_run 4 _ _ _ fm tr t1
  refine ⟨hperm.nodup_iff.1 t2, ?_⟩
  rw [numClear_clearRun tr _ _ hrun, hperm.length_eq, List.length_append]
  push_cast
  ring

/-- C29: after a successful `Allocate` of `s` bytes (`0 ≤ s ≤ MaxTripleIndirectSize`, fresh
header), `ByteToSector` returns a sector for every offset in `[0, s)`; for two such offsets
the sectors are equal exactly when `o1 / SectorSize = o2 / SectorSize`; and the sector
returned is never one stored in an entry of a record above level 0, that is never the
sector of a nested record. -/
theorem blocks_distinct (g : Geometry) (junk junk0 : Int) (hSS : 0 < g.SectorSize)
    (fm : Bitmap) (d : Disk) (s : Int) (hs0 : 0 ≤ s) (hs : s ≤ g.MaxTripleIndirectSize)
    (hret : (Allocate g junk fm d (FileHeader.fresh g junk0) s).ret = some true) :
    (∀ o1 o2 : Int, 0 ≤ o1 → o1 < s → 0 ≤ o2 → o2 < s →
      ∃ k1 k2,
        ByteToSector g (Allocate g junk fm d (FileHeader.fresh g junk0) s).disk
          (Allocate g junk fm d (FileHeader.fresh g junk0) s).hdr o1 = some k1 ∧
        ByteToSector g (Allocate g junk fm d (FileHeader.fresh g junk0) s).disk
          (Allocate g junk fm d (FileHeader.fresh g junk0) s).hdr o2 = some k2 ∧
        (k1 = k2 ↔ Int.tdiv o1 g.SectorSize = Int.tdiv o2 g.SectorSize)) ∧
    (∀ (o k : Int), 0 ≤ o → o < s →
      ByteToSector g (Allocate g junk fm d (FileHeader.fresh g junk0) s).disk
        (Allocate g junk fm d (FileHeader.fresh g junk0) s).hdr o = some k →
      ∀ p, InTree (Allocate g junk fm d (FileHeader.fresh g junk0) s).disk
          (Allocate g junk fm d (FileHeader.fresh g junk0) s).hdr p → p.level ≠ 0 →
        ∀ (i : Nat) (sec : Int), (i : Int) < p.numSectors → p.dataSectors[i]? = some sec →
          k ≠ sec) := by
  have hSS2 : (0 : Int) < g.SectorSize := by exact_mod_cast hSS
  have ht := allocate_tree g junk junk0 hSS fm d s hs0 hs hret
  have hnb := (Allocate_hdr g junk fm d (FileHeader.fresh g junk0) s hs).1
  obtain ⟨hnd, _⟩ := allocate_sectors g junk junk0 hSS fm d s hs0 hs hret
  obtain ⟨hn1, _, hdis⟩ := List.nodup_append.1 hnd
  constructor
  · intro o1 o2 h10 h11 h20 h21
    obtain ⟨k1, k2, e1, e2, _, _, e5⟩ := lookup_inj g hSS 4 _ _ ht hn1 o1 o2 h10
      (by rw [hnb]; exact h11) h20 (by rw [hnb]; exact h21)
    refine ⟨k1, k2, e1, e2, ?_⟩
    rw [(tdiv_tmod_nonneg o1 _ h10 hSS2).1, (tdiv_tmod_nonneg o2 _ h20 hSS2).1]
    exact e5
  · intro o k h0 h1 hk p hp hpl i sec hi hds heq
    obtain ⟨k1, _, e1, _, e3, _, _⟩ := lookup_inj g hSS 4 _ _ ht hn1 o o h0
      (by rw [hnb]; exact h1) h0 (by rw [hnb]; exact h1)
    have e1b : ByteToSector g (Allocate g junk fm d (FileHeader.fresh g junk0) s).disk
        (Allocate g junk fm d (FileHeader.fresh g junk0) s).hdr o = some k1 := e1
    rw [hk] at e1b
    obtain rfl : k = k1 := Option.some.inj e1b
    have hsec := nested_mem g 4 _ _ p ht hp hpl i sec hi hds
    rw [← heq] at hsec
    exact hdis e3 hsec

/-- C29, on the small geometry: in a file of 9 bytes, offsets 4 and 5 share a sector,
offsets 5 and 6 do not, and the sector of offset 8 is not sector 7, which holds the nested
record of the last byte. -/
theorem blocks_distinct_witness :
    (∃ k1 k2,
      ByteToSector tinyGeometry
        (Allocate tinyGeometry 0 (clearMap 12) (blankDisk tinyGeometry)
          (FileHeader.fresh tinyGeometry 0) 9).disk
        (Allocate tinyGeometry 0 (clearMap 12) (blankDisk tinyGeometry)
          (FileHeader.fresh tinyGeometry 0) 9).hdr 5 = some k1 ∧
      ByteToSector tinyGeometry
        (Allocate tinyGeometry 0 (clearMap 12) (blankDisk tinyGeometry)
          (FileHeader.fresh tinyGeometry 0) 9).disk
        (Allocate tinyGeometry 0 (clearMap 12) (blankDisk tinyGeometry)
          (FileHeader.fresh tinyGeometry 0) 9).hdr 6 = some k2 ∧
      (k1 = k2 ↔ Int.tdiv 5 tinyGeometry.SectorSize = Int.tdiv 6 tinyGeometry.SectorSize)) ∧
    (8 : Int) ≠ 7 :=
  have h := blocks_distinct tinyGeometry 0 0 (by decide) (clearMap 12)
    (blankDisk tinyGeometry) 9 (by decide) (by decide) (by decide)
  ⟨h.1 5 6 (by decide) (by decide) (by decide) (by decide),
    h.2 8 8 (by decide) (by decide) (by decide) _ InTree.root (by decide) 1 7 (by decide)
      (by decide)⟩

/-- C30: a successful `Allocate` of `s` bytes (`0 ≤ s ≤ MaxTripleIndirectSize`, fresh
header) lowers `NumClear` by exactly `divRoundUp(s, SectorSize) + (CountHeaders() - 1)`,
where `CountHeaders()` on the resulting header returns 1 plus the number of nested records
of its tree. -/
theorem allocate_numClear (g : Geometry) (junk junk0 : Int) (hSS : 0 < g.SectorSize)
    (fm : Bitmap) (d : Disk) (s : Int) (hs0 : 0 ≤ s) (hs : s ≤ g.MaxTripleIndirectSize)
    (hret : (Allocate g junk fm d (FileHeader.fresh g junk0) s).ret = some true) :
    ∃ c : Int,
      CountHeaders g (Allocate g junk fm d (FileHeader.fresh g junk0) s).disk
        (Allocate g junk fm d (FileHeader.fresh g junk0) s).hdr = some c ∧
      c = 1 + ((nestedSectors 4 (Allocate g junk fm d (FileHeader.fresh g junk0) s).disk
        (Allocate g junk fm d (FileHeader.fresh g junk0) s).hdr).length : Int) ∧
      Bitmap.NumClear (Allocate g junk fm d (FileHeader.fresh g junk0) s).freeMap
        = Bitmap.NumClear fm - (divRoundUp s g.SectorSize + (c - 1)) := by
  have ht := allocate_tree g junk junk0 hSS fm d s hs0 hs hret
  have hnb := (Allocate_hdr g junk fm d (FileHeader.fresh g junk0) s hs).1
  obtain ⟨_, hcount⟩ := allocate_sectors g junk junk0 hSS fm d s hs0 hs hret
  have hlen := dataBlocks_length g hSS 4 _ _ ht
  rw [hnb] at hlen
  refine ⟨_, countHeaders_tree g 4 _ _ ht, rfl, ?_⟩
  rw [hcount, hlen]
  ring

/-- C30, on the small geometry: a file of 9 bytes takes 5 data sectors and 4 nested
records, `CountHeaders` returns 5, and 3 of 12 sectors stay clear. -/
theorem allocate_numClear_witness :
    ∃ c : Int,
      CountHeaders tinyGeometry
        (Allocate tinyGeometry 0 (clearMap 12) (blankDisk tinyGeometry)
          (FileHeader.fresh tinyGeometry 0) 9).disk
        (Allocate tinyGeometry 0 (clearMap 12) (blankDisk tinyGeometry)
          (FileHeader.fresh tinyGeometry 0) 9).hdr = some c ∧
      c = 5 ∧
      Bitmap.NumClear (Allocate tinyGeometry 0 (clearMap 12) (blankDisk tinyGeometry)
          (FileHeader.fresh tinyGeometry 0) 9).freeMap
        = Bitmap.NumClear (clearMap 12) - (divRoundUp 9 tinyGeometry.SectorSize + (c - 1)) :=
  (allocate_numClear tinyGeometry 0 0 (by decide) (clearMap 12) (blankDisk tinyGeometry) 9
    (by decide) (by decide) (by decide)).elim
    (fun c h => ⟨c, h.1, h.2.1.trans (by decide), h.2.2⟩)

/-! ## Facts about a trailing slash in a path -/

/-- C31: for a name `a` without `/` that fits the buffer `dir`, held by an in-use entry of
the directory whose sector loads to an entry table, `GetDirSector("/a/")` returns 1, the
sector of the root, whatever sector the entry of `a` records: the nested call gets the
suffix `/`. -/
theorem getDirSector_trailing_slash (dirMaxLen maxLen : Nat) (load : DirDisk)
    (this : Directory) (a : List Char) (sub : Directory) (hslash : '/' ∉ a)
    (hlen : a.length ≤ dirMaxLen) (hin : this.FindIndex maxLen a ≠ -1)
    (hload : load (this.Find maxLen a) = some sub) :
    GetDirSector dirMaxLen maxLen load this ('/' :: (a ++ ['/'])) = some 1 ∧
    this.Find maxLen a = (this.slot (this.FindIndex maxLen a)).sector := by
  obtain ⟨t1, t2⟩ := takeWhile_component a ['/'] hslash (Or.inr ⟨[], rfl⟩)
  have hnotroot : ¬ ('/' :: (a ++ ['/']) = ['/']) := by simp
  have hfuel : ('/' :: (a ++ ['/'])).length = (a.length + 1) + 1 := by simp
  refine ⟨?_, by simp [Directory.Find, hin]⟩
  unfold GetDirSector
  rw [hfuel, GetDirSectorFuel]
  simp only [hnotroot, if_false, t1, t2, not_lt.2 hlen, hload]
  simp [GetDirSectorFuel]

/-- C31, on the hierarchy `/a/b/c`: the entry of `a` records sector 5, and `"/a/"`
resolves to 1. -/
theorem getDirSector_trailing_slash_witness :
    abcRoot.Find 9 ['a'] = 5 ∧
    GetDirSector 255 9 abcDisk abcRoot ['/', 'a', '/'] = some 1 :=
  ⟨by decide,
    (getDirSector_trailing_slash 255 9 abcDisk abcRoot ['a']
      ((Directory.empty 4).Add 9 ['b'] 6 true).2 (by decide) (by decide) (by decide)
      (by decide)).1⟩

/-! ## Facts about the scheduler -/

theorem pickL1_spec (info : ThreadPtr → ThreadInfo) (l : List ThreadPtr) :
    ∀ picked, (pickL1 info picked l = picked ∨ pickL1 info picked l ∈ l) ∧
      BeforeL1 info (pickL1 info picked l) picked ∧
      ∀ t ∈ l, BeforeL1 info (pickL1 info picked l) t := by
  induction l with
  | nil =>
    intro picked
    exact ⟨Or.inl rfl, Or.inr ⟨rfl, le_refl _⟩, fun t ht => absurd ht (List.not_mem_nil _)⟩
  | cons t rest ih =>
    intro picked
    obtain ⟨a1, a2, a3⟩ := ih t
    obtain ⟨b1, b2, b3⟩ := ih picked
    unfold BeforeL1 at a2 a3 b2 b3 ⊢
    unfold pickL1
    split
    · split
      · refine ⟨Or.inr ?_, by omega, ?_⟩
        · rcases a1 with h | h
          · rw [h]; exact List.mem_cons_self _ _
          · exact List.mem_cons_of_mem _ h
        · intro x hx
          rcases List.mem_cons.1 hx with rfl | hx
          · exact a2
          · exact a3 x hx
      · refine ⟨?_, b2, ?_⟩
        · rcases b1 with h | h
          · exact Or.inl h
          · exact Or.inr (List.mem_cons_of_mem _ h)
        · intro x hx
          rcases List.mem_cons.1 hx with rfl | hx
          · omega
          · exact b3 x hx
    · split
      · refine ⟨Or.inr ?_, by omega, ?_⟩
        · rcases a1 with h | h
          · rw [h]; exact List.mem_cons_self _ _
          · exact List.mem_cons_of_mem _ h
        · intro x hx
          rcases List.mem_cons.1 hx with rfl | hx
          · exact a2
          · exact a3 x hx
      · refine ⟨?_, b2, ?_⟩
        · rcases b1 with h | h
          · exact Or.inl h
          · exact Or.inr (List.mem_cons_of_mem _ h)
        · intro x hx
          rcases List.mem_cons.1 hx with rfl | hx
          · omega
          · exact b3 x hx

theorem pickL2_spec (info : ThreadPtr → ThreadInfo) (l : List ThreadPtr) :
    ∀ picked, (pickL2 info picked l = picked ∨ pickL2 info picked l ∈ l) ∧
      BeforeL2 info (pickL2 info picked l) picked ∧
      ∀ t ∈ l, BeforeL2 info (pickL2 info picked l) t := by
  induction l with
  | nil =>
    intro picked
    exact ⟨Or.inl rfl, Or.inr ⟨rfl, le_refl _⟩, fun t ht => absurd ht (List.not_mem_nil _)⟩
  | cons t rest ih =>
    intro picked
    obtain ⟨a1, a2, a3⟩ := ih t
    obtain ⟨b1, b2, b3⟩ := ih picked
    unfold BeforeL2 at a2 a3 b2 b3 ⊢
    unfold pickL2
    split
    · split
      · refine ⟨Or.inr ?_, by omega, ?_⟩
        · rcases a1 with h | h
          · rw [h]; exact List.mem_cons_self _ _
          · exact List.mem_cons_of_mem _ h
        · intro x hx
          rcases List.mem_cons.1 hx with rfl | hx
          · exact a2
          · exact a3 x hx
      · refine ⟨?_, b2, ?_⟩
        · rcases b1 with h | h
          · exact Or.inl h
          · exact Or.inr (List.mem_cons_of_mem _ h)
        · intro x hx
          rcases List.mem_cons.1 hx with rfl | hx
          · omega
          · exact b3 x hx
    · split
      · refine ⟨Or.inr ?_, by omega, ?_⟩
        · rcases a1 with h | h
          · rw [h]; exact List.mem_cons_self _ _
          · exact List.mem_cons_of_mem _ h
        · intro x hx
          rcases List.mem_cons.1 hx with rfl | hx
          · exact a2
          · exact a3 x hx
      · refine ⟨?_, b2, ?_⟩
        · rcases b1 with h | h
          · exact Or.inl h
          · exact Or.inr (List.mem_cons_of_mem _ h)
        · intro x hx
          rcases List.mem_cons.1 hx with rfl | hx
          · omega
          · exact b3 x hx

/-- On a queue that holds each thread once, `removeFromQueue` of a thread of the queue
returns it and takes out its one occurrence. -/
theorem removeFromQueue_mem (p : ThreadPtr) (l : List ThreadPtr) (hl : l.Nodup)
    (hp : p ∈ l) :
    ∃ pre post, l = pre ++ p :: post ∧ removeFromQueue p l = some (p, pre ++ post) := by
  obtain ⟨pre, post, _, h2, h3⟩ := List.exists_erase_eq hp
  refine ⟨pre, post, h2, ?_⟩
  have hnot : p ∉ l.erase p := hl.not_mem_erase
  unfold removeFromQueue listRemove
  rw [if_pos hp, if_neg hnot, h3]
  rfl

/-- C32: with interrupts off and queues that hold each thread once, `FindNextToRun`
returns; it returns `NULL` exactly when `L1`, `L2` and `L3` are all empty, and then leaves
the queues as they are. Otherwise the thread comes from the first non-empty queue in the
order `L1`, `L2`, `L3`: from `L1` a thread with the smallest remaining burst time, from
`L2` one with the highest priority, among equals in both one with the smallest ID, from
`L3` the front thread; the one occurrence of that thread is taken out of its queue, whose
other threads keep their order, and the other two queues are unchanged. -/
theorem findNextToRun_spec (info : ThreadPtr → ThreadInfo) (s : Scheduler)
    (h1 : s.L1.Nodup) (h2 : s.L2.Nodup) (h3 : s.L3.Nodup) :
    ∃ r s1, s.FindNextToRun info true = some (r, s1) ∧
      (r = none ↔ s.L1 = [] ∧ s.L2 = [] ∧ s.L3 = []) ∧
      (r = none → s1 = s) ∧
      (s.L1 ≠ [] → ∃ p pre post, r = some p ∧ s.L1 = pre ++ p :: post ∧
        s1.L1 = pre ++ post ∧ s1.L2 = s.L2 ∧ s1.L3 = s.L3 ∧
        ∀ t ∈ s.L1, BeforeL1 info p t) ∧
      (s.L1 = [] → s.L2 ≠ [] → ∃ p pre post, r = some p ∧ s.L2 = pre ++ p :: post ∧
        s1.L2 = pre ++ post ∧ s1.L1 = s.L1 ∧ s1.L3 = s.L3 ∧
        ∀ t ∈ s.L2, BeforeL2 info p t) ∧
      (s.L1 = [] → s.L2 = [] → s.L3 ≠ [] → ∃ p post, r = some p ∧ s.L3 = p :: post ∧
        s1.L3 = post ∧ s1.L1 = s.L1 ∧ s1.L2 = s.L2) := by
  obtain ⟨L1, L2, L3⟩ := s
  simp only at h1 h2 h3 ⊢
  cases L1 with
  | cons f1 r1 =>
    obtain ⟨a1, _, a3⟩ := pickL1_spec info (f1 :: r1) f1
    have hmem : pickL1 info f1 (f1 :: r1) ∈ f1 :: r1 := by
      rcases a1 with h | h
      · rw [h]; exact List.mem_cons_self _ _
      · exact h
    obtain ⟨pre, post, e1, e2⟩ := removeFromQueue_mem _ _ h1 hmem
    refine ⟨some (pickL1 info f1 (f1 :: r1)), ⟨pre ++ post, L2, L3⟩, ?_, by simp, by simp,
      fun _ => ⟨_, pre, post, rfl, e1, rfl, rfl, rfl, a3⟩, fun h => absurd h (by simp),
      fun h => absurd h (by simp)⟩
    simp [Scheduler.FindNextToRun, e2]
  | nil =>
    cases L2 with
    | cons f2 r2 =>
      obtain ⟨a1, _, a3⟩ := pickL2_spec info (f2 :: r2) f2
      have hmem : pickL2 info f2 (f2 :: r2) ∈ f2 :: r2 := by
        rcases a1 with h | h
        · rw [h]; exact List.mem_cons_self _ _
        · exact h
      obtain ⟨pre, post, e1, e2⟩ := removeFromQueue_mem _ _ h2 hmem
      refine ⟨some (pickL2 info f2 (f2 :: r2)), ⟨[], pre ++ post, L3⟩, ?_, by simp, by simp,
        fun h => absurd rfl h, fun _ _ => ⟨_, pre, post, rfl, e1, rfl, rfl, rfl, a3⟩,
        fun _ h => absurd h (by simp)⟩
      simp [Scheduler.FindNextToRun, e2]
    | nil =>
      cases L3 with
      | cons f3 r3 =>
        obtain ⟨pre, post, e1, e2⟩ := removeFromQueue_mem f3 (f3 :: r3) h3
          (List.mem_cons_self _ _)
        have hf : f3 ∉ r3 := (List.nodup_cons.1 h3).1
        have hpre : pre = [] := by
          cases pre with
          | nil => rfl
          | cons x pre =>
            simp only [List.cons_append, List.cons.injEq] at e1
            obtain ⟨rfl, e1⟩ := e1
            exact absurd (by rw [e1]; simp) hf
        subst hpre
        simp only [List.nil_append, List.cons.injEq, true_and] at e1 e2
        subst e1
        refine ⟨some f3, ⟨[], [], r3⟩, ?_, by simp, by simp, fun h => absurd rfl h,
          fun _ h => absurd rfl h, fun _ _ _ => ⟨f3, r3, rfl, rfl, rfl, rfl, rfl⟩⟩
        simp [Scheduler.FindNextToRun, e2]
      | nil =>
        refine ⟨none, ⟨[], [], []⟩, by simp [Scheduler.FindNextToRun], by simp, by simp,
          fun h => absurd rfl h, fun _ h => absurd rfl h, fun _ _ h => absurd rfl h⟩

/-- C32, on `demoScheduler`: threads 2 and 3 share the smallest remaining burst time, so
thread 2 is returned and taken out of `L1`. -/
theorem findNextToRun_spec_witness :
    ∃ r s1, demoScheduler.FindNextToRun demoInfo true = some (r, s1) ∧
      r = some 2 ∧ s1 = ⟨[1, 3], [4], [5, 6]⟩ :=
  have he : demoScheduler.FindNextToRun demoInfo true
      = some (some 2, ⟨[1, 3], [4], [5, 6]⟩) := by decide
  (findNextToRun_spec demoInfo demoScheduler (by decide) (by decide) (by decide)).elim
    (fun r h => h.elim (fun s1 h2 =>
      ⟨r, s1, h2.1, (Prod.mk.inj (Option.some.inj (h2.1.symm.trans he))).1,
        (Prod.mk.inj (Option.some.inj (h2.1.symm.trans he))).2⟩))

/-! ## Facts about Deallocate after a failed Allocate -/

theorem length_allocIndirect (g : Geometry) (junk : Int)
    (child : Bitmap → Disk → FileHeader → Int → AllocResult) (cap : Int) (n : Nat) :
    ∀ (i : Nat) (rem : Int) (fm : Bitmap) (d : Disk) (h : FileHeader),
      (allocIndirect g junk child cap n i rem fm d h).hdr.dataSectors.length
        = h.dataSectors.length := by
  induction n with
  | zero => intro i rem fm d h; simp [allocIndirect]
  | succ n ih =>
    intro i rem fm d h
    rw [allocIndirect]
    by_cases hi : i < h.dataSectors.length
    · by_cases hr : 0 ≤ (Bitmap.FindAndSet fm).1
      · simp only [hi, hr, if_true]
        generalize (if rem > cap then cap else rem) = sz
        generalize child (Bitmap.FindAndSet fm).2 d (FileHeader.fresh g junk) sz = c
        rcases hc : c.ret with _ | _ | _
        · simp
        · simp
        · by_cases hb : rem - sz ≤ 0
          · simp [hb]
          · simp only [hb, if_false]
            rw [ih]
            simp
      · simp [hi, hr]
    · simp [hi]

end NachOS
